import Mathlib

/-!
# kodiaq: the slave-side data processor and the master-side run bookkeeping

A shallow embedding of

* `src/slave/DataProcessor.cc`: `SplitBlocks`, `SplitChannels` (legacy firmware, ZLE or raw),
  `SplitChannelsNewFW`, the per-occurrence clock bookkeeping and the insert batching of
  `DataProcessor::Process`, and `GetBufferIntegral`;
* `src/master/MasterMongodbConnection.cc`: the bucketed sharding plan of `MakeMongoCollection`,
  `PullRunMode`, `UpdateEndTime`, `IsRunning`, the rolling-collection worker
  `CollectionThreadWrapper`, the run number of `InsertRunDoc` and `SendLogMessage`;
* `src/common/koOptions.cc`: `Reset` and `ReadParameterFile`.

Conventions.  A buffer `u_int32_t*` is a `List Nat` of 32-bit words, paired with the byte count
that `sizevec` carries for it.  Unsigned 32-bit arithmetic is `Nat` arithmetic followed by
`u32` (reduction modulo `2^32`).  A read or a `std::copy` that leaves the buffer has no defined
result in C++; the embedding makes it a `Fault.outOfBounds`.  Loops whose progress depends on
the data take a fuel argument and report a fault when it is used up.  What the program does to
the outside (a call of `InsertThreaded`, a command sent to the database) is recorded in a list,
oldest first, and what the outside answers is a function argument.

Assumptions.  `unsigned long` and `long long` have 64 bits (LP64), `int` has 32 bits and
conversions between signed and unsigned values wrap (two's complement).  An array `new` succeeds
unless its length is a negative `int`, which is `Fault.badAlloc`.  The `float` arithmetic of
`GetBufferIntegral` is exact rational arithmetic.  The `double` arithmetic of
`CollectionThreadWrapper` is IEEE 754 binary64 with rounding to nearest, ties to even, on values
within the normal range.  The addition of `int` values wraps (two's complement).  Assertions are
compiled in.  Deleting the input buffers, logging and the profiling file have no counterpart
here.
-/

namespace Kodiaq

/-! ## Machine words -/

/-- Reduction to an unsigned 32-bit word. -/
def u32 (n : Nat) : Nat := n % 4294967296

/-- Unsigned 32-bit subtraction `a - b` (wrapping), for `a` a 32-bit word. -/
def subU32 (a b : Nat) : Nat := (a + 4294967296 - b % 4294967296) % 4294967296

/-- The C cast `(int) x` of a 32-bit word (two's complement). -/
def toInt32 (x : Nat) : Int :=
  if x % 4294967296 < 2147483648 then ((x % 4294967296 : Nat) : Int)
  else ((x % 4294967296 : Nat) : Int) - 4294967296

/-- The C cast `(long long) x` of a 64-bit unsigned value (two's complement). -/
def toInt64 (x : Nat) : Int :=
  if x % 18446744073709551616 < 9223372036854775808 then ((x % 18446744073709551616 : Nat) : Int)
  else ((x % 18446744073709551616 : Nat) : Int) - 18446744073709551616

/-- The builtin `__builtin_popcount` on a 32-bit word: the number of set bits. -/
def popcount (m : Nat) : Nat :=
  ((List.range 32).map (fun i => (m >>> i) % 2)).sum

/-- The ways the parsers can leave defined behaviour, or fail to finish within the fuel. -/
inductive Fault where
  | outOfBounds
  | badAlloc
  | fuel
deriving DecidableEq, Repr

deriving instance DecidableEq for Except

/-- Read of `buf[i]`. -/
def rd (buf : List Nat) (i : Nat) : Except Fault Nat :=
  match buf[i]? with
  | some w => Except.ok w
  | none => Except.error Fault.outOfBounds

/-- The call `std::copy(buf + first, buf + last, keep)`: the words `buf[first .. last)`.
An empty range reads nothing. -/
def copyWords (buf : List Nat) (first last : Nat) : Except Fault (List Nat) :=
  if first = last then Except.ok []
  else if first < last ∧ last ≤ buf.length then Except.ok ((buf.drop first).take (last - first))
  else Except.error Fault.outOfBounds

/-! ## SplitBlocks -/

/-- The two vectors `retbuff`, `retsize` that `SplitBlocks` returns by reference. -/
structure Blocks where
  retbuff : List (List Nat)
  retsize : List Nat
deriving DecidableEq, Repr

/-- The size `SplitBlocks` takes from a header word: the C expression
`word & 0xFFFF*4`, in which `*` binds tighter than `&`. -/
def blockSize (w : Nat) : Nat := w &&& (0xFFFF * 4)

/-- The `while` loop of `SplitBlocks` over one buffer, from word index `idx`. -/
def splitBlocksScan (buf : List Nat) (size : Nat) : Nat → Nat → Blocks → Except Fault Blocks
  | 0, _, _ => Except.error Fault.fuel
  | fuel + 1, idx, out =>
    if idx < size / 4 then
      match rd buf idx with
      | Except.error e => Except.error e
      | Except.ok w =>
        if w ≠ 0xFFFFFFFF then
          if w >>> 20 = 0xA00 then
            match copyWords buf idx (u32 (idx + blockSize w)) with
            | Except.error e => Except.error e
            | Except.ok rb =>
              splitBlocksScan buf size fuel (u32 (idx + blockSize w))
                { retbuff := out.retbuff ++ [rb], retsize := out.retsize ++ [u32 (blockSize w * 4)] }
          else splitBlocksScan buf size fuel (u32 (idx + 1)) out
        else Except.ok out
    else Except.ok out

/-- The `for` loop of `SplitBlocks` over the buffers `(buffer, size in bytes)`. -/
def splitBlocksFor (fuel : Nat) : List (List Nat × Nat) → Blocks → Except Fault Blocks
  | [], out => Except.ok out
  | (buf, size) :: rest, out =>
    if size = 0 then splitBlocksFor fuel rest out
    else
      match splitBlocksScan buf size fuel 0 out with
      | Except.error e => Except.error e
      | Except.ok out1 => splitBlocksFor fuel rest out1

/-- The function `DataProcessor::SplitBlocks`. -/
def SplitBlocks (fuel : Nat) (blts : List (List Nat × Nat)) : Except Fault Blocks :=
  splitBlocksFor fuel blts { retbuff := [], retsize := [] }

/-! ## SplitChannels and SplitChannelsNewFW -/

/-- The parallel vectors the channel parsers fill: `retbuff`, `retsize` (returned by reference),
`timeStamps`, `channels` and `eventIndices` (supplied by the caller), and the `bErrorSet` flag of
`SplitChannelsNewFW`. -/
structure Parsed where
  retbuff : List (List Nat)
  retsize : List Nat
  timeStamps : List Nat
  channels : List Nat
  eventIndices : List Nat
  bErrorSet : Bool
deriving DecidableEq, Repr

/-- The four `push_back` calls that record one occurrence. -/
def Parsed.push (out : Parsed) (keep : List Nat) (sz channel time : Nat) : Parsed :=
  { out with
    retbuff := out.retbuff ++ [keep]
    retsize := out.retsize ++ [sz]
    channels := out.channels ++ [channel]
    timeStamps := out.timeStamps ++ [time] }

/-- The loop `while(wordCnt<channelSize)` of `SplitChannels` for one channel.
Returns the word index reached and the outputs. -/
def channelWords (buf : List Nat) (zle : Bool) (channel headerTime channelSize : Nat) :
    Nat → Nat → Nat → Nat → Parsed → Except Fault (Nat × Parsed)
  | 0, _, _, _, _ => Except.error Fault.fuel
  | fuel + 1, idx, wordCnt, sampleCnt, out =>
    if wordCnt < channelSize then
      if zle then
        match rd buf idx with
        | Except.error e => Except.error e
        | Except.ok w =>
          if w >>> 28 ≠ 0x8 then
            channelWords buf zle channel headerTime channelSize fuel
              (u32 (idx + 1)) (u32 (wordCnt + 1)) (u32 (sampleCnt + u32 (2 * w))) out
          else
            let good := w &&& 0xFFFFFFF
            let idx1 := u32 (idx + 1)
            match copyWords buf idx1 (u32 (idx1 + good)) with
            | Except.error e => Except.error e
            | Except.ok keep =>
              channelWords buf zle channel headerTime channelSize fuel
                (u32 (idx1 + good)) (u32 (u32 (wordCnt + 1) + good)) (u32 (sampleCnt + 2 * good))
                (out.push keep (u32 (good * 4)) channel (u32 (headerTime + sampleCnt)))
      else
        if 2147483648 ≤ channelSize then Except.error Fault.badAlloc
        else
          match copyWords buf idx (u32 (idx + channelSize)) with
          | Except.error e => Except.error e
          | Except.ok keep =>
            channelWords buf zle channel headerTime channelSize fuel
              (u32 (idx + channelSize)) (u32 (wordCnt + channelSize))
              (u32 (sampleCnt + 2 * channelSize))
              (out.push keep (u32 (channelSize * 4)) channel (u32 (headerTime + sampleCnt)))
    else Except.ok (idx, out)

/-- The loop `for(int channel=0; channel<8; channel++)` of `SplitChannels`, over the channels
still to visit.  `channelSize0` is the value `channelSize` holds on entry (the raw path computes
it from the header; the ZLE path overwrites it per channel). -/
def splitChannelsFor (buf : List Nat) (zle : Bool) (mask headerTime channelSize0 fuel : Nat) :
    List Nat → Nat → Parsed → Except Fault (Nat × Parsed)
  | [], idx, out => Except.ok (idx, out)
  | channel :: rest, idx, out =>
    if (mask >>> channel) &&& 1 = 0 then
      splitChannelsFor buf zle mask headerTime channelSize0 fuel rest idx out
    else if zle then
      match rd buf idx with
      | Except.error e => Except.error e
      | Except.ok channelSize =>
        match channelWords buf zle channel headerTime channelSize fuel (u32 (idx + 1)) 1 0 out with
        | Except.error e => Except.error e
        | Except.ok (idx1, out1) =>
          splitChannelsFor buf zle mask headerTime channelSize0 fuel rest idx1 out1
    else
      match channelWords buf zle channel headerTime channelSize0 fuel idx 0 0 out with
      | Except.error e => Except.error e
      | Except.ok (idx1, out1) =>
        splitChannelsFor buf zle mask headerTime channelSize0 fuel rest idx1 out1

/-- The channel numbers the `for` loops visit. -/
def allChannels : List Nat := [0, 1, 2, 3, 4, 5, 6, 7]

/-- The loop `while(idx < size/4)` of `SplitChannels` over one buffer.  `n` is the fuel handed
to each per-channel loop. -/
def splitChannelsScan (buf : List Nat) (size : Nat) (zle : Bool) (n : Nat) :
    Nat → Nat → Parsed → Except Fault Parsed
  | 0, _, _ => Except.error Fault.fuel
  | fuel + 1, idx, out =>
    if idx < size / 4 then
      match rd buf idx with
      | Except.error e => Except.error e
      | Except.ok w =>
        if w = 0xFFFFFFFF then splitChannelsScan buf size zle n fuel (u32 (idx + 1)) out
        else if w >>> 20 ≠ 0xA00 then splitChannelsScan buf size zle n fuel (u32 (idx + 1)) out
        else
          match rd buf (u32 (idx + 1)) with
          | Except.error e => Except.error e
          | Except.ok w1 =>
            let mask := w1 &&& 0xFF
            if zle = false ∧ popcount mask = 0 then
              splitChannelsScan buf size zle n fuel (u32 (idx + 1)) out
            else
              let channelSize0 := if zle then 0 else subU32 (w &&& 0xFFFFFF) 4 / popcount mask
              let out1 := { out with eventIndices := out.eventIndices ++ [u32 out.retbuff.length] }
              match rd buf (u32 (idx + 3)) with
              | Except.error e => Except.error e
              | Except.ok w3 =>
                let headerTime := w3 &&& 0x7FFFFFFF
                match splitChannelsFor buf zle mask headerTime channelSize0 n allChannels
                    (u32 (idx + 4)) out1 with
                | Except.error e => Except.error e
                | Except.ok (idx1, out2) => splitChannelsScan buf size zle n fuel idx1 out2
    else Except.ok out

/-- The loop `for(x = 0; x < buffvec->size(); x++)` of `SplitChannels`. -/
def splitChannelsBufs (zle : Bool) (fuel : Nat) :
    List (List Nat × Nat) → Parsed → Except Fault Parsed
  | [], out => Except.ok out
  | (buf, size) :: rest, out =>
    if size = 0 then splitChannelsBufs zle fuel rest out
    else
      match splitChannelsScan buf size zle fuel fuel 0 out with
      | Except.error e => Except.error e
      | Except.ok out1 => splitChannelsBufs zle fuel rest out1

/-- The function `DataProcessor::SplitChannels`, called with a non-null `eventIndices` as
`Process` does.  `timeStamps`, `channels`, `eventIndices` are the caller's vectors. -/
def SplitChannels (fuel : Nat) (blts : List (List Nat × Nat))
    (timeStamps channels eventIndices : List Nat) (zle : Bool) : Except Fault Parsed :=
  splitChannelsBufs zle fuel blts
    { retbuff := [], retsize := [], timeStamps := timeStamps, channels := channels,
      eventIndices := eventIndices, bErrorSet := false }

/-- The loop `for(int channel=0; channel<8; channel++)` of `SplitChannelsNewFW`.
`size` is `(*sizevec)[x]`, the byte count of the buffer. -/
def newFWFor (buf : List Nat) (size mask : Nat) :
    List Nat → Nat → Parsed → Except Fault (Nat × Parsed)
  | [], idx, out => Except.ok (idx, out)
  | channel :: rest, idx, out =>
    if (mask >>> channel) &&& 1 = 0 then newFWFor buf size mask rest idx out
    else
      match rd buf idx with
      | Except.error e => Except.error e
      | Except.ok channelSize =>
        match rd buf (u32 (idx + 1)) with
        | Except.error e => Except.error e
        | Except.ok w =>
          let channelTime := w &&& 0x7FFFFFFF
          let idx2 := u32 (u32 (idx + 1) + 1)
          let last := subU32 (u32 (idx2 + channelSize)) 2
          if last < size then
            match copyWords buf idx2 last with
            | Except.error e => Except.error e
            | Except.ok keep =>
              newFWFor buf size mask rest last
                (out.push keep (u32 (subU32 channelSize 2 * 4)) channel channelTime)
          else newFWFor buf size mask rest idx2 out

/-- The loop `while(idx < size/4)` of `SplitChannelsNewFW` over one buffer. -/
def newFWScan (buf : List Nat) (size : Nat) : Nat → Nat → Parsed → Except Fault Parsed
  | 0, _, _ => Except.error Fault.fuel
  | fuel + 1, idx, out =>
    if idx < size / 4 then
      match rd buf idx with
      | Except.error e => Except.error e
      | Except.ok w =>
        if w = 0xFFFFFFFF then newFWScan buf size fuel (u32 (idx + 1)) out
        else if w >>> 20 ≠ 0xA00 then newFWScan buf size fuel (u32 (idx + 1)) out
        else
          match rd buf (u32 (idx + 1)) with
          | Except.error e => Except.error e
          | Except.ok w1 =>
            let mask := w1 &&& 0xFF
            match newFWFor buf size mask allChannels (u32 (idx + 4)) out with
            | Except.error e => Except.error e
            | Except.ok (idx1, out1) => newFWScan buf size fuel idx1 out1
    else Except.ok out

/-- The loop `for(x = 0; x < buffvec->size(); x++)` of `SplitChannelsNewFW`. -/
def newFWBufs (fuel : Nat) : List (List Nat × Nat) → Parsed → Except Fault Parsed
  | [], out => Except.ok out
  | (buf, size) :: rest, out =>
    if size = 0 then newFWBufs fuel rest out
    else
      match newFWScan buf size fuel 0 out with
      | Except.error e => Except.error e
      | Except.ok out1 => newFWBufs fuel rest out1

/-- The function `DataProcessor::SplitChannelsNewFW`; `bErrorSet` starts (and stays) false. -/
def SplitChannelsNewFW (fuel : Nat) (blts : List (List Nat × Nat))
    (timeStamps channels : List Nat) : Except Fault Parsed :=
  newFWBufs fuel blts
    { retbuff := [], retsize := [], timeStamps := timeStamps, channels := channels,
      eventIndices := [], bErrorSet := false }

/-! ## The timeline bookkeeping of `Process` -/

/-- The per-channel vectors `Process` declares for one round of BLTs. -/
structure Timeline where
  SawThisChannelOnce : List Bool
  ChannelResetCounters : List Nat
  PrevTime : List Nat
deriving DecidableEq, Repr

/-- The declarations `SawThisChannelOnce(8,false)`, `ChannelResetCounters(8,resetCounterStart)`,
`PrevTime(8,0)`. -/
def Timeline.start (resetCounterStart : Nat) : Timeline :=
  { SawThisChannelOnce := List.replicate 8 false
    ChannelResetCounters := List.replicate 8 resetCounterStart
    PrevTime := List.replicate 8 0 }

/-- The test `fabs((int)headerTime - (int)TimeStamp) > 10E8`.  The `int` difference is taken
modulo `2^32` (two's complement), which is the exact difference whenever it fits an `int`. -/
def farApart (headerTime TimeStamp : Nat) : Bool :=
  decide (1000000000 < (toInt32 (subU32 (u32 headerTime) TimeStamp)).natAbs)

/-- Lines 551-565 of `Process`: the update of the three vectors for an occurrence with the
given `TimeStamp` on `Channel` (already checked to be in `0..7`). -/
def timelineStep (headerTime : Nat) (tl : Timeline) (TimeStamp Channel : Nat) : Timeline :=
  let tl1 : Timeline :=
    if tl.SawThisChannelOnce.getD Channel false = false then
      let ctr := tl.ChannelResetCounters.getD Channel 0
      { tl with
        SawThisChannelOnce := tl.SawThisChannelOnce.set Channel true
        ChannelResetCounters :=
          if farApart headerTime TimeStamp then
            if TimeStamp > headerTime ∧ ctr ≠ 0 then tl.ChannelResetCounters.set Channel (subU32 ctr 1)
            else tl.ChannelResetCounters.set Channel (u32 (ctr + 1))
          else tl.ChannelResetCounters }
    else tl
  let tl2 : Timeline :=
    if TimeStamp < tl1.PrevTime.getD Channel 0 then
      { tl1 with
        ChannelResetCounters :=
          tl1.ChannelResetCounters.set Channel (u32 (tl1.ChannelResetCounters.getD Channel 0 + 1)) }
    else tl1
  { tl2 with PrevTime := tl2.PrevTime.set Channel TimeStamp }

/-- Lines 570-572 of `Process`: `((unsigned long)ChannelResetCounters[Channel] << 31) + TimeStamp`
as an unsigned 64-bit value, converted to `long long`. -/
def liftTime (tl : Timeline) (TimeStamp Channel : Nat) : Int :=
  toInt64 ((((tl.ChannelResetCounters.getD Channel 0) <<< 31) + TimeStamp) % 18446744073709551616)

/-- The fields of the record `Process` builds for one occurrence (no compression, not lite). -/
structure Record where
  module : Int
  channel : Int
  time : Int
  endtime : Int
  data : List Nat
deriving DecidableEq, Repr

/-- The ways the occurrence loop of `Process` stops early. -/
inductive ProcFault where
  | channelError
  | outOfBounds
deriving DecidableEq, Repr

/-- The loop `for(b = 0; b < buffvec->size(); b++)` of `Process` in the channel-parsing modes
(`processing_mode` 2, 3, 4), up to the construction of the record; `k` counts the iterations
left.  `ProcFault.channelError` is the `ERROR in CHANNEL` return. -/
def processFor (iModule : Int) (headerTime : Nat) (p : Parsed) :
    Nat → Nat → Timeline → List Record → Except ProcFault (Timeline × List Record)
  | 0, _, tl, recs => Except.ok (tl, recs)
  | k + 1, b, tl, recs =>
    match p.timeStamps[b]?, p.channels[b]? with
    | some TimeStamp, some ch =>
      let Channel : Int := toInt32 ch
      if Channel < 0 ∨ Channel > 7 then Except.error ProcFault.channelError
      else
        let tl1 := timelineStep headerTime tl TimeStamp Channel.toNat
        let Time64 := liftTime tl1 TimeStamp Channel.toNat
        match p.retbuff[b]?, p.retsize[b]? with
        | some buff, some eventSize =>
          processFor iModule headerTime p k (b + 1) tl1
            (recs ++ [{ module := iModule, channel := Channel, time := Time64,
                        endtime := Time64 + (eventSize : Int), data := buff }])
        | _, _ => Except.error ProcFault.outOfBounds
    | _, _ => Except.error ProcFault.outOfBounds

/-- One round of `Process` on the output of a channel parser, for a digitizer whose
`ReadoutBuffer` reported `resetCounterStart` and `headerTime`. -/
def processRound (iModule : Int) (resetCounterStart headerTime : Nat) (p : Parsed) :
    Except ProcFault (Timeline × List Record) :=
  processFor iModule headerTime p p.retbuff.length 0 (Timeline.start resetCounterStart) []

/-! ## Auxiliary definitions: the timeline of one channel -/

/-- The occurrences `(TimeStamp, channel, buffer, size)` that the loop of `Process` reads at
`b = 0, 1, ...` from the four parallel vectors. -/
def Parsed.quads (p : Parsed) : List (Nat × Nat × List Nat × Nat) :=
  p.timeStamps.zip (p.channels.zip (p.retbuff.zip p.retsize))

/-- The timeline after the occurrences of a list, in order. -/
def timelineRun (headerTime : Nat) : Timeline → List (Nat × Nat × List Nat × Nat) → Timeline
  | tl, [] => tl
  | tl, (ts, ch, _, _) :: rest => timelineRun headerTime (timelineStep headerTime tl ts ch) rest

/-- The records built for the occurrences of a list, in order. -/
def recordsRun (iModule : Int) (headerTime : Nat) :
    Timeline → List (Nat × Nat × List Nat × Nat) → List Record
  | _, [] => []
  | tl, (ts, ch, buff, sz) :: rest =>
    let tl1 := timelineStep headerTime tl ts ch
    { module := iModule, channel := (ch : Int), time := liftTime tl1 ts ch,
      endtime := liftTime tl1 ts ch + (sz : Int), data := buff } ::
      recordsRun iModule headerTime tl1 rest

/-- The three vectors have the eight entries they are declared with. -/
def Timeline.WF (tl : Timeline) : Prop :=
  tl.SawThisChannelOnce.length = 8 ∧ tl.ChannelResetCounters.length = 8 ∧ tl.PrevTime.length = 8

/-- The entries `(SawThisChannelOnce[c], ChannelResetCounters[c], PrevTime[c])` of one channel. -/
structure ChanState where
  saw : Bool
  ctr : Nat
  prev : Nat
deriving DecidableEq, Repr

/-- The entries of channel `c` in the three vectors. -/
def Timeline.chan (tl : Timeline) (c : Nat) : ChanState :=
  { saw := tl.SawThisChannelOnce.getD c false
    ctr := tl.ChannelResetCounters.getD c 0
    prev := tl.PrevTime.getD c 0 }

/-- The effect of `timelineStep` on the entries of the channel of the occurrence. -/
def chanStep (headerTime : Nat) (s : ChanState) (t : Nat) : ChanState :=
  let ctr1 :=
    if s.saw = false then
      if farApart headerTime t then
        if t > headerTime ∧ s.ctr ≠ 0 then subU32 s.ctr 1 else u32 (s.ctr + 1)
      else s.ctr
    else s.ctr
  let ctr2 := if t < s.prev then u32 (ctr1 + 1) else ctr1
  { saw := true, ctr := ctr2, prev := t }

/-- The 64-bit time of an occurrence at raw time `t`, for a channel whose counter is `s.ctr`. -/
def chanLift (s : ChanState) (t : Nat) : Int :=
  toInt64 (((s.ctr <<< 31) + t) % 18446744073709551616)

/-- The 64-bit times of the successive occurrences of one channel. -/
def chanTimes (headerTime : Nat) : ChanState → List Nat → List Int
  | _, [] => []
  | s, t :: rest => chanLift (chanStep headerTime s t) t :: chanTimes headerTime (chanStep headerTime s t) rest

/-- The raw times of the occurrences of channel `c`, in parse order. -/
def Parsed.timesOn (p : Parsed) (c : Nat) : List Nat :=
  (p.quads.filter (fun q => q.2.1 = c)).map (fun q => q.1)

/-- The 64-bit times of the records of channel `c`, in order. -/
def timesOf (recs : List Record) (c : Nat) : List Int :=
  (recs.filter (fun r => r.channel = (c : Int))).map (fun r => r.time)

/-- Specification §4.3 with an unbounded counter: the reset counter after an occurrence at raw
time `t`, from `(saw_once, reset_counter, last_time31)`. -/
def idealStep (headerTime : Nat) (s : ChanState) (t : Nat) : ChanState :=
  let ctr1 :=
    if s.saw = false then
      if farApart headerTime t then
        if t > headerTime ∧ s.ctr > 0 then s.ctr - 1 else s.ctr + 1
      else s.ctr
    else s.ctr
  let ctr2 := if t < s.prev then ctr1 + 1 else ctr1
  { saw := true, ctr := ctr2, prev := t }

/-- Specification §4.3 with an unbounded counter: the successive values of the reset counter of
one channel. -/
def idealCounters (headerTime : Nat) : ChanState → List Nat → List Nat
  | _, [] => []
  | s, t :: rest => (idealStep headerTime s t).ctr :: idealCounters headerTime (idealStep headerTime s t) rest

/-- The four output vectors are parallel and every recorded channel is in `0..7`. -/
def Parsed.Aligned (out : Parsed) : Prop :=
  out.retsize.length = out.retbuff.length ∧ out.timeStamps.length = out.retbuff.length ∧
    out.channels.length = out.retbuff.length ∧ ∀ x ∈ out.channels, x < 8

/-! ## Well-formed inputs of the channel parsers and the occurrences they carry -/

/-- One occurrence, as a parser records it: channel, timestamp and payload words. -/
structure Occurrence where
  channel : Nat
  time : Nat
  payload : List Nat
deriving DecidableEq, Repr

/-- The occurrences held by the parallel output vectors. -/
def Parsed.occurrences (out : Parsed) : List Occurrence :=
  (out.channels.zip (out.timeStamps.zip out.retbuff)).map
    (fun x => { channel := x.1, time := x.2.1, payload := x.2.2 })

/-- The output vectors after recording the occurrences of a list, each with its size in bytes. -/
def Parsed.pushAll (out : Parsed) : List Occurrence → Parsed
  | [] => out
  | x :: rest => (out.push x.payload (4 * x.payload.length) x.channel x.time).pushAll rest

/-- The channels of a list whose bit is set in the mask, in the order of the list. -/
def maskChannels (mask : Nat) (cs : List Nat) : List Nat :=
  cs.filter (fun c => (mask >>> c) &&& 1 ≠ 0)

/-- A channel block of the new firmware: the time word and the payload words. -/
structure FWBlock where
  time : Nat
  payload : List Nat
deriving DecidableEq, Repr

/-- The words of a new-firmware channel block: `channelSize = k + 2`, the time word, the `k`
payload words. -/
def FWBlock.words (b : FWBlock) : List Nat := (b.payload.length + 2) :: b.time :: b.payload

/-- A new-firmware event: the four header words and, for each channel of the mask, its block. -/
structure FWEvent where
  w0 : Nat
  w1 : Nat
  w2 : Nat
  w3 : Nat
  blk : Nat → FWBlock

/-- The channel mask of the header. -/
def FWEvent.mask (e : FWEvent) : Nat := e.w1 &&& 0xFF

/-- The words of the channel blocks of an event, for the channels of a list. -/
def FWEvent.blockWords (e : FWEvent) (cs : List Nat) : List Nat :=
  ((maskChannels e.mask cs).map (fun c => (e.blk c).words)).flatten

/-- The words of an event: header, then the blocks of the set mask bits in ascending order. -/
def FWEvent.words (e : FWEvent) : List Nat :=
  [e.w0, e.w1, e.w2, e.w3] ++ e.blockWords allChannels

/-- The occurrences an event carries, for the channels of a list. -/
def FWEvent.occurrences (e : FWEvent) (cs : List Nat) : List Occurrence :=
  (maskChannels e.mask cs).map
    (fun c => { channel := c, time := (e.blk c).time &&& 0x7FFFFFFF, payload := (e.blk c).payload })

/-- The pieces of a new-firmware BLT: filler words and events. -/
inductive FWItem where
  | filler
  | event (e : FWEvent)

/-- The words of a piece. -/
def FWItem.words : FWItem → List Nat
  | FWItem.filler => [0xFFFFFFFF]
  | FWItem.event e => e.words

/-- The occurrences of a piece. -/
def FWItem.occurrences : FWItem → List Occurrence
  | FWItem.filler => []
  | FWItem.event e => e.occurrences allChannels

/-- The header word of each event is marked `0xA00` in its top twelve bits. -/
def FWItem.legal : FWItem → Prop
  | FWItem.filler => True
  | FWItem.event e => e.w0 >>> 20 = 0xA00

/-- The words of a BLT made of the given pieces. -/
def fwWords (items : List FWItem) : List Nat := (items.map FWItem.words).flatten

/-- The occurrences of a BLT made of the given pieces, in order. -/
def fwOccurrences (items : List FWItem) : List Occurrence := (items.map FWItem.occurrences).flatten

/-- The payloads recorded for channel `c`, in order. -/
def payloadsOf (occs : List Occurrence) (c : Nat) : List (List Nat) :=
  (occs.filter (fun x => x.channel = c)).map (fun x => x.payload)

/-- The payloads of the blocks of channel `c` in a new-firmware BLT, in order. -/
def fwPayloads (c : Nat) : List FWItem → List (List Nat)
  | [] => []
  | FWItem.filler :: rest => fwPayloads c rest
  | FWItem.event e :: rest =>
    if c ∈ maskChannels e.mask allChannels then (e.blk c).payload :: fwPayloads c rest
    else fwPayloads c rest

/-! ## Well-formed legacy ZLE and raw inputs -/

/-- The content of a ZLE channel block after its size word: control words that announce skipped
samples, and control words that announce good data followed by those data words. -/
inductive ZItem where
  | skip (w : Nat)
  | good (w : Nat) (payload : List Nat)
deriving DecidableEq, Repr

/-- The words of a ZLE item. -/
def ZItem.words : ZItem → List Nat
  | ZItem.skip w => [w]
  | ZItem.good w payload => w :: payload

/-- A skip word has a top nibble other than `0x8`; a good-data control word has top nibble `0x8`
and announces as many words as follow it. -/
def ZItem.legal : ZItem → Prop
  | ZItem.skip w => w >>> 28 ≠ 0x8
  | ZItem.good w payload => w >>> 28 = 0x8 ∧ w &&& 0xFFFFFFF = payload.length

/-- The words of a sequence of ZLE items. -/
def zleWords (items : List ZItem) : List Nat := (items.map ZItem.words).flatten

/-- A well-formed ZLE channel block: the size word `channelSize`, then `channelSize - 1` words of
control and data. -/
def zleBlock (items : List ZItem) : List Nat := ((zleWords items).length + 1) :: zleWords items

/-- The occurrences of a ZLE channel block, `s` being the samples counted before the items:
one occurrence per good-data control word, at time `headerTime + sampleCnt` modulo `2^32`, where
a skip word `w` adds `2 * w` samples and a good-data word adds twice its word count. -/
def zleOccurrences (channel headerTime : Nat) : Nat → List ZItem → List Occurrence
  | _, [] => []
  | s, ZItem.skip w :: rest => zleOccurrences channel headerTime (s + 2 * w) rest
  | s, ZItem.good w payload :: rest =>
    { channel := channel, time := (headerTime + s) % 4294967296, payload := payload } ::
      zleOccurrences channel headerTime (s + 2 * (w &&& 0xFFFFFFF)) rest

/-- A legacy-firmware ZLE event: the four header words and, for each channel of the mask, the
items of its block. -/
structure ZEvent where
  w0 : Nat
  w1 : Nat
  w2 : Nat
  w3 : Nat
  blk : Nat → List ZItem

/-- The channel mask of the header. -/
def ZEvent.mask (e : ZEvent) : Nat := e.w1 &&& 0xFF

/-- The header time. -/
def ZEvent.headerTime (e : ZEvent) : Nat := e.w3 &&& 0x7FFFFFFF

/-- The words of the channel blocks of an event, for the channels of a list. -/
def ZEvent.blockWords (e : ZEvent) (cs : List Nat) : List Nat :=
  ((maskChannels e.mask cs).map (fun c => zleBlock (e.blk c))).flatten

/-- The words of an event: header, then the blocks of the set mask bits in ascending order. -/
def ZEvent.words (e : ZEvent) : List Nat :=
  [e.w0, e.w1, e.w2, e.w3] ++ e.blockWords allChannels

/-- The occurrences an event carries, for the channels of a list. -/
def ZEvent.occurrences (e : ZEvent) (cs : List Nat) : List Occurrence :=
  ((maskChannels e.mask cs).map (fun c => zleOccurrences c e.headerTime 0 (e.blk c))).flatten

/-- The header word is marked `0xA00` and the items of the blocks are legal. -/
def ZEvent.legal (e : ZEvent) : Prop :=
  e.w0 >>> 20 = 0xA00 ∧ ∀ c ∈ maskChannels e.mask allChannels, ∀ i ∈ e.blk c, i.legal

/-- The pieces of a legacy ZLE BLT: filler words and events. -/
inductive ZPiece where
  | filler
  | event (e : ZEvent)

/-- The words of a piece. -/
def ZPiece.words : ZPiece → List Nat
  | ZPiece.filler => [0xFFFFFFFF]
  | ZPiece.event e => e.words

/-- The occurrences of a piece. -/
def ZPiece.occurrences : ZPiece → List Occurrence
  | ZPiece.filler => []
  | ZPiece.event e => e.occurrences allChannels

/-- Legality of a piece. -/
def ZPiece.legal : ZPiece → Prop
  | ZPiece.filler => True
  | ZPiece.event e => e.legal

/-- The words of a BLT made of the given pieces. -/
def zWords (pieces : List ZPiece) : List Nat := (pieces.map ZPiece.words).flatten

/-- The occurrences of a BLT made of the given pieces, in order. -/
def zOccurrences (pieces : List ZPiece) : List Occurrence :=
  (pieces.map ZPiece.occurrences).flatten

/-- The output vectors after a header was met and the occurrences of its event recorded:
`eventIndices` receives the number of buffers recorded before the event. -/
def Parsed.pushEvent (out : Parsed) (occs : List Occurrence) : Parsed :=
  Parsed.pushAll { out with eventIndices := out.eventIndices ++ [u32 out.retbuff.length] } occs

/-- The output vectors after the pieces of a legacy ZLE BLT. -/
def Parsed.pushPieces (out : Parsed) : List ZPiece → Parsed
  | [] => out
  | ZPiece.filler :: rest => out.pushPieces rest
  | ZPiece.event e :: rest => (out.pushEvent (e.occurrences allChannels)).pushPieces rest

/-- The occurrences of a legacy raw (non-ZLE) event with channel payload length `k`: each channel
of the list whose mask bit is set takes the next `k` words. -/
def rawOccurrences (mask headerTime k : Nat) : List Nat → List Nat → List Occurrence
  | [], _ => []
  | c :: cs, ws =>
    if (mask >>> c) &&& 1 = 0 then rawOccurrences mask headerTime k cs ws
    else { channel := c, time := headerTime, payload := ws.take k } ::
      rawOccurrences mask headerTime k cs (ws.drop k)

/-! ## The insert batching of `Process` -/

/-- A document of the insert vector (`write_mode` MongoDB; no compression, no
`occurrence_integral`, no `debug_output`): the record, and the value
`ChannelResetCounters[Channel]` had when its `time` was computed.  The latter is not a field of
the document; it is kept to say which counter a document was built with. -/
structure Doc where
  record : Record
  resetCounter : Nat
deriving DecidableEq, Repr

/-- A call `InsertThreaded(vMongoInsertVec, mongoID, LAST_RESET_COUNT)`: the vector handed over
(`none` is the NULL pointer) and the `int` passed as third argument. -/
structure InsertCall where
  batch : Option (List Doc)
  tag : Int
deriving DecidableEq, Repr

/-- The options the batching reads: the field `rotating_collections` (`none` when the options
have no such field) and `mongo_opts.min_insert_size`. -/
structure BatchOptions where
  rotating_collections : Option Int
  min_insert_size : Int
deriving DecidableEq, Repr

/-- The test `HasField("rotating_collections") && GetInt("rotating_collections") == 1`. -/
def BatchOptions.rotating (o : BatchOptions) : Bool :=
  match o.rotating_collections with
  | some v => decide (v = 1)
  | none => false

/-- The variables of `Process` that outlive a round of BLTs: the insert vector (`none` is NULL),
`LAST_RESET_COUNT`, and the calls of `InsertThreaded` made so far, oldest first. -/
structure Batching where
  vMongoInsertVec : Option (List Doc)
  LAST_RESET_COUNT : Int
  calls : List InsertCall
deriving DecidableEq, Repr

/-- The declarations `vMongoInsertVec = new vector<mongo::BSONObj>()`, `LAST_RESET_COUNT = 0`. -/
def Batching.start : Batching :=
  { vMongoInsertVec := some [], LAST_RESET_COUNT := 0, calls := [] }

/-- The ways the occurrence loop of `Process` ends when it writes to MongoDB. -/
inductive LoopEnd where
  | completed
  | insertError
  | channelError
  | outOfBounds
  | nullVector
deriving DecidableEq, Repr

/-- Lines 637-664 of `Process`: the flush before the append, taken under rotation when
`ChannelResetCounters[Channel] != LAST_RESET_COUNT` (compared as unsigned 32-bit values).
`ins n` tells whether the call of `InsertThreaded` preceded by `n` calls returns 0.  The
boolean is true when the insert failed and the loop is left by `break`. -/
def rotationFlush (o : BatchOptions) (ins : Nat → Bool) (ctr : Nat) (s : Batching) :
    Batching × Bool :=
  if o.rotating = true ∧ u32 ctr ≠ (s.LAST_RESET_COUNT % 4294967296).toNat then
    let calls := s.calls ++ [{ batch := s.vMongoInsertVec, tag := s.LAST_RESET_COUNT }]
    if ins s.calls.length = true then
      ({ vMongoInsertVec := some [], LAST_RESET_COUNT := toInt32 ctr, calls := calls }, false)
    else
      ({ vMongoInsertVec := none, LAST_RESET_COUNT := s.LAST_RESET_COUNT, calls := calls }, true)
  else (s, false)

/-- Lines 667-712 of `Process`: the append of the new document and the flush after it, for an
occurrence whose channel has reset counter `ctr`; `last` is the test `b == buffvec->size() - 1`.
The sizes are cast to `int` as in the source. -/
def appendFlush (o : BatchOptions) (ins : Nat → Bool) (ctr : Nat) (last : Bool) (d : Doc)
    (s : Batching) : Batching × Option LoopEnd :=
  match s.vMongoInsertVec with
  | none => (s, some LoopEnd.nullVector)
  | some v =>
    let v1 := v ++ [d]
    let insert : Bool :=
      decide (toInt32 v1.length > o.min_insert_size ∨ toInt32 v1.length < 0) || last
    if insert = true then
      let tag : Int := if o.rotating = true then s.LAST_RESET_COUNT else -1
      let calls := s.calls ++ [{ batch := some v1, tag := tag }]
      if ins s.calls.length = true then
        ({ vMongoInsertVec := some [], LAST_RESET_COUNT := toInt32 ctr, calls := calls }, none)
      else
        ({ vMongoInsertVec := none, LAST_RESET_COUNT := tag, calls := calls },
          some LoopEnd.insertError)
    else ({ s with vMongoInsertVec := some v1 }, none)

/-- Lines 637-712 of `Process` for one occurrence: `rotationFlush`, then `appendFlush`. -/
def batchStep (o : BatchOptions) (ins : Nat → Bool) (ctr : Nat) (last : Bool) (d : Doc)
    (s : Batching) : Batching × Option LoopEnd :=
  match rotationFlush o ins ctr s with
  | (s1, true) => (s1, some LoopEnd.insertError)
  | (s1, false) => appendFlush o ins ctr last d s1

/-- The loop `for(b = 0; b < buffvec->size(); b++)` of `Process` in the channel-parsing modes
with `write_mode` MongoDB; `k` counts the iterations left.  It is `processFor` followed, for
each occurrence, by the batching of lines 637-712.  The index `b` is an `unsigned int`: a round
is taken to hold fewer than `2^32` occurrences. -/
def mongoFor (o : BatchOptions) (ins : Nat → Bool) (iModule : Int) (headerTime : Nat)
    (p : Parsed) : Nat → Nat → Timeline → Batching → Batching × LoopEnd
  | 0, _, _, s => (s, LoopEnd.completed)
  | k + 1, b, tl, s =>
    match p.timeStamps[b]?, p.channels[b]? with
    | some TimeStamp, some ch =>
      let Channel : Int := toInt32 ch
      if Channel < 0 ∨ Channel > 7 then (s, LoopEnd.channelError)
      else
        let tl1 := timelineStep headerTime tl TimeStamp Channel.toNat
        let Time64 := liftTime tl1 TimeStamp Channel.toNat
        match p.retbuff[b]?, p.retsize[b]? with
        | some buff, some eventSize =>
          let d : Doc :=
            { record := { module := iModule, channel := Channel, time := Time64,
                          endtime := Time64 + (eventSize : Int), data := buff }
              resetCounter := tl1.ChannelResetCounters.getD Channel.toNat 0 }
          match batchStep o ins (tl1.ChannelResetCounters.getD Channel.toNat 0)
              (decide (b = p.retbuff.length - 1)) d s with
          | (s1, none) => mongoFor o ins iModule headerTime p k (b + 1) tl1 s1
          | (s1, some e) => (s1, e)
        | _, _ => (s, LoopEnd.outOfBounds)
    | _, _ => (s, LoopEnd.outOfBounds)

/-- One round of `Process` writing to MongoDB, on the output of a channel parser for a digitizer
whose `ReadoutBuffer` reported `resetCounterStart` and `headerTime`, entered with the batching
variables `s`. -/
def mongoRound (o : BatchOptions) (ins : Nat → Bool) (iModule : Int)
    (resetCounterStart headerTime : Nat) (p : Parsed) (s : Batching) : Batching × LoopEnd :=
  mongoFor o ins iModule headerTime p p.retbuff.length 0 (Timeline.start resetCounterStart) s

/-- The documents built for the occurrences of a list, in order. -/
def docsRun (iModule : Int) (headerTime : Nat) :
    Timeline → List (Nat × Nat × List Nat × Nat) → List Doc
  | _, [] => []
  | tl, (ts, ch, buff, sz) :: rest =>
    let tl1 := timelineStep headerTime tl ts ch
    { record := { module := iModule, channel := (ch : Int), time := liftTime tl1 ts ch,
                  endtime := liftTime tl1 ts ch + (sz : Int), data := buff }
      resetCounter := tl1.ChannelResetCounters.getD ch 0 } ::
      docsRun iModule headerTime tl1 rest

/-- The batching of a list of documents, the last of which is the last of its round. -/
def batchRun (o : BatchOptions) (ins : Nat → Bool) : List Doc → Batching → Batching × LoopEnd
  | [], s => (s, LoopEnd.completed)
  | d :: rest, s =>
    match batchStep o ins d.resetCounter (decide (rest = [])) d s with
    | (s1, none) => batchRun o ins rest s1
    | (s1, some e) => (s1, e)

/-- The three vectors have eight entries and every reset counter is a 32-bit value. -/
def Timeline.Fits (tl : Timeline) : Prop :=
  tl.WF ∧ ∀ i, (tl.chan i).ctr < 4294967296

/-- Every document of the vector was built with one reset counter, a 32-bit value whose
conversion to `int` is `tag`. -/
def builtWith (v : List Doc) (tag : Int) : Prop :=
  ∀ d ∈ v, d.resetCounter < 4294967296 ∧ toInt32 d.resetCounter = tag

/-- The state of the batching between two occurrences under rotation while the inserts succeed:
the vector is not NULL and its documents were built with the counter that `LAST_RESET_COUNT`
holds. -/
def Batching.Rotated (s : Batching) : Prop :=
  -2147483648 ≤ s.LAST_RESET_COUNT ∧ s.LAST_RESET_COUNT < 2147483648 ∧
    ∃ v, s.vMongoInsertVec = some v ∧ builtWith v s.LAST_RESET_COUNT

/-- The batch of a call is a vector whose documents were built with the counter passed as tag. -/
def InsertCall.Homogeneous (c : InsertCall) : Prop :=
  ∃ v, c.batch = some v ∧ builtWith v c.tag

/-- The batches of the threshold rule, in the words of the specification: with threshold `N`
the documents of a round leave in consecutive batches of `N + 1`, the `k`-th one made of the
documents `k (N + 1) + 1, ..., (k + 1) (N + 1)`, and a last shorter batch holds what is left when
the round ends. -/
def batchesOf (N : Nat) (docs : List Doc) : List (List Doc) :=
  (List.range ((docs.length + N) / (N + 1))).map
    (fun k => (docs.drop (k * (N + 1))).take (N + 1))

/-- The batches handed over when the documents `ds` are appended one by one to the pending
documents `v`, a batch leaving when it holds more than `N` documents or at the last document. -/
def chunkRun (N : Nat) : List Doc → List Doc → List (List Doc)
  | _, [] => []
  | v, d :: rest =>
    if N < (v ++ [d]).length ∨ rest = [] then (v ++ [d]) :: chunkRun N [] rest
    else chunkRun N (v ++ [d]) rest

/-! ## GetBufferIntegral -/

/-- The loop `for (i = 0; i < size/4; i++)` of `GetBufferIntegral`; `k` counts the iterations
left.  The `float` variables `baseline` and `integral` are rationals here: the additions,
subtractions and the division are taken exact. -/
def integralLoop (buffvec : List Nat) (bins_baseline : Nat) : Nat → Nat → ℚ → ℚ → Except Fault ℚ
  | 0, _, _, integral => Except.ok integral
  | k + 1, i, baseline, integral =>
    match rd buffvec i with
    | Except.error e => Except.error e
    | Except.ok w =>
      let firstWord : Nat := w &&& 0x3FFF
      let secondWord : Nat := (w >>> 16) &&& 0x3FFF
      if i < bins_baseline / 2 then
        integralLoop buffvec bins_baseline k (i + 1)
          (baseline + (firstWord : ℚ) + (secondWord : ℚ)) integral
      else if i = bins_baseline / 2 then
        integralLoop buffvec bins_baseline k (i + 1) (baseline / (bins_baseline : ℚ)) integral
      else
        integralLoop buffvec bins_baseline k (i + 1) baseline
          (integral + (baseline - (firstWord : ℚ)) + (baseline - (secondWord : ℚ)))

/-- The function `GetBufferIntegral(buffvec, size, bins_baseline)`, `size` in bytes. -/
def GetBufferIntegral (buffvec : List Nat) (size bins_baseline : Nat) : Except Fault ℚ :=
  let bins := if bins_baseline % 2 = 1 then bins_baseline - 1 else bins_baseline
  if bins < 2 then Except.ok 0
  else integralLoop buffvec bins (size / 4) 0 0 0

/-- The two 14-bit samples of each of the first `size/4` words: `word & 0x3FFF`, then
`(word >> 16) & 0x3FFF`. -/
def samplesOf (buffvec : List Nat) (size : Nat) : List Nat :=
  ((buffvec.take (size / 4)).map (fun w => [w &&& 0x3FFF, (w >>> 16) &&& 0x3FFF])).flatten

/-- The integral in the words of the specification: the first `bins_baseline` samples are
averaged into the baseline, and every later sample contributes `baseline - sample`. -/
def integralOfSamples (buffvec : List Nat) (size bins_baseline : Nat) : ℚ :=
  let samples := samplesOf buffvec size
  let baseline : ℚ := ((samples.take bins_baseline).map (fun s : Nat => (s : ℚ))).sum /
    (bins_baseline : ℚ)
  ((samples.drop bins_baseline).map (fun s : Nat => baseline - (s : ℚ))).sum

/-- The contribution `(baseline - first sample) + (baseline - second sample)` of a word. -/
def wordTerm (baseline : ℚ) (w : Nat) : ℚ :=
  (baseline - ((w &&& 0x3FFF : Nat) : ℚ)) + (baseline - (((w >>> 16) &&& 0x3FFF : Nat) : ℚ))

/-- The sum of the two samples of a word. -/
def wordSum (w : Nat) : ℚ :=
  ((w &&& 0x3FFF : Nat) : ℚ) + (((w >>> 16) &&& 0x3FFF : Nat) : ℚ)

/-! ## The bucketed sharding plan of `MakeMongoCollection` -/

/-- The shard names `MakeMongoCollection` pushes into `shards`. -/
def shards : List String := ["shard_0/eb0:27000", "shard_1/eb1:27000", "shard_2/eb2:27000"]

/-- The two admin commands of the plan: `{ split: <collection>, middle: { module: v } }` and
`{ moveChunk: <collection>, find: { module: v }, to: shards[k] }`.  The module is the integer
that the command text names (`IntToString` of an entry of `sortedList`). -/
inductive AdminCommand where
  | split (module : Int)
  | moveChunk (module : Int) (shard : Nat)
deriving DecidableEq, Repr

/-- Read of `v[i]` in a vector of integers. -/
def rdInt (v : List Int) (i : Nat) : Except Fault Int :=
  match v[i]? with
  | some w => Except.ok w
  | none => Except.error Fault.outOfBounds

/-- The loop `for(unsigned int x = n_in_shard; x < sortedList.size(); x += n_in_shard)` that
fills `splitList`, entered at index `x` with the entries found so far. -/
def splitLoop (sortedList : List Int) (n_in_shard : Nat) :
    Nat → Nat → List Int → Except Fault (List Int)
  | 0, _, _ => Except.error Fault.fuel
  | fuel + 1, x, splitList =>
    if x < sortedList.length then
      match rdInt sortedList x with
      | Except.ok v => splitLoop sortedList n_in_shard fuel (u32 (x + n_in_shard)) (splitList ++ [v])
      | Except.error e => Except.error e
    else Except.ok splitList

/-- The loop `for(int x = -1; x < (int)splitList.size(); x++)` that migrates the chunks; `k`
counts the iterations left and `i` is `x + 1`. -/
def migrateLoop (sortedList splitList : List Int) : Nat → Nat → Except Fault (List AdminCommand)
  | 0, _ => Except.ok []
  | k + 1, i =>
    match rdInt sortedList 0 with
    | Except.error e => Except.error e
    | Except.ok first =>
      match (if i = 0 then Except.ok first else rdInt splitList (i - 1)) with
      | Except.error e => Except.error e
      | Except.ok splitVal =>
        match migrateLoop sortedList splitList k (i + 1) with
        | Except.error e => Except.error e
        | Except.ok rest => Except.ok (AdminCommand.moveChunk splitVal (i % shards.length) :: rest)

/-- Lines 416-475 of `MakeMongoCollection` (sharding on, `LOTS_OF_SPLITS` false): the value
returned (`-1` for the early return, `0` at the end) and the admin commands issued, in order.
`boardList` holds the integers `StringToInt` gives; `std::sort` is a sort into ascending order;
`ceil(nDigis/nShards)` is the ceiling of the exact quotient. -/
def bucketedSharding (fuel : Nat) (boardList : List Int) :
    Except Fault (Int × List AdminCommand) :=
  let sortedList := boardList.insertionSort (fun a b => a ≤ b)
  let n_in_shard := (sortedList.length + shards.length - 1) / shards.length
  if n_in_shard = 0 then Except.ok (-1, [])
  else
    match splitLoop sortedList n_in_shard fuel n_in_shard [] with
    | Except.error e => Except.error e
    | Except.ok splitList =>
      match migrateLoop sortedList splitList (splitList.length + 1) 0 with
      | Except.error e => Except.error e
      | Except.ok moves => Except.ok (0, splitList.map AdminCommand.split ++ moves)

/-! ## PullRunMode -/

/-- The values a field of a run-mode document holds, as far as `PullRunMode` tells them apart:
a string or something else (a number here). -/
inductive BsonValue where
  | str (s : String)
  | num (n : Int)
deriving DecidableEq, Repr

/-- A BSON object: its elements `(field name, value)` in order. -/
abbrev BsonObj := List (String × BsonValue)

/-- The call `findOne(<db>.run_modes, {name: name})`: the first document whose field `name` is
that string, the empty object when there is none. -/
def findOne (coll : List BsonObj) (name : String) : BsonObj :=
  (coll.find? (fun d => d.lookup "name" == some (BsonValue.str name))).getD []

/-- The driver's `BSONObjBuilder::appendElementsUnique(x)`: the elements of `x` whose field name
the builder does not hold yet are appended, in the order of `x`. -/
def appendElementsUnique (builder x : BsonObj) : BsonObj :=
  builder ++ x.filter (fun e => !(builder.any (fun b => b.1 == e.1)))

/-- The ways `PullRunMode` fails to return: `String()` called on an element that is not a
string throws, and the parent walk may not end within the fuel. -/
inductive PullFault where
  | notString
  | fuel
deriving DecidableEq, Repr

/-- Lines 1261-1275 of `PullRunMode`: the composite of `res` and the parent document found. -/
def composite (res parent : BsonObj) : Except PullFault BsonObj :=
  match parent.lookup "parent" with
  | some (BsonValue.str p) =>
    Except.ok (appendElementsUnique (appendElementsUnique [("parent", BsonValue.str p)] res) parent)
  | some (BsonValue.num _) => Except.error PullFault.notString
  | none =>
    Except.ok (appendElementsUnique
      (appendElementsUnique [("parent", BsonValue.str "none")] res) parent)

/-- The loop `while(1)` of `PullRunMode` (lines 1241-1277) on the collection `run_modes`. -/
def pullLoop (coll : List BsonObj) : Nat → BsonObj → Except PullFault BsonObj
  | 0, _ => Except.error PullFault.fuel
  | fuel + 1, res =>
    match res.lookup "parent" with
    | none => Except.ok res
    | some (BsonValue.num _) => Except.error PullFault.notString
    | some (BsonValue.str p) =>
      if p = "none" then Except.ok res
      else
        let parent := findOne coll p
        if parent.length = 0 then Except.ok res
        else
          match composite res parent with
          | Except.error e => Except.error e
          | Except.ok c => pullLoop coll fuel c

/-- The function `PullRunMode(name, options)`: `none` is the return of `-1`; `some res` is the
return of 0 after `options.SetBSON(res)`.  `fMonitorDB` is `none` for the NULL pointer and
otherwise holds the documents of the collection `run_modes`. -/
def PullRunMode (fuel : Nat) (fMonitorDB : Option (List BsonObj)) (name : String) :
    Except PullFault (Option BsonObj) :=
  match fMonitorDB with
  | none => Except.ok none
  | some coll =>
    if coll.length = 0 then Except.ok none
    else
      let res := findOne coll name
      if res.length = 0 then Except.ok none
      else
        match pullLoop coll fuel res with
        | Except.error e => Except.error e
        | Except.ok out => Except.ok (some out)

/-- The documents merged into the one named first: the parent, the grandparent, ..., as far as
the field `parent` names a mode that is found, at most `n` of them. -/
def ancestors (coll : List BsonObj) : Nat → BsonObj → List BsonObj
  | 0, _ => []
  | n + 1, d =>
    match d.lookup "parent" with
    | some (BsonValue.str p) =>
      if p = "none" then []
      else if (findOne coll p).length = 0 then []
      else findOne coll p :: ancestors coll n (findOne coll p)
    | _ => []

/-- The field `parent` of the document, when there is one, is a string. -/
def parentIsString (d : BsonObj) : Bool :=
  match d.lookup "parent" with
  | some (BsonValue.num _) => false
  | _ => true

/-- The value of field `f` in the first document of a chain that has the field. -/
def firstDefined (f : String) : List BsonObj → Option BsonValue
  | [] => none
  | d :: rest =>
    match d.lookup f with
    | some v => some v
    | none => firstDefined f rest

/-! ## UpdateEndTime and IsRunning -/

/-- The fields `open` and `run` of a `collection_thread_t`. -/
structure CollectionThread where
  isOpen : Bool
  run : Bool
deriving DecidableEq, Repr

/-- The members of `MasterMongodbConnection` that `UpdateEndTime` and `IsRunning` use: the maps
`m_collectionThreads` and `fLastDocOIDs` (their entries in key order; an OID is a number, 0 for
an OID that is not set) and whether `fRunsDB` is not NULL. -/
structure Master where
  m_collectionThreads : List (String × CollectionThread)
  fLastDocOIDs : List (String × Nat)
  fRunsDB : Bool
deriving DecidableEq, Repr

/-- The two `findandmodify` commands on `runs_new`: the one with query `{_id: oid}` that sets
`end` to the date `1000 * time`, and the one with query `{_id: oid, data.0: {$exists: true}}`
that sets `data.0.status` to `"transferred"`. -/
inductive RunsCommand where
  | setEnd (oid : Nat) (time : Nat)
  | setTransferred (oid : Nat)
deriving DecidableEq, Repr

/-- What `fRunsDB->runCommand` does: it returns true, returns false, or throws a
`DBException`. -/
inductive Reply where
  | done
  | failed
  | threw
deriving DecidableEq, Repr

/-- How a call of `UpdateEndTime` ends: with a return value, or in a failed `assert`. -/
inductive CallEnd where
  | returned (code : Int)
  | aborted
deriving DecidableEq, Repr

/-- The function `IsRunning(detector)`. -/
def IsRunning (s : Master) (detector : String) : Bool :=
  match s.m_collectionThreads.lookup detector with
  | none => false
  | some t => t.run

/-- The assignment `m[key].run = false` for a key the map holds. -/
def clearRun (key : String) :
    List (String × CollectionThread) → List (String × CollectionThread)
  | [] => []
  | (k, t) :: rest =>
    if k = key then (k, { t with run := false }) :: rest else (k, t) :: clearRun key rest

/-- The loop `for( auto iterator : fLastDocOIDs )` of `UpdateEndTime` (lines 786-826) over the
entries left, with the commands run so far.  The loop variable is declared `auto`, not `auto&`:
each `iterator` is a copy of the entry, and `iterator.second.init()` gives a new OID to that
copy, which ends with the iteration; the map is not written.  `db` is the reply of the
database to a command, `nowTime` the clock. -/
def endTimeLoop (db : RunsCommand → Reply) (nowTime : Nat) (detector : String) :
    List (String × Nat) → List RunsCommand → List RunsCommand × CallEnd
  | [], log => (log, CallEnd.returned 0)
  | iterator :: rest, log =>
    if iterator.1 ≠ detector ∧ detector ≠ "all" then endTimeLoop db nowTime detector rest log
    else if iterator.2 = 0 then endTimeLoop db nowTime detector rest log
    else
      match db (RunsCommand.setEnd iterator.2 nowTime) with
      | Reply.threw => (log ++ [RunsCommand.setEnd iterator.2 nowTime], CallEnd.returned (-1))
      | Reply.failed => (log ++ [RunsCommand.setEnd iterator.2 nowTime], CallEnd.aborted)
      | Reply.done =>
        match db (RunsCommand.setTransferred iterator.2) with
        | Reply.threw =>
          (log ++ [RunsCommand.setEnd iterator.2 nowTime, RunsCommand.setTransferred iterator.2],
            CallEnd.returned (-1))
        | Reply.failed =>
          (log ++ [RunsCommand.setEnd iterator.2 nowTime, RunsCommand.setTransferred iterator.2],
            CallEnd.aborted)
        | Reply.done =>
          endTimeLoop db nowTime detector rest
            (log ++ [RunsCommand.setEnd iterator.2 nowTime,
              RunsCommand.setTransferred iterator.2])

/-- The function `UpdateEndTime(detector)`: the members after the call, the commands it ran on
the runs database, in order, and how it ended. -/
def UpdateEndTime (db : RunsCommand → Reply) (nowTime : Nat) (detector : String) (s : Master) :
    Master × List RunsCommand × CallEnd :=
  let s1 : Master :=
    if (s.m_collectionThreads.lookup detector).isSome then
      { s with m_collectionThreads := clearRun detector s.m_collectionThreads }
    else s
  if s1.fRunsDB = false then (s1, [], CallEnd.returned (-1))
  else (s1, endTimeLoop db nowTime detector s1.fLastDocOIDs [])

/-! ## Auxiliary definitions: the reset counters of one channel -/

/-- The reset counters the documents of channel `c` were built with, in order. -/
def countersOf (docs : List Doc) (c : Nat) : List Nat :=
  (docs.filter (fun d => d.record.channel = (c : Int))).map (fun d => d.resetCounter)

/-- The successive reset counters of one channel whose entries are `s`, for the raw times of its
occurrences. -/
def chanCounters (headerTime : Nat) : ChanState → List Nat → List Nat
  | _, [] => []
  | s, t :: rest =>
    (chanStep headerTime s t).ctr :: chanCounters headerTime (chanStep headerTime s t) rest

/-- The documents handed to `InsertThreaded` by a list of calls, in the order of the calls (a
NULL vector hands over nothing). -/
def handedOver (calls : List InsertCall) : List Doc :=
  (calls.map (fun c => c.batch.getD [])).flatten

/-! ## Auxiliary definitions: the commands of a sharding plan -/

/-- The split points of the `split` commands of a plan, in order. -/
def splitPoints (cmds : List AdminCommand) : List Int :=
  cmds.filterMap (fun c => match c with
    | AdminCommand.split v => some v
    | AdminCommand.moveChunk _ _ => none)

/-- The shard indices of the `moveChunk` commands of a plan, in order. -/
def moveShards (cmds : List AdminCommand) : List Nat :=
  cmds.filterMap (fun c => match c with
    | AdminCommand.split _ => none
    | AdminCommand.moveChunk _ k => some k)

/-! ## The loops of `Process` over the digitizers -/

/-- What a digitizer answers when `Process` comes to it in a pass: `Activated()` is false;
`Activated()` is true and `RequestDataLock()` is not 0; or the lock is granted and
`ReadoutBuffer` hands over a round of BLTs, given here by the module id, the reset counter and
header time reported, and the output of the channel parser on it. -/
inductive DigiPoll where
  | inactive
  | busy
  | data (iModule : Int) (resetCounterStart headerTime : Nat) (parsed : Parsed)
deriving DecidableEq, Repr

/-- The state of a worker in `Process` (`write_mode` MongoDB): the batching variables, the local
`bExitCondition`, the member `m_bErrorSet` that `LogError` sets (after an error reported by
`SplitChannelsNewFW` and after a failed insert), and the calls of
`ReadoutBuffer` made so far, each with the index of the digitizer and the number of calls of
`InsertThreaded` made before it. -/
structure Worker where
  batching : Batching
  bExitCondition : Bool
  m_bErrorSet : Bool
  readouts : List (Nat × Nat)
deriving DecidableEq, Repr

/-- The state at the top of `Process`. -/
def Worker.start : Worker :=
  { batching := Batching.start, bExitCondition := false, m_bErrorSet := false, readouts := [] }

/-- How `Process` ends: the `while` loop is left and the function returns at its end; the
`ERROR in CHANNEL` return; a read outside the parsed vectors; a `push_back` through the NULL
vector; or the passes given are used up with the loop still running. -/
inductive ProcessEnd where
  | left
  | channelError
  | outOfBounds
  | nullVector
  | running
deriving DecidableEq, Repr

/-- The loop `for(x = 0; x < GetDigis(); x++)` of `Process` (lines 443-746) over the answers of
the digitizers `x, x+1, ...` in one pass.  After a failed insert the occurrence loop is left by
`break` with `bExitCondition = true`, and this loop goes on with the next digitizer. -/
def digiLoop (o : BatchOptions) (ins : Nat → Bool) :
    Nat → List DigiPoll → Worker → Worker × Option ProcessEnd
  | _, [], w => (w, none)
  | x, DigiPoll.inactive :: rest, w => digiLoop o ins (x + 1) rest w
  | x, DigiPoll.busy :: rest, w => digiLoop o ins (x + 1) rest { w with bExitCondition := false }
  | x, DigiPoll.data iModule resetCounterStart headerTime parsed :: rest, w =>
    let readouts := w.readouts ++ [(x, w.batching.calls.length)]
    match mongoRound o ins iModule resetCounterStart headerTime parsed w.batching with
    | (s, LoopEnd.completed) =>
      digiLoop o ins (x + 1) rest
        { batching := s, bExitCondition := false,
          m_bErrorSet := w.m_bErrorSet || parsed.bErrorSet, readouts := readouts }
    | (s, LoopEnd.insertError) =>
      digiLoop o ins (x + 1) rest
        { batching := s, bExitCondition := true, m_bErrorSet := true, readouts := readouts }
    | (s, LoopEnd.channelError) =>
      ({ batching := s, bExitCondition := false,
         m_bErrorSet := w.m_bErrorSet || parsed.bErrorSet, readouts := readouts },
       some ProcessEnd.channelError)
    | (s, LoopEnd.outOfBounds) =>
      ({ batching := s, bExitCondition := false,
         m_bErrorSet := w.m_bErrorSet || parsed.bErrorSet, readouts := readouts },
       some ProcessEnd.outOfBounds)
    | (s, LoopEnd.nullVector) =>
      ({ batching := s, bExitCondition := false,
         m_bErrorSet := w.m_bErrorSet || parsed.bErrorSet, readouts := readouts },
       some ProcessEnd.nullVector)

/-- The loop `while(!bExitCondition)` of `Process` (lines 435-747); each element of `passes` holds
the answers of the digitizers `0, 1, ...` during one pass. -/
def whileLoop (o : BatchOptions) (ins : Nat → Bool) :
    List (List DigiPoll) → Worker → Worker × ProcessEnd
  | [], w => if w.bExitCondition = true then (w, ProcessEnd.left) else (w, ProcessEnd.running)
  | pass :: rest, w =>
    if w.bExitCondition = true then (w, ProcessEnd.left)
    else
      match digiLoop o ins 0 pass { w with bExitCondition := true } with
      | (w1, none) => whileLoop o ins rest w1
      | (w1, some e) => (w1, e)

/-- The function `Process` on the answers of the digitizers, pass by pass (channel-parsing
modes, `write_mode` MongoDB). -/
def Process (o : BatchOptions) (ins : Nat → Bool) (passes : List (List DigiPoll)) :
    Worker × ProcessEnd :=
  whileLoop o ins passes Worker.start

/-! ## The rolling-collection worker (`CollectionThreadWrapper`) -/

/-- One call `MakeMongoCollection(mopts, collection, boardList, counter)`, recorded by the address
in the options handed over and by the cycle number. -/
structure MakeCall where
  address : String
  cycle : Int
deriving DecidableEq, Repr

/-- The loop over `options.hosts` (lines 226-234): a host whose address is already in `created` is
skipped, any other one is appended to `created`; the result is `created` at the end, that is the
addresses `MakeMongoCollection` is called with, in order.  `hosts` holds the entries of the map
in the order of iteration. -/
def distinctHosts (created : List String) : List (String × String) → List String
  | [] => created
  | h1 :: rest =>
    if h1.2 ∈ created then distinctHosts created rest
    else distinctHosts (created ++ [h1.2]) rest

/-- The calls of `MakeMongoCollection` made for one cycle (lines 223-237): one per distinct host
when `options.hosts` is not empty, else one with the options as received. -/
def provision (address : String) (hosts : List (String × String)) (counter : Int) :
    List MakeCall :=
  if hosts.length ≠ 0 then (distinctHosts [] hosts).map (fun a => { address := a, cycle := counter })
  else [{ address := address, cycle := counter }]

/-- The variables of the worker: `counter` and the calls of `MakeMongoCollection` made so far. -/
structure Rolling where
  counter : Int
  made : List MakeCall
deriving DecidableEq, Repr

/-- The state before the loop: `int counter = 2`. -/
def Rolling.start : Rolling := { counter := 2, made := [] }

/-- Rounding of a rational to the nearest integer, a tie going to the even one. -/
def roundEven (q : ℚ) : Int :=
  if q - (⌊q⌋ : ℚ) < 1 / 2 then ⌊q⌋
  else if 1 / 2 < q - (⌊q⌋ : ℚ) then ⌊q⌋ + 1
  else if ⌊q⌋ % 2 = 0 then ⌊q⌋ else ⌊q⌋ + 1

/-- The `double` nearest to a rational (IEEE 754 binary64, 53 significant bits, round to nearest,
ties to even), for values within the normal range: the result of one `double` operation is
`double` of its exact result. -/
def double (q : ℚ) : ℚ :=
  if q = 0 then 0
  else (roundEven (q / (2 : ℚ) ^ (Int.log 2 |q| - 52)) : ℚ) * (2 : ℚ) ^ (Int.log 2 |q| - 52)

/-- The test `(tdiff*(1.+readaheadfraction) / 21.) + readaheadconstant > counter` with
`readaheadconstant = 10` and `readaheadfraction = 0.1`, each operation rounded to `double`;
`tdiff`, 21, 10 and `counter` are exact as `double`. -/
def readAhead (tdiff : Nat) (counter : Int) : Bool :=
  decide (double (double (double ((tdiff : ℚ) * double (1 + double 0.1)) / 21) + 10)
    > (counter : ℚ))

/-- One iteration of the loop `while(mongocoll->IsRunning(detector))` (lines 218-241), `tdiff`
being the seconds between the start of the worker and the clock reading of this iteration. -/
def rollingIteration (address : String) (hosts : List (String × String)) (s : Rolling)
    (tdiff : Nat) : Rolling :=
  if readAhead tdiff s.counter = true then
    { counter := s.counter + 1, made := s.made ++ provision address hosts s.counter }
  else s

/-- The function `CollectionThreadWrapper` on the clock readings of the iterations made while
`IsRunning(detector)` answers true. -/
def CollectionThreadWrapper (address : String) (hosts : List (String × String))
    (clock : List Nat) : Rolling :=
  clock.foldl (rollingIteration address hosts) Rolling.start

/-! ## The run number of `InsertRunDoc` and the calls of `SendLogMessage` -/

/-- The reduction of an integer to an `int` (32 bits, two's complement). -/
def int32 (z : Int) : Int :=
  (z + 2147483648) % 4294967296 - 2147483648

/-- A document of the runs collection, by the two fields the query of `InsertRunDoc` looks at;
`number` is the field as stored. -/
structure RunDoc where
  detector : String
  number : Int
deriving DecidableEq, Repr

/-- The answer of `findOne(runs, Query({"detector": detector}).sort("number", -1))` on a runs
collection: a document of that detector with the largest `number`, none when the detector has no
document. -/
def findLatest (detector : String) : List RunDoc → Option RunDoc
  | [] => none
  | d :: rest =>
    if d.detector = detector then
      match findLatest detector rest with
      | none => some d
      | some e => if d.number < e.number then some e else some d
    else findLatest detector rest

/-- The local `int run_number` of `InsertRunDoc` (lines 527-541) for one detector of the options
list; `runs` is the runs collection, `none` when the query throws, in which case the function
returns -1 (`Except.error`). `getIntField("number")` is an `int` and so is the sum with 1. The
value becomes the field `number` of the run document (line 547). -/
def run_number (detector : String) (runs : Option (List RunDoc)) : Except Int Int :=
  if detector = "tpc" then
    match runs with
    | none => Except.error (-1)
    | some docs =>
      match findLatest "tpc" docs with
      | none => Except.ok 0
      | some obj => Except.ok (int32 (int32 obj.number + 1))
  else Except.ok 0

/-- Modelled from the spec: the priority `WARNING` of a log message (`KOMESS_WARNING`). -/
def KOMESS_WARNING : Int := 1

/-- Modelled from the spec: the priority `ERROR` of a log message (`KOMESS_ERROR`). -/
def KOMESS_ERROR : Int := 2

/-- A value appended to a document of the online databases. -/
inductive OnlineValue where
  | text (s : String)
  | int (n : Int)
  | time (t : Nat)
  | bool (b : Bool)
deriving DecidableEq, Repr

/-- One call `InsertOnline(DB, collection, bson)`; the generated OID of the document is left
out. -/
structure OnlineCall where
  DB : String
  collection : String
  bson : List (String × OnlineValue)
deriving DecidableEq, Repr

/-- The answer of `fMonitorDB->findOne("run.alerts", Query().sort("idnum", -1))`: the query
throws, the collection is empty, or the document with the largest `idnum`. -/
inductive AlertsReply where
  | failed
  | empty
  | doc (idnum : Int)
deriving DecidableEq, Repr

/-- The function `SendLogMessage` (lines 846-920) by the calls of `InsertOnline` it makes.
`fMonitorDB` tells whether the monitor connection is not NULL, `alerts` is what the alerts
query would answer, `currentTime` the clock. The string `savemessage` composed in lines 897-909
is not used afterwards and is left out. -/
def SendLogMessage (fMonitorDB : Bool) (fMonitorDBName fLogDBName : String)
    (alerts : AlertsReply) (currentTime : Nat) (message : String) (priority : Int) :
    List OnlineCall :=
  let log : OnlineCall :=
    { DB := "log", collection := fLogDBName ++ ".log",
      bson := [("message", OnlineValue.text message), ("priority", OnlineValue.int priority),
               ("time", OnlineValue.time currentTime),
               ("sender", OnlineValue.text "dispatcher")] }
  if ((decide (priority = KOMESS_WARNING) || decide (priority = KOMESS_ERROR))
      && fMonitorDB && false) = true then
    match alerts with
    | AlertsReply.failed => []
    | AlertsReply.empty =>
      [{ DB := "monitor", collection := fMonitorDBName ++ ".alerts",
         bson := [("idnum", OnlineValue.int 0), ("priority", OnlineValue.int priority),
                  ("timestamp", OnlineValue.time currentTime),
                  ("sender", OnlineValue.text "dispatcher"),
                  ("message", OnlineValue.text message),
                  ("addressed", OnlineValue.bool false)] }, log]
    | AlertsReply.doc idnum =>
      [{ DB := "monitor", collection := fMonitorDBName ++ ".alerts",
         bson := [("idnum", OnlineValue.int (idnum + 1)), ("priority", OnlineValue.int priority),
                  ("timestamp", OnlineValue.time currentTime),
                  ("sender", OnlineValue.text "dispatcher"),
                  ("message", OnlineValue.text message),
                  ("addressed", OnlineValue.bool false)] }, log]
  else [log]

/-! ## The options file (`koOptions::Reset`, `koOptions::ReadParameterFile`) -/

/-- One `link` directive. -/
structure link_definition_t where
  type : String
  id : Int
  crate : Int
deriving DecidableEq, Repr

/-- One `board` directive. -/
structure board_definition_t where
  type : String
  vme_address : Int
  id : Int
  link : Int
  crate : Int
deriving DecidableEq, Repr

/-- One `register` directive. -/
structure vme_option_t where
  address : Int
  value : Int
  board : Int
deriving DecidableEq, Repr

/-- The members of `koOptions` that `Reset` and `ReadParameterFile` assign (built without
`HAS_DDC`). -/
structure koOptions where
  m_links : List link_definition_t
  m_boards : List board_definition_t
  m_registers : List vme_option_t
  name : String
  creator : String
  creation_date : String
  write_mode : Int
  baseline_mode : Int
  run_start : Int
  run_start_module : Int
  blt_size : Int
  compression : Int
  dynamic_run_names : Bool
  mongo_address : String
  mongo_database : String
  mongo_collection : String
  mongo_write_concern : Int
  mongo_min_insert_size : Int
  processing_mode : Int
  processing_num_threads : Int
  processing_readout_threshold : Int
  file_path : String
  file_events_per_file : Int
deriving DecidableEq, Repr

/-- The function `koOptions::Reset` (lines 27-56). -/
def Reset (o : koOptions) : koOptions :=
  { o with
    m_links := [], m_boards := [], m_registers := [],
    name := "", creator := "", creation_date := "",
    write_mode := -1, baseline_mode := -1, run_start := -1, run_start_module := -1,
    blt_size := -1, compression := -1,
    dynamic_run_names := false,
    mongo_address := "", mongo_database := "", mongo_collection := "",
    mongo_write_concern := -1, mongo_min_insert_size := -1,
    processing_mode := -1, processing_num_threads := -1, processing_readout_threshold := -1,
    file_path := "", file_events_per_file := -1 }

/-- The characters that the extraction `>>` of a stream skips (`isspace` in the C locale):
space, and the characters 9 to 13. -/
def isspace (c : Char) : Bool :=
  decide (c.toNat = 32) || (decide (9 ≤ c.toNat) && decide (c.toNat ≤ 13))

/-- The words that `istream_iterator<string>` reads from the characters left of a line, `cur`
being the characters of the word under way. -/
def wordsFrom : List Char → List Char → List String
  | [], cur => if cur = [] then [] else [String.mk cur]
  | c :: rest, cur =>
    if isspace c = true then
      if cur = [] then wordsFrom rest [] else String.mk cur :: wordsFrom rest []
    else wordsFrom rest (cur ++ [c])

/-- The vector `words` of a line (lines 87-91). -/
def wordsOf (line : String) : List String :=
  wordsFrom line.data []

/-- The test `s[0] == '#'` on a string. -/
def startsWithHash (s : String) : Bool :=
  decide (s.data.head? = some '#')

/-- The body of the loop of `ReadParameterFile` on one line (lines 83-134): the options after
the line, and whether the loop is left by `break`. `StringToInt` and `StringToHex` are the
conversions of `koHelper`. -/
def readLine (StringToInt StringToHex : String → Int) (o : koOptions) (line : String) :
    koOptions × Bool :=
  if startsWithHash line = true then (o, false)
  else
    let words := wordsOf line
    if words.length < 2 then (o, false)
    else if words.getD 0 "" = "name" then ({ o with name := words.getD 1 "" }, false)
    else if words.getD 0 "" = "creator" then ({ o with creator := words.getD 1 "" }, false)
    else if words.getD 0 "" = "creation_date" then
      ({ o with creation_date := words.getD 1 "" }, false)
    else if words.getD 0 "" = "write_mode" then
      ({ o with write_mode := StringToInt (words.getD 1 "") }, false)
    else if words.getD 0 "" = "baseline_mode" then
      ({ o with baseline_mode := StringToInt (words.getD 1 "") }, false)
    else if words.getD 0 "" = "run_start" then
      ({ o with run_start := StringToInt (words.getD 1 "") }, false)
    else if words.getD 0 "" = "run_start_module" then
      ({ o with run_start_module := StringToInt (words.getD 1 "") }, false)
    else if words.getD 0 "" = "blt_size" then
      ({ o with blt_size := StringToInt (words.getD 1 "") }, false)
    else if words.getD 0 "" = "compression" then
      ({ o with compression := StringToInt (words.getD 1 "") }, false)
    else if words.getD 0 "" = "processing_mode" then
      ({ o with processing_mode := StringToInt (words.getD 1 "") }, false)
    else if words.getD 0 "" = "processing_num_threads" then
      ({ o with processing_num_threads := StringToInt (words.getD 1 "") }, false)
    else if words.getD 0 "" = "processing_readout_threshold" then
      ({ o with processing_readout_threshold := StringToInt (words.getD 1 "") }, false)
    else if words.getD 0 "" = "mongo_address" then
      ({ o with mongo_address := words.getD 1 "" }, false)
    else if words.getD 0 "" = "mongo_collection" then
      ({ o with mongo_collection := words.getD 1 "" }, false)
    else if words.getD 0 "" = "mongo_database" then
      ({ o with mongo_database := words.getD 1 "" }, false)
    else if words.getD 0 "" = "mongo_write_concern" then
      ({ o with mongo_write_concern := StringToInt (words.getD 1 "") }, false)
    else if words.getD 0 "" = "mongo_min_insert_size" then
      ({ o with mongo_min_insert_size := StringToInt (words.getD 1 "") }, false)
    else if words.getD 0 "" = "file_path" then ({ o with file_path := words.getD 1 "" }, false)
    else if words.getD 0 "" = "file_events_per_file" then
      ({ o with file_events_per_file := StringToInt (words.getD 1 "") }, false)
    else if words.getD 0 "" = "register" then
      if words.length < 3 then (o, true)
      else
        ({ o with m_registers := o.m_registers ++
            [{ address := StringToHex (words.getD 1 ""),
               value := StringToHex (words.getD 2 ""),
               board := if (decide (words.length ≥ 4) &&
                            !startsWithHash (words.getD 3 "")) = true
                        then StringToInt (words.getD 3 "") else -1 }] }, false)
    else if words.getD 0 "" = "link" then
      if words.length < 4 then (o, true)
      else
        ({ o with m_links := o.m_links ++
            [{ type := words.getD 1 "", id := StringToInt (words.getD 2 ""),
               crate := StringToInt (words.getD 3 "") }] }, false)
    else if words.getD 0 "" = "board" then
      if words.length < 6 then (o, true)
      else
        ({ o with m_boards := o.m_boards ++
            [{ type := words.getD 1 "", vme_address := StringToHex (words.getD 2 ""),
               id := StringToInt (words.getD 3 ""), link := StringToInt (words.getD 4 ""),
               crate := StringToInt (words.getD 5 "") }] }, false)
    else (o, false)

/-- The loop `while(!initFile.eof())` of `ReadParameterFile` over the lines that `getline`
delivers. -/
def readLoop (StringToInt StringToHex : String → Int) : List String → koOptions → koOptions
  | [], o => o
  | line :: rest, o =>
    match readLine StringToInt StringToHex o line with
    | (o1, true) => o1
    | (o1, false) => readLoop StringToInt StringToHex rest o1

/-- The function `koOptions::ReadParameterFile` (lines 71-193): the value returned and the
options afterwards. `file` is `none` when the file cannot be opened, else the lines that
`getline` delivers until the end of the file (its content cut at the newlines). -/
def ReadParameterFile (StringToInt StringToHex : String → Int) (file : Option (List String))
    (o : koOptions) : Int × koOptions :=
  match file with
  | none => (-1, Reset o)
  | some lines => (0, readLoop StringToInt StringToHex lines (Reset o))

/-- Spec-side definition: a directive line that is malformed in the sense of the claim, a
`register` line of fewer than 3 words, a `link` line of fewer than 4 or a `board` line of fewer
than 6. -/
def malformedDirective (line : String) : Bool :=
  (decide ((wordsOf line).head? = some "register") && decide ((wordsOf line).length < 3)) ||
  (decide ((wordsOf line).head? = some "link") && decide ((wordsOf line).length < 4)) ||
  (decide ((wordsOf line).head? = some "board") && decide ((wordsOf line).length < 6))

/-! ## Lemmas: the timeline -/

theorem getD_set_self {α : Type} (l : List α) (i : Nat) (v d : α) (h : i < l.length) :
    (l.set i v).getD i d = v := by
  simp [List.getD_eq_getElem?_getD, h]

theorem getD_set_ne {α : Type} (l : List α) (i j : Nat) (v d : α) (h : i ≠ j) :
    (l.set i v).getD j d = l.getD j d := by
  simp [List.getD_eq_getElem?_getD, List.getElem?_set_ne h]

theorem Timeline.WF_start (r : Nat) : (Timeline.start r).WF := by
  simp [Timeline.WF, Timeline.start]
theorem Timeline.WF_step (h : Nat) (tl : Timeline) (t c : Nat) (hw : tl.WF) :
    (timelineStep h tl t c).WF := by
  obtain ⟨h1, h2, h3⟩ := hw
  unfold timelineStep Timeline.WF
  dsimp only
  split_ifs <;> simp [h1, h2, h3]
theorem chan_step_same (h : Nat) (tl : Timeline) (t c : Nat) (hw : tl.WF) (hc : c < 8) :
    (timelineStep h tl t c).chan c = chanStep h (tl.chan c) t := by
  obtain ⟨h1, h2, h3⟩ := hw
  have e1 : c < tl.SawThisChannelOnce.length := by omega
  have e2 : c < tl.ChannelResetCounters.length := by omega
  have e3 : c < tl.PrevTime.length := by omega
  unfold timelineStep chanStep Timeline.chan
  dsimp only
  split_ifs with a1 a2 a3 a4 <;>
    simp only [List.set_set, getD_set_self _ _ _ _ e1, getD_set_self _ _ _ _ e2,
      getD_set_self _ _ _ _ e3, ChanState.mk.injEq, and_true, true_and]
  all_goals (simp only [Bool.not_eq_false] at a1; exact a1)

theorem chan_step_other (h : Nat) (tl : Timeline) (t c d : Nat) (hcd : c ≠ d) :
    (timelineStep h tl t c).chan d = tl.chan d := by
  unfold timelineStep Timeline.chan
  dsimp only
  split_ifs <;> simp only [getD_set_ne _ _ _ _ _ hcd]

theorem toInt32_small (x : Nat) (h : x < 8) : toInt32 x = (x : Int) := by
  unfold toInt32
  have e : x % 4294967296 = x := Nat.mod_eq_of_lt (by omega)
  rw [e, if_pos (by omega)]

theorem processFor_succ (iModule : Int) (headerTime : Nat) (p : Parsed) (k b : Nat)
    (tl : Timeline) (recs : List Record) (ts ch : Nat) (buff : List Nat) (sz : Nat)
    (e1 : p.timeStamps[b]? = some ts) (e2 : p.channels[b]? = some ch)
    (e3 : p.retbuff[b]? = some buff) (e4 : p.retsize[b]? = some sz) (hc8 : ch < 8) :
    processFor iModule headerTime p (k + 1) b tl recs =
      processFor iModule headerTime p k (b + 1) (timelineStep headerTime tl ts ch)
        (recs ++ [{ module := iModule, channel := (ch : Int),
                    time := liftTime (timelineStep headerTime tl ts ch) ts ch,
                    endtime := liftTime (timelineStep headerTime tl ts ch) ts ch + (sz : Int),
                    data := buff }]) := by
  rw [processFor]
  simp only [e1, e2, e3, e4, toInt32_small _ hc8]
  rw [if_neg (by omega)]
  simp only [Int.toNat_ofNat]

theorem Parsed.quads_length (p : Parsed) (n : Nat)
    (h1 : p.timeStamps.length = n) (h2 : p.channels.length = n)
    (h3 : p.retbuff.length = n) (h4 : p.retsize.length = n) : p.quads.length = n := by
  simp [Parsed.quads, h1, h2, h3, h4]

theorem processFor_run (iModule : Int) (headerTime : Nat) (p : Parsed) (n : Nat)
    (h1 : p.timeStamps.length = n) (h2 : p.channels.length = n)
    (h3 : p.retbuff.length = n) (h4 : p.retsize.length = n)
    (hch : ∀ x ∈ p.channels, x < 8) :
    ∀ (k b : Nat) (tl : Timeline) (recs : List Record), b + k ≤ n →
      processFor iModule headerTime p k b tl recs =
        Except.ok (timelineRun headerTime tl ((p.quads.drop b).take k),
          recs ++ recordsRun iModule headerTime tl ((p.quads.drop b).take k)) := by
  have hq := p.quads_length n h1 h2 h3 h4
  intro k
  induction k with
  | zero =>
    intro b tl recs _
    rw [processFor, List.take_zero]
    simp only [timelineRun, recordsRun, List.append_nil]
  | succ k ih =>
    intro b tl recs hb
    have hbn : b < n := by omega
    have hd : p.quads.drop b = (p.timeStamps[b], p.channels[b], p.retbuff[b], p.retsize[b]) ::
        p.quads.drop (b + 1) := by
      rw [List.drop_eq_getElem_cons (by omega)]
      simp [Parsed.quads]
    have hc8 : p.channels[b] < 8 := hch _ (List.getElem_mem _)
    have e1 : p.timeStamps[b]? = some p.timeStamps[b] := List.getElem?_eq_getElem (by omega)
    have e2 : p.channels[b]? = some p.channels[b] := List.getElem?_eq_getElem (by omega)
    have e3 : p.retbuff[b]? = some p.retbuff[b] := List.getElem?_eq_getElem (by omega)
    have e4 : p.retsize[b]? = some p.retsize[b] := List.getElem?_eq_getElem (by omega)
    rw [hd, processFor_succ iModule headerTime p k b tl recs _ _ _ _ e1 e2 e3 e4 hc8,
      ih (b + 1) _ _ (by omega)]
    simp only [List.take_succ_cons, timelineRun, recordsRun, List.append_assoc,
      List.singleton_append]

theorem processRound_run (iModule : Int) (r headerTime : Nat) (p : Parsed)
    (h1 : p.timeStamps.length = p.retbuff.length) (h2 : p.channels.length = p.retbuff.length)
    (h4 : p.retsize.length = p.retbuff.length) (hch : ∀ x ∈ p.channels, x < 8) :
    processRound iModule r headerTime p =
      Except.ok (timelineRun headerTime (Timeline.start r) p.quads,
        recordsRun iModule headerTime (Timeline.start r) p.quads) := by
  unfold processRound
  rw [processFor_run iModule headerTime p p.retbuff.length h1 h2 rfl h4 hch p.retbuff.length 0
    (Timeline.start r) [] (by omega)]
  have hq := p.quads_length p.retbuff.length h1 h2 rfl h4
  have : List.take p.retbuff.length p.quads = p.quads := List.take_of_length_le (by omega)
  rw [List.drop_zero, this, List.nil_append]

theorem liftTime_chan (tl : Timeline) (t c : Nat) : liftTime tl t c = chanLift (tl.chan c) t := rfl

theorem timesOf_recordsRun (iModule : Int) (headerTime c : Nat) (hc : c < 8) :
    ∀ (qs : List (Nat × Nat × List Nat × Nat)) (tl : Timeline), tl.WF →
      (∀ q ∈ qs, q.2.1 < 8) →
      timesOf (recordsRun iModule headerTime tl qs) c =
        chanTimes headerTime (tl.chan c) ((qs.filter (fun q => q.2.1 = c)).map (fun q => q.1)) := by
  intro qs
  induction qs with
  | nil => intro tl _ _; simp [recordsRun, timesOf, chanTimes]
  | cons q qs ih =>
    intro tl hw hq
    obtain ⟨ts, ch, buff, sz⟩ := q
    have hch : ch < 8 := hq (ts, ch, buff, sz) (List.mem_cons_self _ _)
    have hq2 : ∀ q ∈ qs, q.2.1 < 8 := fun q hm => hq q (List.mem_cons_of_mem _ hm)
    have ih2 := ih (timelineStep headerTime tl ts ch) (Timeline.WF_step _ _ _ _ hw) hq2
    unfold timesOf at ih2 ⊢
    by_cases e : ch = c
    · subst e
      simp only [recordsRun, List.filter_cons, decide_True, if_true, List.map_cons, ih2,
        chanTimes, liftTime_chan, chan_step_same _ _ _ _ hw hch]
    · have e2 : ¬ ((ch : Int) = (c : Int)) := by omega
      simp only [recordsRun, List.filter_cons, e, e2, decide_False, Bool.false_eq_true, if_false]
      rw [ih2, chan_step_other _ _ _ _ _ e]

theorem chanStep_eq_ideal (h : Nat) (s : ChanState) (t : Nat) (hs : s.ctr < 4294967296)
    (hi : (idealStep h s t).ctr < 4294967296) : chanStep h s t = idealStep h s t := by
  unfold chanStep idealStep u32 subU32 at *
  dsimp only at *
  split_ifs at hi ⊢ <;> simp only [ChanState.mk.injEq, true_and, and_true] <;> omega

theorem chanStep_ctr_lt (h : Nat) (s : ChanState) (t : Nat) (hs : s.ctr < 4294967296) :
    (chanStep h s t).ctr < 4294967296 := by
  unfold chanStep u32 subU32
  dsimp only
  split_ifs <;> omega

theorem chanLift_eq (s : ChanState) (t : Nat) (hs : s.ctr < 4294967296) (ht : t < 2147483648) :
    chanLift s t = (s.ctr : Int) * 2147483648 + (t : Int) := by
  unfold chanLift toInt64
  rw [Nat.shiftLeft_eq]
  have e : (2:Nat) ^ 31 = 2147483648 := by norm_num
  rw [e]
  have b : s.ctr * 2147483648 + t < 9223372036854775808 := by omega
  have m : (s.ctr * 2147483648 + t) % 18446744073709551616 = s.ctr * 2147483648 + t :=
    Nat.mod_eq_of_lt (by omega)
  rw [m, m, if_pos b]
  push_cast
  rfl

theorem chanTimes_chain_seen (h : Nat) :
    ∀ (ts : List Nat) (s : ChanState) (t0 : Nat), s.saw = true → s.prev = t0 →
      s.ctr < 4294967296 → t0 < 2147483648 → (∀ t ∈ ts, t < 2147483648) →
      List.Chain (fun a b => a ≠ b) t0 ts →
      (∀ x ∈ idealCounters h s ts, x < 4294967296) →
      List.Chain (fun a b : Int => a < b) (chanLift s t0) (chanTimes h s ts) := by
  intro ts
  induction ts with
  | nil => intro s t0 _ _ _ _ _ _ _; exact List.Chain.nil
  | cons t ts ih =>
    intro s t0 hsaw hprev hctr ht0 hts hne hid
    have ht : t < 2147483648 := hts t (List.mem_cons_self _ _)
    have hts2 : ∀ x ∈ ts, x < 2147483648 := fun x hx => hts x (List.mem_cons_of_mem _ hx)
    rw [List.chain_cons] at hne
    obtain ⟨hne1, hne2⟩ := hne
    have hi1 : (idealStep h s t).ctr < 4294967296 := hid _ (by simp [idealCounters])
    have hstep := chanStep_eq_ideal h s t hctr hi1
    have hid2 : ∀ x ∈ idealCounters h (chanStep h s t) ts, x < 4294967296 := by
      intro x hx
      rw [hstep] at hx
      exact hid x (by simp [idealCounters, hx])
    have hc2 := chanStep_ctr_lt h s t hctr
    have hsaw2 : (chanStep h s t).saw = true := rfl
    have hprev2 : (chanStep h s t).prev = t := rfl
    have ihh := ih (chanStep h s t) t hsaw2 hprev2 hc2 ht hts2 hne2 hid2
    simp only [chanTimes]
    refine List.Chain.cons ?_ ihh
    rw [chanLift_eq s t0 hctr ht0, chanLift_eq _ t hc2 ht]
    have hcv : (chanStep h s t).ctr = if t < t0 then s.ctr + 1 else s.ctr := by
      rw [hstep]
      unfold idealStep
      simp [hsaw, hprev]
    rw [hcv]
    split_ifs with hlt
    · push_cast; omega
    · have : t0 < t := by omega
      omega

theorem chanTimes_chain (h : Nat) (s : ChanState) (ts : List Nat) (hctr : s.ctr < 4294967296)
    (hts : ∀ t ∈ ts, t < 2147483648) (hne : List.Chain' (fun a b => a ≠ b) ts)
    (hid : ∀ x ∈ idealCounters h s ts, x < 4294967296) :
    List.Chain' (fun a b : Int => a < b) (chanTimes h s ts) := by
  cases ts with
  | nil => simp [chanTimes]
  | cons t ts =>
    have ht : t < 2147483648 := hts t (List.mem_cons_self _ _)
    have hts2 : ∀ x ∈ ts, x < 2147483648 := fun x hx => hts x (List.mem_cons_of_mem _ hx)
    have hi1 : (idealStep h s t).ctr < 4294967296 := hid _ (by simp [idealCounters])
    have hstep := chanStep_eq_ideal h s t hctr hi1
    have hid2 : ∀ x ∈ idealCounters h (chanStep h s t) ts, x < 4294967296 := by
      intro x hx
      rw [hstep] at hx
      exact hid x (by simp [idealCounters, hx])
    simp only [chanTimes]
    exact chanTimes_chain_seen h ts (chanStep h s t) t rfl rfl (chanStep_ctr_lt h s t hctr) ht hts2
      hne hid2

theorem start_chan (r c : Nat) (hc : c < 8) :
    (Timeline.start r).chan c = { saw := false, ctr := r, prev := 0 } := by
  have : c = 0 ∨ c = 1 ∨ c = 2 ∨ c = 3 ∨ c = 4 ∨ c = 5 ∨ c = 6 ∨ c = 7 := by omega
  rcases this with h | h | h | h | h | h | h | h <;> subst h <;> rfl

theorem quads_channel_lt (p : Parsed) (hch : ∀ x ∈ p.channels, x < 8) :
    ∀ q ∈ p.quads, q.2.1 < 8 := by
  intro q hq
  obtain ⟨ts, ch, rest⟩ := q
  unfold Parsed.quads at hq
  have h1 := (List.of_mem_zip hq).2
  have h2 := (List.of_mem_zip h1).1
  exact hch ch h2

theorem farApart_iff (h t : Nat) (hh : h < 2147483648) (ht : t < 2147483648) :
    farApart h t = true ↔ 1000000000 < |(h : Int) - (t : Int)| := by
  unfold farApart toInt32 subU32 u32
  rw [decide_eq_true_iff]
  have e1 : h % 4294967296 = h := Nat.mod_eq_of_lt (by omega)
  have e2 : t % 4294967296 = t := Nat.mod_eq_of_lt (by omega)
  rw [e1, e2]
  by_cases hle : t ≤ h
  · have e3 : (h + 4294967296 - t) % 4294967296 = h - t := by omega
    rw [e3, Nat.mod_eq_of_lt (by omega), if_pos (by omega)]
    rw [abs_of_nonneg (by omega)]
    omega
  · have e3 : (h + 4294967296 - t) % 4294967296 = h + 4294967296 - t := by omega
    rw [e3, Nat.mod_eq_of_lt (by omega), if_neg (by omega)]
    rw [abs_of_neg (by omega)]
    omega

theorem recordsRun_append (iModule : Int) (headerTime : Nat) :
    ∀ (xs ys : List (Nat × Nat × List Nat × Nat)) (tl : Timeline),
      recordsRun iModule headerTime tl (xs ++ ys) =
        recordsRun iModule headerTime tl xs ++
          recordsRun iModule headerTime (timelineRun headerTime tl xs) ys := by
  intro xs
  induction xs with
  | nil => intro ys tl; simp [recordsRun, timelineRun]
  | cons x xs ih =>
    intro ys tl
    obtain ⟨ts, ch, buff, sz⟩ := x
    simp [recordsRun, timelineRun, ih]

theorem recordsRun_length (iModule : Int) (headerTime : Nat) :
    ∀ (xs : List (Nat × Nat × List Nat × Nat)) (tl : Timeline),
      (recordsRun iModule headerTime tl xs).length = xs.length := by
  intro xs
  induction xs with
  | nil => intro tl; simp [recordsRun]
  | cons x xs ih =>
    intro tl
    obtain ⟨ts, ch, buff, sz⟩ := x
    simp [recordsRun, ih]

theorem timelineRun_WF (headerTime : Nat) :
    ∀ (xs : List (Nat × Nat × List Nat × Nat)) (tl : Timeline), tl.WF →
      (timelineRun headerTime tl xs).WF := by
  intro xs
  induction xs with
  | nil => intro tl hw; simpa [timelineRun] using hw
  | cons x xs ih =>
    intro tl hw
    obtain ⟨ts, ch, buff, sz⟩ := x
    simp only [timelineRun]
    exact ih _ (Timeline.WF_step _ _ _ _ hw)

theorem timelineRun_chan_other (headerTime c : Nat) :
    ∀ (xs : List (Nat × Nat × List Nat × Nat)) (tl : Timeline), (∀ q ∈ xs, q.2.1 ≠ c) →
      (timelineRun headerTime tl xs).chan c = tl.chan c := by
  intro xs
  induction xs with
  | nil => intro tl _; simp [timelineRun]
  | cons x xs ih =>
    intro tl hq
    obtain ⟨ts, ch, buff, sz⟩ := x
    have h1 : ch ≠ c := hq (ts, ch, buff, sz) (List.mem_cons_self _ _)
    simp only [timelineRun]
    rw [ih _ (fun q hm => hq q (List.mem_cons_of_mem _ hm)), chan_step_other _ _ _ _ _ h1]

theorem chanStep_first (h r t : Nat) (hr : r < 4294967296) (hh : h < 2147483648)
    (ht : t < 2147483648) :
    (chanStep h { saw := false, ctr := r, prev := 0 } t).ctr =
      if 1000000000 < |(h : Int) - (t : Int)| then
        (if h < t ∧ 0 < r then r - 1 else (r + 1) % 4294967296)
      else r := by
  have hf := farApart_iff h t hh ht
  unfold chanStep subU32 u32
  dsimp only
  by_cases hfar : farApart h t = true
  · have hfar2 := hf.mp hfar
    simp only [hfar, if_true, hfar2, Nat.not_lt_zero, if_false]
    split_ifs <;> omega
  · have hfar2 : ¬ (1000000000 < |(h : Int) - (t : Int)|) := fun x => hfar (hf.mpr x)
    simp only [hfar, hfar2, if_false, Nat.not_lt_zero]
    simp

theorem counters_lt_step (h : Nat) (tl : Timeline) (t c : Nat) (hw : tl.WF) (hc : c < 8)
    (hctr : ∀ x ∈ tl.ChannelResetCounters, x < 4294967296) :
    (timelineStep h tl t c).ChannelResetCounters.getD c 0 < 4294967296 := by
  have e := congrArg ChanState.ctr (chan_step_same h tl t c hw hc)
  have e2 : (timelineStep h tl t c).ChannelResetCounters.getD c 0 =
      (chanStep h (tl.chan c) t).ctr := e
  rw [e2]
  apply chanStep_ctr_lt
  have hl : c < tl.ChannelResetCounters.length := by rw [hw.2.1]; exact hc
  have : tl.ChannelResetCounters.getD c 0 = tl.ChannelResetCounters[c] := by
    simp [List.getD_eq_getElem?_getD, hl]
  show tl.ChannelResetCounters.getD c 0 < 4294967296
  rw [this]
  exact hctr _ (List.getElem_mem _)

theorem toInt64_small (x : Nat) (h : x < 9223372036854775808) : toInt64 x = (x : Int) := by
  unfold toInt64
  rw [Nat.mod_eq_of_lt (by omega), if_pos h]

theorem toInt64_mod (x : Nat) : toInt64 (x % 18446744073709551616) = toInt64 x := by
  unfold toInt64
  rw [Nat.mod_mod]

/-! ## Lemmas: the output vectors stay parallel -/

theorem Parsed.Aligned_push (out : Parsed) (keep : List Nat) (sz channel time : Nat)
    (h : out.Aligned) (hc : channel < 8) : (out.push keep sz channel time).Aligned := by
  obtain ⟨h1, h2, h3, h4⟩ := h
  refine ⟨?_, ?_, ?_, ?_⟩
  · simp [Parsed.push, h1]
  · simp [Parsed.push, h2]
  · simp [Parsed.push, h3]
  · intro x hx
    simp only [Parsed.push, List.mem_append, List.mem_singleton] at hx
    rcases hx with hx | hx
    · exact h4 x hx
    · rw [hx]; exact hc

theorem channelWords_aligned (buf : List Nat) (zle : Bool) (channel headerTime channelSize : Nat)
    (hc : channel < 8) :
    ∀ (fuel idx wordCnt sampleCnt : Nat) (out : Parsed) (r : Nat × Parsed), out.Aligned →
      channelWords buf zle channel headerTime channelSize fuel idx wordCnt sampleCnt out =
        Except.ok r → r.2.Aligned := by
  intro fuel
  induction fuel with
  | zero =>
    intro idx wc sc out r _ h
    rw [channelWords] at h
    cases h
  | succ n ih =>
    intro idx wc sc out r hal h
    rw [channelWords] at h
    split at h
    · split at h
      · split at h
        · cases h
        · split at h
          · exact ih _ _ _ _ _ hal h
          · dsimp only at h
            split at h
            · cases h
            · exact ih _ _ _ _ _ (Parsed.Aligned_push _ _ _ _ _ hal hc) h
      · split at h
        · cases h
        · split at h
          · cases h
          · exact ih _ _ _ _ _ (Parsed.Aligned_push _ _ _ _ _ hal hc) h
    · cases h
      exact hal

theorem splitChannelsFor_aligned (buf : List Nat) (zle : Bool)
    (mask headerTime channelSize0 fuel : Nat) :
    ∀ (cs : List Nat) (idx : Nat) (out : Parsed) (r : Nat × Parsed), (∀ c ∈ cs, c < 8) →
      out.Aligned →
      splitChannelsFor buf zle mask headerTime channelSize0 fuel cs idx out = Except.ok r →
      r.2.Aligned := by
  intro cs
  induction cs with
  | nil =>
    intro idx out r _ hal h
    rw [splitChannelsFor] at h
    cases h
    exact hal
  | cons c cs ih =>
    intro idx out r hcs hal h
    have hc : c < 8 := hcs c (List.mem_cons_self _ _)
    have hcs2 : ∀ x ∈ cs, x < 8 := fun x hx => hcs x (List.mem_cons_of_mem _ hx)
    rw [splitChannelsFor] at h
    split at h
    · exact ih _ _ _ hcs2 hal h
    · split at h
      · split at h
        · cases h
        · split at h
          · cases h
          · next hw => exact ih _ _ _ hcs2 (channelWords_aligned _ _ _ _ _ hc _ _ _ _ _ _ hal hw) h
      · split at h
        · cases h
        · next hw => exact ih _ _ _ hcs2 (channelWords_aligned _ _ _ _ _ hc _ _ _ _ _ _ hal hw) h

theorem allChannels_lt : ∀ c ∈ allChannels, c < 8 := by decide

theorem splitChannelsScan_aligned (buf : List Nat) (size : Nat) (zle : Bool) (n : Nat) :
    ∀ (fuel idx : Nat) (out r : Parsed), out.Aligned →
      splitChannelsScan buf size zle n fuel idx out = Except.ok r → r.Aligned := by
  intro fuel
  induction fuel with
  | zero =>
    intro idx out r _ h
    rw [splitChannelsScan] at h
    cases h
  | succ k ih =>
    intro idx out r hal h
    rw [splitChannelsScan] at h
    split at h
    · split at h
      · cases h
      · split at h
        · exact ih _ _ _ hal h
        · split at h
          · exact ih _ _ _ hal h
          · split at h
            · cases h
            · dsimp only at h
              split at h
              · exact ih _ _ _ hal h
              · split at h
                · cases h
                · split at h
                  · cases h
                  · next hf =>
                    refine ih _ _ _ (splitChannelsFor_aligned _ _ _ _ _ _ _ _ _ _ allChannels_lt
                      ?_ hf) h
                    exact hal
    · cases h
      exact hal

theorem splitChannelsBufs_aligned (zle : Bool) (fuel : Nat) :
    ∀ (blts : List (List Nat × Nat)) (out r : Parsed), out.Aligned →
      splitChannelsBufs zle fuel blts out = Except.ok r → r.Aligned := by
  intro blts
  induction blts with
  | nil =>
    intro out r hal h
    rw [splitChannelsBufs] at h
    cases h
    exact hal
  | cons x xs ih =>
    intro out r hal h
    obtain ⟨buf, size⟩ := x
    rw [splitChannelsBufs] at h
    split at h
    · exact ih _ _ hal h
    · split at h
      · cases h
      · next hs => exact ih _ _ (splitChannelsScan_aligned _ _ _ _ _ _ _ _ hal hs) h

theorem newFWFor_aligned (buf : List Nat) (size mask : Nat) :
    ∀ (cs : List Nat) (idx : Nat) (out : Parsed) (r : Nat × Parsed), (∀ c ∈ cs, c < 8) →
      out.Aligned → newFWFor buf size mask cs idx out = Except.ok r → r.2.Aligned := by
  intro cs
  induction cs with
  | nil =>
    intro idx out r _ hal h
    rw [newFWFor] at h
    cases h
    exact hal
  | cons c cs ih =>
    intro idx out r hcs hal h
    have hc : c < 8 := hcs c (List.mem_cons_self _ _)
    have hcs2 : ∀ x ∈ cs, x < 8 := fun x hx => hcs x (List.mem_cons_of_mem _ hx)
    rw [newFWFor] at h
    split at h
    · exact ih _ _ _ hcs2 hal h
    · split at h
      · cases h
      · split at h
        · cases h
        · dsimp only at h
          split at h
          · split at h
            · cases h
            · exact ih _ _ _ hcs2 (Parsed.Aligned_push _ _ _ _ _ hal hc) h
          · exact ih _ _ _ hcs2 hal h

theorem newFWScan_aligned (buf : List Nat) (size : Nat) :
    ∀ (fuel idx : Nat) (out r : Parsed), out.Aligned →
      newFWScan buf size fuel idx out = Except.ok r → r.Aligned := by
  intro fuel
  induction fuel with
  | zero =>
    intro idx out r _ h
    rw [newFWScan] at h
    cases h
  | succ k ih =>
    intro idx out r hal h
    rw [newFWScan] at h
    split at h
    · split at h
      · cases h
      · split at h
        · exact ih _ _ _ hal h
        · split at h
          · exact ih _ _ _ hal h
          · split at h
            · cases h
            · dsimp only at h
              split at h
              · cases h
              · next hf =>
                exact ih _ _ _ (newFWFor_aligned _ _ _ _ _ _ _ allChannels_lt hal hf) h
    · cases h
      exact hal

theorem newFWBufs_aligned (fuel : Nat) :
    ∀ (blts : List (List Nat × Nat)) (out r : Parsed), out.Aligned →
      newFWBufs fuel blts out = Except.ok r → r.Aligned := by
  intro blts
  induction blts with
  | nil =>
    intro out r hal h
    rw [newFWBufs] at h
    cases h
    exact hal
  | cons x xs ih =>
    intro out r hal h
    obtain ⟨buf, size⟩ := x
    rw [newFWBufs] at h
    split at h
    · exact ih _ _ hal h
    · split at h
      · cases h
      · next hs => exact ih _ _ (newFWScan_aligned _ _ _ _ _ _ hal hs) h

/-! ## Lemmas: reading a buffer from a word index -/

theorem u32_of_lt (n : Nat) (h : n < 4294967296) : u32 n = n := Nat.mod_eq_of_lt h

theorem rd_of_drop (buf : List Nat) (idx w : Nat) (rest : List Nat)
    (h : buf.drop idx = w :: rest) : rd buf idx = Except.ok w := by
  have : buf[idx]? = some w := by
    have e := List.getElem?_drop buf idx 0
    rw [h] at e
    simpa using e.symm
  unfold rd
  rw [this]

theorem drop_of_drop (buf : List Nat) (idx : Nat) (xs rest : List Nat)
    (h : buf.drop idx = xs ++ rest) : buf.drop (idx + xs.length) = rest := by
  rw [← List.drop_drop, h, List.drop_left]

theorem length_of_drop (buf : List Nat) (idx : Nat) (xs rest : List Nat)
    (hidx : idx ≤ buf.length) (h : buf.drop idx = xs ++ rest) :
    idx + xs.length + rest.length = buf.length := by
  have := congrArg List.length h
  simp only [List.length_drop, List.length_append] at this
  omega

theorem copyWords_of_drop (buf : List Nat) (idx : Nat) (xs rest : List Nat)
    (hidx : idx ≤ buf.length) (h : buf.drop idx = xs ++ rest) :
    copyWords buf idx (idx + xs.length) = Except.ok xs := by
  have hl := length_of_drop buf idx xs rest hidx h
  unfold copyWords
  by_cases hx : xs.length = 0
  · have : xs = [] := List.length_eq_zero.mp hx
    subst this
    simp
  · rw [if_neg (by omega), if_pos ⟨by omega, by omega⟩, h]
    have : idx + xs.length - idx = xs.length := by omega
    rw [this, List.take_left]

theorem maskChannels_cons_clear (mask c : Nat) (cs : List Nat) (h : (mask >>> c) &&& 1 = 0) :
    maskChannels mask (c :: cs) = maskChannels mask cs := by
  unfold maskChannels
  rw [List.filter_cons]
  exact if_neg (by rw [decide_eq_true_eq]; exact fun hn => hn h)

theorem maskChannels_cons_set (mask c : Nat) (cs : List Nat) (h : ¬ (mask >>> c) &&& 1 = 0) :
    maskChannels mask (c :: cs) = c :: maskChannels mask cs := by
  unfold maskChannels
  rw [List.filter_cons]
  exact if_pos (decide_eq_true h)

theorem newFWFor_blocks (buf : List Nat) (size : Nat) (e : FWEvent)
    (hsize : size = 4 * buf.length) (hlen : 4 * buf.length < 4294967296) :
    ∀ (cs : List Nat) (idx : Nat) (out : Parsed) (rest : List Nat), idx ≤ buf.length →
      buf.drop idx = e.blockWords cs ++ rest →
      newFWFor buf size e.mask cs idx out =
        Except.ok (idx + (e.blockWords cs).length, out.pushAll (e.occurrences cs)) := by
  intro cs
  induction cs with
  | nil =>
    intro idx out rest _ _
    simp [newFWFor, FWEvent.blockWords, FWEvent.occurrences, maskChannels, Parsed.pushAll]
  | cons c cs ih =>
    intro idx out rest hidx hdrop
    by_cases hbit : (e.mask >>> c) &&& 1 = 0
    · have hm := maskChannels_cons_clear e.mask c cs hbit
      have hb : e.blockWords (c :: cs) = e.blockWords cs := by
        unfold FWEvent.blockWords; rw [hm]
      have ho : e.occurrences (c :: cs) = e.occurrences cs := by
        unfold FWEvent.occurrences; rw [hm]
      rw [newFWFor, if_pos hbit, hb, ho]
      rw [hb] at hdrop
      exact ih idx out rest hidx hdrop
    · have hm := maskChannels_cons_set e.mask c cs hbit
      have hb : e.blockWords (c :: cs) =
          ((e.blk c).payload.length + 2) :: (e.blk c).time ::
            ((e.blk c).payload ++ e.blockWords cs) := by
        unfold FWEvent.blockWords
        rw [hm, List.map_cons, List.flatten_cons]
        simp [FWBlock.words]
      have ho : e.occurrences (c :: cs) =
          { channel := c, time := (e.blk c).time &&& 0x7FFFFFFF, payload := (e.blk c).payload } ::
            e.occurrences cs := by
        unfold FWEvent.occurrences; rw [hm, List.map_cons]
      rw [hb] at hdrop
      have hd0 : buf.drop idx = [(e.blk c).payload.length + 2, (e.blk c).time] ++
          ((e.blk c).payload ++ (e.blockWords cs ++ rest)) := by
        rw [hdrop]; simp
      have hl0 := length_of_drop buf idx _ _ hidx hd0
      simp only [List.length_cons, List.length_nil, List.length_append] at hl0
      have hr1 : rd buf idx = Except.ok ((e.blk c).payload.length + 2) :=
        rd_of_drop buf idx _ _ hdrop
      have hd1 : buf.drop (idx + 1) = (e.blk c).time ::
          ((e.blk c).payload ++ (e.blockWords cs ++ rest)) := by
        have := drop_of_drop buf idx [(e.blk c).payload.length + 2] _ (by rw [hd0]; rfl)
        simpa using this
      have hr2 : rd buf (idx + 1) = Except.ok (e.blk c).time := rd_of_drop buf (idx + 1) _ _ hd1
      have hd2 : buf.drop (idx + 2) = (e.blk c).payload ++ (e.blockWords cs ++ rest) := by
        have := drop_of_drop buf idx [(e.blk c).payload.length + 2, (e.blk c).time] _ hd0
        simpa using this
      have hcp : copyWords buf (idx + 2) (idx + 2 + (e.blk c).payload.length) =
          Except.ok (e.blk c).payload := copyWords_of_drop buf (idx + 2) _ _ (by omega) hd2
      have hd3 : buf.drop (idx + 2 + (e.blk c).payload.length) = e.blockWords cs ++ rest :=
        drop_of_drop buf (idx + 2) _ _ hd2
      have u1 : u32 (idx + 1) = idx + 1 := u32_of_lt _ (by omega)
      have u2 : u32 (idx + 1 + 1) = idx + 2 := u32_of_lt _ (by omega)
      have u3 : subU32 (u32 (idx + 2 + ((e.blk c).payload.length + 2))) 2 =
          idx + 2 + (e.blk c).payload.length := by
        unfold subU32 u32; omega
      have u4 : u32 (subU32 ((e.blk c).payload.length + 2) 2 * 4) =
          4 * (e.blk c).payload.length := by
        unfold subU32 u32; omega
      rw [newFWFor, if_neg hbit]
      simp only [hr1, u1, hr2, u2, u3, u4]
      rw [if_pos (by omega)]
      simp only [hcp]
      rw [ih _ _ rest (by omega) hd3, hb, ho]
      simp only [Parsed.pushAll, List.length_cons, List.length_append]
      have e5 : idx + 2 + (e.blk c).payload.length + (e.blockWords cs).length =
          idx + ((e.blk c).payload.length + (e.blockWords cs).length + 1 + 1) := by omega
      rw [e5]

theorem Parsed.pushAll_append (out : Parsed) (a b : List Occurrence) :
    (out.pushAll a).pushAll b = out.pushAll (a ++ b) := by
  induction a generalizing out with
  | nil => rfl
  | cons x a ih =>
    rw [List.cons_append]
    simp only [Parsed.pushAll]
    exact ih _

theorem Parsed.pushAll_fields (occs : List Occurrence) :
    ∀ (out : Parsed),
      (out.pushAll occs).retbuff = out.retbuff ++ occs.map (fun x => x.payload) ∧
      (out.pushAll occs).retsize = out.retsize ++ occs.map (fun x => 4 * x.payload.length) ∧
      (out.pushAll occs).timeStamps = out.timeStamps ++ occs.map (fun x => x.time) ∧
      (out.pushAll occs).channels = out.channels ++ occs.map (fun x => x.channel) ∧
      (out.pushAll occs).eventIndices = out.eventIndices ∧
      (out.pushAll occs).bErrorSet = out.bErrorSet := by
  induction occs with
  | nil => intro out; simp [Parsed.pushAll]
  | cons x occs ih =>
    intro out
    obtain ⟨h1, h2, h3, h4, h5, h6⟩ := ih (out.push x.payload (4 * x.payload.length) x.channel x.time)
    refine ⟨?_, ?_, ?_, ?_, ?_, ?_⟩
    · rw [Parsed.pushAll, h1]; simp [Parsed.push]
    · rw [Parsed.pushAll, h2]; simp [Parsed.push]
    · rw [Parsed.pushAll, h3]; simp [Parsed.push]
    · rw [Parsed.pushAll, h4]; simp [Parsed.push]
    · rw [Parsed.pushAll, h5]; simp [Parsed.push]
    · rw [Parsed.pushAll, h6]; simp [Parsed.push]

theorem occurrences_of_fields (out : Parsed) (occs : List Occurrence)
    (h1 : out.retbuff = occs.map (fun x => x.payload))
    (h3 : out.timeStamps = occs.map (fun x => x.time))
    (h4 : out.channels = occs.map (fun x => x.channel)) : out.occurrences = occs := by
  unfold Parsed.occurrences
  rw [h1, h3, h4]
  clear h1 h3 h4
  induction occs with
  | nil => rfl
  | cons x occs ih =>
    simp only [List.map_cons, List.zip_cons_cons]
    rw [ih]

theorem header_ne_filler (w : Nat) (h : w >>> 20 = 0xA00) : ¬ w = 0xFFFFFFFF := by
  intro hw
  rw [hw] at h
  exact absurd h (by decide)

theorem fwWords_cons (i : FWItem) (items : List FWItem) :
    fwWords (i :: items) = i.words ++ fwWords items := by
  simp [fwWords]

theorem fwOccurrences_cons (i : FWItem) (items : List FWItem) :
    fwOccurrences (i :: items) = i.occurrences ++ fwOccurrences items := by
  simp [fwOccurrences]

theorem newFWScan_items (buf : List Nat) (size : Nat)
    (hsize : size = 4 * buf.length) (hlen : 4 * buf.length < 4294967296) :
    ∀ (items : List FWItem) (fuel idx : Nat) (out : Parsed), (∀ i ∈ items, i.legal) →
      idx ≤ buf.length → buf.drop idx = fwWords items → items.length < fuel →
      newFWScan buf size fuel idx out = Except.ok (out.pushAll (fwOccurrences items)) := by
  have hq : size / 4 = buf.length := by omega
  intro items
  induction items with
  | nil =>
    intro fuel idx out _ hidx hdrop hfuel
    obtain ⟨f, rfl⟩ : ∃ f, fuel = f + 1 := ⟨fuel - 1, by simp at hfuel; omega⟩
    have hl := length_of_drop buf idx [] [] hidx (by rw [hdrop]; rfl)
    simp only [List.length_nil] at hl
    rw [newFWScan, if_neg (by omega)]
    rfl
  | cons i items ih =>
    intro fuel idx out hlegal hidx hdrop hfuel
    obtain ⟨f, rfl⟩ : ∃ f, fuel = f + 1 := ⟨fuel - 1, by simp at hfuel; omega⟩
    have hf : items.length < f := by simp at hfuel; omega
    have hlegal2 : ∀ j ∈ items, j.legal := fun j hj => hlegal j (List.mem_cons_of_mem _ hj)
    rw [fwWords_cons] at hdrop
    rw [fwOccurrences_cons]
    cases i with
    | filler =>
      have hd0 : buf.drop idx = [0xFFFFFFFF] ++ fwWords items := hdrop
      have hl0 := length_of_drop buf idx _ _ hidx hd0
      simp only [List.length_cons, List.length_nil] at hl0
      have hr : rd buf idx = Except.ok 0xFFFFFFFF := rd_of_drop buf idx _ _ hdrop
      have hd1 : buf.drop (idx + 1) = fwWords items := by
        have := drop_of_drop buf idx [0xFFFFFFFF] _ hd0
        simpa using this
      rw [newFWScan, if_pos (by omega)]
      simp only [hr]
      rw [if_pos trivial, u32_of_lt _ (by omega), ih f (idx + 1) out hlegal2 (by omega) hd1 hf]
      rfl
    | event e =>
      have hw0 : e.w0 >>> 20 = 0xA00 := hlegal (FWItem.event e) (List.mem_cons_self _ _)
      have hd0 : buf.drop idx = [e.w0, e.w1, e.w2, e.w3] ++
          (e.blockWords allChannels ++ fwWords items) := by
        rw [hdrop]; simp [FWItem.words, FWEvent.words]
      have hl0 := length_of_drop buf idx _ _ hidx hd0
      simp only [List.length_cons, List.length_nil, List.length_append] at hl0
      have hr0 : rd buf idx = Except.ok e.w0 := rd_of_drop buf idx _ _ hd0
      have hd1 : buf.drop (idx + 1) = e.w1 :: ([e.w2, e.w3] ++
          (e.blockWords allChannels ++ fwWords items)) := by
        have := drop_of_drop buf idx [e.w0] _ (by rw [hd0]; rfl)
        simpa using this
      have hr1 : rd buf (idx + 1) = Except.ok e.w1 := rd_of_drop buf (idx + 1) _ _ hd1
      have hd4 : buf.drop (idx + 4) = e.blockWords allChannels ++ fwWords items := by
        have := drop_of_drop buf idx [e.w0, e.w1, e.w2, e.w3] _ hd0
        simpa using this
      have hfor := newFWFor_blocks buf size e hsize hlen allChannels (idx + 4) out
        (fwWords items) (by omega) hd4
      have hd5 : buf.drop (idx + 4 + (e.blockWords allChannels).length) = fwWords items :=
        drop_of_drop buf (idx + 4) _ _ hd4
      rw [newFWScan, if_pos (by omega)]
      simp only [hr0]
      rw [if_neg (header_ne_filler _ hw0), if_neg (by rw [hw0]; exact fun h => h rfl)]
      simp only [u32_of_lt (idx + 1) (by omega), hr1, u32_of_lt (idx + 4) (by omega)]
      have hm : e.w1 &&& 0xFF = e.mask := rfl
      rw [hm, hfor]
      simp only []
      rw [ih f _ _ hlegal2 (by omega) hd5 hf, Parsed.pushAll_append]
      rfl

theorem payloadsOf_append (a b : List Occurrence) (c : Nat) :
    payloadsOf (a ++ b) c = payloadsOf a c ++ payloadsOf b c := by
  simp [payloadsOf]

theorem payloadsOf_event (e : FWEvent) (c : Nat) :
    ∀ (cs : List Nat), cs.Nodup →
      payloadsOf (e.occurrences cs) c =
        if c ∈ maskChannels e.mask cs then [(e.blk c).payload] else [] := by
  intro cs
  induction cs with
  | nil => intro _; simp [FWEvent.occurrences, maskChannels, payloadsOf]
  | cons d cs ih =>
    intro hnd
    have hnd2 : cs.Nodup := (List.nodup_cons.mp hnd).2
    have hd : d ∉ cs := (List.nodup_cons.mp hnd).1
    have hdm : d ∉ maskChannels e.mask cs := fun h => hd (List.mem_of_mem_filter h)
    by_cases hbit : (e.mask >>> d) &&& 1 = 0
    · have hm := maskChannels_cons_clear e.mask d cs hbit
      have ho : e.occurrences (d :: cs) = e.occurrences cs := by
        unfold FWEvent.occurrences; rw [hm]
      rw [ho, hm]
      exact ih hnd2
    · have hm := maskChannels_cons_set e.mask d cs hbit
      have ho : e.occurrences (d :: cs) =
          [{ channel := d, time := (e.blk d).time &&& 0x7FFFFFFF, payload := (e.blk d).payload }] ++
            e.occurrences cs := by
        unfold FWEvent.occurrences; rw [hm, List.map_cons]; rfl
      rw [ho, payloadsOf_append, ih hnd2, hm]
      by_cases hcd : c = d
      · subst hcd
        simp [payloadsOf, hdm]
      · have hdc : ¬ d = c := fun h => hcd h.symm
        simp [payloadsOf, hcd, hdc]

theorem allChannels_nodup : allChannels.Nodup := by decide

theorem payloadsOf_fwOccurrences (c : Nat) :
    ∀ (items : List FWItem), payloadsOf (fwOccurrences items) c = fwPayloads c items := by
  intro items
  induction items with
  | nil => rfl
  | cons i items ih =>
    rw [fwOccurrences_cons, payloadsOf_append, ih]
    cases i with
    | filler => rfl
    | event e =>
      simp only [FWItem.occurrences, fwPayloads]
      rw [payloadsOf_event e c allChannels allChannels_nodup]
      split_ifs <;> rfl

/-! ## Lemmas: the legacy parser on ZLE blocks -/

theorem zleWords_cons (i : ZItem) (items : List ZItem) :
    zleWords (i :: items) = i.words ++ zleWords items := by
  simp [zleWords]

theorem channelWords_zle (buf : List Nat) (hlen : 4 * buf.length < 4294967296)
    (channel headerTime channelSize : Nat) (hcs : channelSize < 4294967296) :
    ∀ (items : List ZItem) (fuel idx wordCnt s : Nat) (out : Parsed) (rest : List Nat),
      (∀ i ∈ items, i.legal) → idx ≤ buf.length → buf.drop idx = zleWords items ++ rest →
      wordCnt + (zleWords items).length = channelSize → buf.length < fuel + idx →
      channelWords buf true channel headerTime channelSize fuel idx wordCnt (s % 4294967296) out =
        Except.ok (idx + (zleWords items).length,
          out.pushAll (zleOccurrences channel headerTime s items)) := by
  intro items
  induction items with
  | nil =>
    intro fuel idx wordCnt s out rest _ hidx _ hwc hfuel
    obtain ⟨f, rfl⟩ : ∃ f, fuel = f + 1 := ⟨fuel - 1, by omega⟩
    simp only [zleWords, List.map_nil, List.flatten_nil, List.length_nil] at hwc ⊢
    rw [channelWords, if_neg (by omega)]
    rfl
  | cons i items ih =>
    intro fuel idx wordCnt s out rest hlegal hidx hdrop hwc hfuel
    obtain ⟨f, rfl⟩ : ∃ f, fuel = f + 1 := ⟨fuel - 1, by omega⟩
    have hlegal2 : ∀ j ∈ items, j.legal := fun j hj => hlegal j (List.mem_cons_of_mem _ hj)
    have hli : i.legal := hlegal i (List.mem_cons_self _ _)
    rw [zleWords_cons] at hdrop hwc
    rw [zleWords_cons]
    cases i with
    | skip w =>
      have hd0 : buf.drop idx = [w] ++ (zleWords items ++ rest) := by
        rw [hdrop]; simp [ZItem.words]
      have hl0 := length_of_drop buf idx _ _ hidx hd0
      simp only [List.length_cons, List.length_nil, List.length_append] at hl0
      simp only [ZItem.words, List.length_cons, List.length_nil, List.length_append] at hwc
      have hr : rd buf idx = Except.ok w := rd_of_drop buf idx _ _ hd0
      have hd1 : buf.drop (idx + 1) = zleWords items ++ rest := by
        have := drop_of_drop buf idx [w] _ hd0
        simpa using this
      have hsk : w >>> 28 ≠ 0x8 := hli
      have hs : u32 (s % 4294967296 + u32 (2 * w)) = (s + 2 * w) % 4294967296 := by
        unfold u32; omega
      rw [channelWords, if_pos (by omega), if_pos rfl]
      simp only [hr]
      rw [if_pos hsk, u32_of_lt (idx + 1) (by omega), u32_of_lt (wordCnt + 1) (by omega), hs,
        ih f (idx + 1) (wordCnt + 1) (s + 2 * w) out rest hlegal2 (by omega) hd1 (by omega)
          (by omega)]
      simp only [zleOccurrences, ZItem.words, List.length_cons, List.length_nil,
        List.length_append]
      have e5 : idx + 1 + (zleWords items).length = idx + (0 + 1 + (zleWords items).length) := by
        omega
      rw [e5]
    | good w payload =>
      obtain ⟨hg1, hg2⟩ : w >>> 28 = 0x8 ∧ w &&& 0xFFFFFFF = payload.length := hli
      have hd0 : buf.drop idx = [w] ++ (payload ++ (zleWords items ++ rest)) := by
        rw [hdrop]; simp [ZItem.words]
      have hl0 := length_of_drop buf idx _ _ hidx hd0
      simp only [List.length_cons, List.length_nil, List.length_append] at hl0
      simp only [ZItem.words, List.length_cons, List.length_nil, List.length_append] at hwc
      have hr : rd buf idx = Except.ok w := rd_of_drop buf idx _ _ hd0
      have hd1 : buf.drop (idx + 1) = payload ++ (zleWords items ++ rest) := by
        have := drop_of_drop buf idx [w] _ hd0
        simpa using this
      have hcp : copyWords buf (idx + 1) (idx + 1 + payload.length) = Except.ok payload :=
        copyWords_of_drop buf (idx + 1) _ _ (by omega) hd1
      have hd2 : buf.drop (idx + 1 + payload.length) = zleWords items ++ rest :=
        drop_of_drop buf (idx + 1) _ _ hd1
      have hs : u32 (s % 4294967296 + 2 * payload.length) =
          (s + 2 * payload.length) % 4294967296 := by
        unfold u32; omega
      have ht : u32 (headerTime + s % 4294967296) = (headerTime + s) % 4294967296 := by
        unfold u32; omega
      have hsz : u32 (payload.length * 4) = 4 * payload.length := by
        unfold u32; omega
      rw [channelWords, if_pos (by omega), if_pos rfl]
      simp only [hr]
      rw [if_neg (by rw [hg1]; exact fun h => h rfl)]
      simp only [hg2, u32_of_lt (idx + 1) (by omega), u32_of_lt (idx + 1 + payload.length) (by omega),
        hcp, u32_of_lt (wordCnt + 1) (by omega),
        u32_of_lt (wordCnt + 1 + payload.length) (by omega), hs, ht, hsz]
      rw [ih f (idx + 1 + payload.length) (wordCnt + 1 + payload.length)
          (s + 2 * payload.length) _ rest hlegal2 (by omega) hd2 (by omega) (by omega)]
      simp only [zleOccurrences, hg2, Parsed.pushAll, ZItem.words, List.length_cons,
        List.length_append]
      have e5 : idx + 1 + payload.length + (zleWords items).length =
          idx + (payload.length + 1 + (zleWords items).length) := by omega
      rw [e5]

theorem zleWords_length_ge (items : List ZItem) : items.length ≤ (zleWords items).length := by
  induction items with
  | nil => simp [zleWords]
  | cons i items ih =>
    rw [zleWords_cons]
    cases i <;> simp [ZItem.words] <;> omega

theorem splitChannelsFor_zle (buf : List Nat) (hlen : 4 * buf.length < 4294967296)
    (e : ZEvent) (channelSize0 fuel : Nat) :
    ∀ (cs : List Nat) (idx : Nat) (out : Parsed) (rest : List Nat),
      (∀ c ∈ maskChannels e.mask cs, ∀ i ∈ e.blk c, i.legal) → idx ≤ buf.length →
      buf.drop idx = e.blockWords cs ++ rest → buf.length < fuel + idx →
      splitChannelsFor buf true e.mask e.headerTime channelSize0 fuel cs idx out =
        Except.ok (idx + (e.blockWords cs).length, out.pushAll (e.occurrences cs)) := by
  intro cs
  induction cs with
  | nil =>
    intro idx out rest _ _ _ _
    simp [splitChannelsFor, ZEvent.blockWords, ZEvent.occurrences, maskChannels, Parsed.pushAll]
  | cons c cs ih =>
    intro idx out rest hlegal hidx hdrop hfuel
    by_cases hbit : (e.mask >>> c) &&& 1 = 0
    · have hm := maskChannels_cons_clear e.mask c cs hbit
      have hb : e.blockWords (c :: cs) = e.blockWords cs := by
        unfold ZEvent.blockWords; rw [hm]
      have ho : e.occurrences (c :: cs) = e.occurrences cs := by
        unfold ZEvent.occurrences; rw [hm]
      rw [splitChannelsFor, if_pos hbit, hb, ho]
      rw [hb] at hdrop
      rw [hm] at hlegal
      exact ih idx out rest hlegal hidx hdrop hfuel
    · have hm := maskChannels_cons_set e.mask c cs hbit
      have hb : e.blockWords (c :: cs) =
          ((zleWords (e.blk c)).length + 1) :: (zleWords (e.blk c) ++ e.blockWords cs) := by
        unfold ZEvent.blockWords
        rw [hm, List.map_cons, List.flatten_cons]
        simp [zleBlock]
      have ho : e.occurrences (c :: cs) =
          zleOccurrences c e.headerTime 0 (e.blk c) ++ e.occurrences cs := by
        unfold ZEvent.occurrences; rw [hm, List.map_cons, List.flatten_cons]
      rw [hm] at hlegal
      have hlc : ∀ i ∈ e.blk c, i.legal := hlegal c (List.mem_cons_self _ _)
      have hl2 : ∀ d ∈ maskChannels e.mask cs, ∀ i ∈ e.blk d, i.legal :=
        fun d hd => hlegal d (List.mem_cons_of_mem _ hd)
      rw [hb] at hdrop
      have hd0 : buf.drop idx = [(zleWords (e.blk c)).length + 1] ++
          (zleWords (e.blk c) ++ (e.blockWords cs ++ rest)) := by
        rw [hdrop]; simp
      have hl0 := length_of_drop buf idx _ _ hidx hd0
      simp only [List.length_cons, List.length_nil, List.length_append] at hl0
      have hr : rd buf idx = Except.ok ((zleWords (e.blk c)).length + 1) :=
        rd_of_drop buf idx _ _ hd0
      have hd1 : buf.drop (idx + 1) = zleWords (e.blk c) ++ (e.blockWords cs ++ rest) := by
        have := drop_of_drop buf idx [(zleWords (e.blk c)).length + 1] _ hd0
        simpa using this
      have hd2 : buf.drop (idx + 1 + (zleWords (e.blk c)).length) = e.blockWords cs ++ rest :=
        drop_of_drop buf (idx + 1) _ _ hd1
      have hcw := channelWords_zle buf hlen c e.headerTime ((zleWords (e.blk c)).length + 1)
        (by omega) (e.blk c) fuel (idx + 1) 1 0 out (e.blockWords cs ++ rest) hlc (by omega) hd1
        (by omega) (by omega)
      rw [Nat.zero_mod] at hcw
      rw [splitChannelsFor, if_neg hbit, if_pos rfl]
      simp only [hr, u32_of_lt (idx + 1) (by omega), hcw]
      rw [ih _ _ rest hl2 (by omega) hd2 (by omega), hb, ho, Parsed.pushAll_append]
      simp only [List.length_cons, List.length_append]
      have e5 : idx + 1 + (zleWords (e.blk c)).length + (e.blockWords cs).length =
          idx + ((zleWords (e.blk c)).length + (e.blockWords cs).length + 1) := by omega
      rw [e5]

theorem zWords_cons (i : ZPiece) (pieces : List ZPiece) :
    zWords (i :: pieces) = i.words ++ zWords pieces := by
  simp [zWords]

theorem zOccurrences_cons (i : ZPiece) (pieces : List ZPiece) :
    zOccurrences (i :: pieces) = i.occurrences ++ zOccurrences pieces := by
  simp [zOccurrences]

theorem splitChannelsScan_zle (buf : List Nat) (size : Nat)
    (hsize : size = 4 * buf.length) (hlen : 4 * buf.length < 4294967296) (n : Nat)
    (hn : buf.length < n) :
    ∀ (pieces : List ZPiece) (fuel idx : Nat) (out : Parsed), (∀ i ∈ pieces, i.legal) →
      idx ≤ buf.length → buf.drop idx = zWords pieces → pieces.length < fuel →
      splitChannelsScan buf size true n fuel idx out = Except.ok (out.pushPieces pieces) := by
  have hq : size / 4 = buf.length := by omega
  intro pieces
  induction pieces with
  | nil =>
    intro fuel idx out _ hidx hdrop hfuel
    obtain ⟨f, rfl⟩ : ∃ f, fuel = f + 1 := ⟨fuel - 1, by simp at hfuel; omega⟩
    have hl := length_of_drop buf idx [] [] hidx (by rw [hdrop]; rfl)
    simp only [List.length_nil] at hl
    rw [splitChannelsScan, if_neg (by omega)]
    rfl
  | cons i pieces ih =>
    intro fuel idx out hlegal hidx hdrop hfuel
    obtain ⟨f, rfl⟩ : ∃ f, fuel = f + 1 := ⟨fuel - 1, by simp at hfuel; omega⟩
    have hf : pieces.length < f := by simp at hfuel; omega
    have hlegal2 : ∀ j ∈ pieces, j.legal := fun j hj => hlegal j (List.mem_cons_of_mem _ hj)
    rw [zWords_cons] at hdrop
    cases i with
    | filler =>
      have hd0 : buf.drop idx = [0xFFFFFFFF] ++ zWords pieces := hdrop
      have hl0 := length_of_drop buf idx _ _ hidx hd0
      simp only [List.length_cons, List.length_nil] at hl0
      have hr : rd buf idx = Except.ok 0xFFFFFFFF := rd_of_drop buf idx _ _ hdrop
      have hd1 : buf.drop (idx + 1) = zWords pieces := by
        have := drop_of_drop buf idx [0xFFFFFFFF] _ hd0
        simpa using this
      rw [splitChannelsScan, if_pos (by omega)]
      simp only [hr]
      rw [if_pos trivial, u32_of_lt _ (by omega),
        ih f (idx + 1) out hlegal2 (by omega) hd1 hf]
      rfl
    | event e =>
      obtain ⟨hw0, hle⟩ : e.legal := hlegal (ZPiece.event e) (List.mem_cons_self _ _)
      have hd0 : buf.drop idx = [e.w0, e.w1, e.w2, e.w3] ++
          (e.blockWords allChannels ++ zWords pieces) := by
        rw [hdrop]; simp [ZPiece.words, ZEvent.words]
      have hl0 := length_of_drop buf idx _ _ hidx hd0
      simp only [List.length_cons, List.length_nil, List.length_append] at hl0
      have hr0 : rd buf idx = Except.ok e.w0 := rd_of_drop buf idx _ _ hd0
      have hd1 : buf.drop (idx + 1) = e.w1 :: ([e.w2, e.w3] ++
          (e.blockWords allChannels ++ zWords pieces)) := by
        have := drop_of_drop buf idx [e.w0] _ (by rw [hd0]; rfl)
        simpa using this
      have hr1 : rd buf (idx + 1) = Except.ok e.w1 := rd_of_drop buf (idx + 1) _ _ hd1
      have hd3 : buf.drop (idx + 3) = e.w3 :: (e.blockWords allChannels ++ zWords pieces) := by
        have := drop_of_drop buf idx [e.w0, e.w1, e.w2] _ (by rw [hd0]; rfl)
        simpa using this
      have hr3 : rd buf (idx + 3) = Except.ok e.w3 := rd_of_drop buf (idx + 3) _ _ hd3
      have hd4 : buf.drop (idx + 4) = e.blockWords allChannels ++ zWords pieces := by
        have := drop_of_drop buf idx [e.w0, e.w1, e.w2, e.w3] _ hd0
        simpa using this
      have hfor := splitChannelsFor_zle buf hlen e 0 n allChannels (idx + 4)
        { out with eventIndices := out.eventIndices ++ [u32 out.retbuff.length] }
        (zWords pieces) hle (by omega) hd4 (by omega)
      have hd5 : buf.drop (idx + 4 + (e.blockWords allChannels).length) = zWords pieces :=
        drop_of_drop buf (idx + 4) _ _ hd4
      have hm : e.w1 &&& 0xFF = e.mask := rfl
      have hh : e.w3 &&& 0x7FFFFFFF = e.headerTime := rfl
      rw [splitChannelsScan, if_pos (by omega)]
      simp only [hr0]
      rw [if_neg (header_ne_filler _ hw0), if_neg (by rw [hw0]; exact fun h => h rfl)]
      simp only [u32_of_lt (idx + 1) (by omega), hr1, u32_of_lt (idx + 3) (by omega), hr3,
        u32_of_lt (idx + 4) (by omega), hm, hh]
      rw [if_neg (by simp)]
      simp only [if_true, hfor]
      rw [ih f _ _ hlegal2 (by omega) hd5 hf]
      rfl

theorem Parsed.pushPieces_fields :
    ∀ (pieces : List ZPiece) (out : Parsed),
      (out.pushPieces pieces).retbuff =
        out.retbuff ++ (zOccurrences pieces).map (fun x => x.payload) ∧
      (out.pushPieces pieces).retsize =
        out.retsize ++ (zOccurrences pieces).map (fun x => 4 * x.payload.length) ∧
      (out.pushPieces pieces).timeStamps =
        out.timeStamps ++ (zOccurrences pieces).map (fun x => x.time) ∧
      (out.pushPieces pieces).channels =
        out.channels ++ (zOccurrences pieces).map (fun x => x.channel) := by
  intro pieces
  induction pieces with
  | nil => intro out; simp [Parsed.pushPieces, zOccurrences]
  | cons i pieces ih =>
    intro out
    rw [zOccurrences_cons]
    cases i with
    | filler => simpa [Parsed.pushPieces, ZPiece.occurrences] using ih out
    | event e =>
      obtain ⟨h1, h2, h3, h4⟩ := ih (out.pushEvent (e.occurrences allChannels))
      obtain ⟨g1, g2, g3, g4, _, _⟩ := Parsed.pushAll_fields (e.occurrences allChannels)
        { out with eventIndices := out.eventIndices ++ [u32 out.retbuff.length] }
      simp only [Parsed.pushPieces, ZPiece.occurrences, List.map_append]
      refine ⟨?_, ?_, ?_, ?_⟩
      · rw [h1, Parsed.pushEvent, g1, List.append_assoc]
      · rw [h2, Parsed.pushEvent, g2, List.append_assoc]
      · rw [h3, Parsed.pushEvent, g3, List.append_assoc]
      · rw [h4, Parsed.pushEvent, g4, List.append_assoc]

theorem zWords_length_ge (pieces : List ZPiece) : pieces.length ≤ (zWords pieces).length := by
  induction pieces with
  | nil => simp [zWords]
  | cons i pieces ih =>
    rw [zWords_cons]
    cases i <;> simp [ZPiece.words, ZEvent.words] <;> omega

/-! ## Lemmas: the legacy parser on raw events -/

set_option maxRecDepth 100000 in
theorem popcount_mask_aux : ∀ m < 256, popcount m = (maskChannels m allChannels).length := by
  decide

theorem popcount_mask (w1 : Nat) :
    popcount (w1 &&& 0xFF) = (maskChannels (w1 &&& 0xFF) allChannels).length :=
  popcount_mask_aux _ (Nat.and_lt_two_pow w1 (n := 8) (by decide))

theorem channelWords_raw (buf : List Nat) (hlen : 4 * buf.length < 4294967296)
    (channel headerTime k fuel idx : Nat) (out : Parsed) (ws rest : List Nat)
    (hk : 1 ≤ k) (hT : headerTime < 4294967296) (hidx : idx ≤ buf.length)
    (hdrop : buf.drop idx = ws ++ rest) (hws : ws.length = k) (hfuel : 2 ≤ fuel) :
    channelWords buf false channel headerTime k fuel idx 0 0 out =
      Except.ok (idx + k, out.push ws (4 * k) channel headerTime) := by
  obtain ⟨f, rfl⟩ : ∃ f, fuel = f + 2 := ⟨fuel - 2, by omega⟩
  have hl0 := length_of_drop buf idx _ _ hidx hdrop
  have hcp : copyWords buf idx (idx + k) = Except.ok ws := by
    rw [← hws]; exact copyWords_of_drop buf idx _ _ hidx hdrop
  rw [channelWords, if_pos (by omega)]
  simp only [Bool.false_eq_true, if_false]
  rw [if_neg (by omega)]
  simp only [u32_of_lt (idx + k) (by omega), hcp, Nat.zero_add, Nat.add_zero,
    u32_of_lt k (by omega), u32_of_lt (k * 4) (by omega), u32_of_lt headerTime hT]
  rw [channelWords, if_neg (by omega), Nat.mul_comm k 4]

theorem splitChannelsFor_raw (buf : List Nat) (hlen : 4 * buf.length < 4294967296)
    (mask headerTime k fuel : Nat) (hk : 1 ≤ k) (hT : headerTime < 4294967296)
    (hfuel : 2 ≤ fuel) :
    ∀ (cs : List Nat) (idx : Nat) (out : Parsed) (ws rest : List Nat), idx ≤ buf.length →
      buf.drop idx = ws ++ rest → ws.length = (maskChannels mask cs).length * k →
      splitChannelsFor buf false mask headerTime k fuel cs idx out =
        Except.ok (idx + ws.length, out.pushAll (rawOccurrences mask headerTime k cs ws)) := by
  intro cs
  induction cs with
  | nil =>
    intro idx out ws rest _ _ hws
    simp only [maskChannels, List.filter_nil, List.length_nil, Nat.zero_mul] at hws
    rw [splitChannelsFor, hws]
    rfl
  | cons c cs ih =>
    intro idx out ws rest hidx hdrop hws
    by_cases hbit : (mask >>> c) &&& 1 = 0
    · rw [maskChannels_cons_clear mask c cs hbit] at hws
      rw [splitChannelsFor, if_pos hbit, rawOccurrences, if_pos hbit]
      exact ih idx out ws rest hidx hdrop hws
    · rw [maskChannels_cons_set mask c cs hbit] at hws
      simp only [List.length_cons] at hws
      have hws2 : ws.length = k + (maskChannels mask cs).length * k := by
        rw [hws, Nat.add_mul, Nat.one_mul, Nat.add_comm]
      have hsplit : ws = ws.take k ++ ws.drop k := (List.take_append_drop k ws).symm
      have htl : (ws.take k).length = k := by rw [List.length_take]; omega
      have hdl : (ws.drop k).length = (maskChannels mask cs).length * k := by
        rw [List.length_drop]; omega
      have hd0 : buf.drop idx = ws.take k ++ (ws.drop k ++ rest) := by
        rw [hdrop, ← List.append_assoc, List.take_append_drop]
      have hl0 := length_of_drop buf idx _ _ hidx hd0
      simp only [List.length_append] at hl0
      have hd1 : buf.drop (idx + k) = ws.drop k ++ rest := by
        have := drop_of_drop buf idx _ _ hd0
        rw [htl] at this
        exact this
      have hcw := channelWords_raw buf hlen c headerTime k fuel idx out (ws.take k)
        (ws.drop k ++ rest) hk hT hidx hd0 htl hfuel
      rw [splitChannelsFor, if_neg hbit]
      simp only [Bool.false_eq_true, if_false, hcw]
      rw [ih (idx + k) _ (ws.drop k) rest (by omega) hd1 hdl, rawOccurrences, if_neg hbit]
      simp only [Parsed.pushAll, htl]
      have e5 : idx + k + (ws.drop k).length = idx + ws.length := by omega
      rw [e5]

theorem rawOccurrences_fields (mask headerTime k : Nat) :
    ∀ (cs : List Nat) (ws : List Nat),
      (rawOccurrences mask headerTime k cs ws).map (fun x => x.channel) = maskChannels mask cs ∧
      (rawOccurrences mask headerTime k cs ws).map (fun x => x.time) =
        List.replicate (maskChannels mask cs).length headerTime ∧
      (rawOccurrences mask headerTime k cs ws).map (fun x => x.payload) =
        (List.range (maskChannels mask cs).length).map (fun i => (ws.drop (i * k)).take k) := by
  intro cs
  induction cs with
  | nil => intro ws; simp [rawOccurrences, maskChannels]
  | cons c cs ih =>
    intro ws
    by_cases hbit : (mask >>> c) &&& 1 = 0
    · rw [maskChannels_cons_clear mask c cs hbit, rawOccurrences, if_pos hbit]
      exact ih ws
    · obtain ⟨h1, h2, h3⟩ := ih (ws.drop k)
      rw [maskChannels_cons_set mask c cs hbit, rawOccurrences, if_neg hbit]
      refine ⟨?_, ?_, ?_⟩
      · rw [List.map_cons, h1]
      · rw [List.map_cons, h2]; rfl
      · rw [List.map_cons, h3, List.length_cons, List.range_succ_eq_map, List.map_cons,
          List.map_map]
        simp only [Nat.zero_mul, List.drop_zero]
        congr 1
        apply List.map_congr_left
        intro i _
        simp only [Function.comp, List.drop_drop]
        have : k + i * k = (i + 1) * k := by rw [Nat.add_mul, Nat.one_mul, Nat.add_comm]
        rw [this]

theorem farApart_near (h t : Nat) (ht : t < 2147483648)
    (hnear : |(h : Int) - (t : Int)| ≤ 1000000000) : farApart h t = false := by
  have hb := abs_le.mp hnear
  have hh : h < 4294967296 := by omega
  unfold farApart toInt32 subU32 u32
  rw [decide_eq_false_iff_not]
  have e1 : h % 4294967296 = h := Nat.mod_eq_of_lt hh
  have e2 : t % 4294967296 = t := Nat.mod_eq_of_lt (by omega)
  rw [e1, e2]
  by_cases hle : t ≤ h
  · have e3 : (h + 4294967296 - t) % 4294967296 = h - t := by omega
    rw [e3, Nat.mod_eq_of_lt (by omega), if_pos (by omega)]
    omega
  · have e3 : (h + 4294967296 - t) % 4294967296 = h + 4294967296 - t := by omega
    rw [e3, Nat.mod_eq_of_lt (by omega), if_neg (by omega)]
    omega

theorem recordsRun_same_time (iModule : Int) (h T : Nat) (hT : T < 2147483648)
    (hnear : farApart h T = false) :
    ∀ (qs : List (Nat × Nat × List Nat × Nat)) (tl : Timeline), tl.WF →
      (∀ d, d < 8 → (tl.chan d).ctr = 0 ∧ (tl.chan d).prev ≤ T) →
      (∀ q ∈ qs, q.1 = T ∧ q.2.1 < 8) →
      recordsRun iModule h tl qs =
        qs.map (fun q => { module := iModule, channel := (q.2.1 : Int), time := (T : Int),
                           endtime := (T : Int) + (q.2.2.2 : Int), data := q.2.2.1 }) := by
  intro qs
  induction qs with
  | nil => intro tl _ _ _; rfl
  | cons q qs ih =>
    intro tl hw hinv hq
    obtain ⟨ts, ch, buff, sz⟩ := q
    obtain ⟨hts, hch⟩ : ts = T ∧ ch < 8 := hq (ts, ch, buff, sz) (List.mem_cons_self _ _)
    subst hts
    have hq2 : ∀ q ∈ qs, q.1 = ts ∧ q.2.1 < 8 := fun q hm => hq q (List.mem_cons_of_mem _ hm)
    have hsame := chan_step_same h tl ts ch hw hch
    obtain ⟨hc0, hp0⟩ := hinv ch hch
    have hstep : chanStep h (tl.chan ch) ts = { saw := true, ctr := 0, prev := ts } := by
      unfold chanStep
      simp only [hnear, hc0, Bool.false_eq_true, if_false, ite_self]
      rw [if_neg (by omega)]
    have hinv2 : ∀ d, d < 8 → ((timelineStep h tl ts ch).chan d).ctr = 0 ∧
        ((timelineStep h tl ts ch).chan d).prev ≤ ts := by
      intro d hd
      by_cases hcd : ch = d
      · subst hcd
        rw [hsame, hstep]
        exact ⟨rfl, Nat.le_refl _⟩
      · rw [chan_step_other h tl ts ch d hcd]
        exact hinv d hd
    have hlift : liftTime (timelineStep h tl ts ch) ts ch = (ts : Int) := by
      rw [liftTime_chan, hsame, hstep,
        chanLift_eq { saw := true, ctr := 0, prev := ts } ts (by show 0 < 4294967296; omega) hT]
      simp
    simp only [recordsRun, List.map_cons, hlift]
    rw [ih _ (Timeline.WF_step h tl ts ch hw) hinv2 hq2]

theorem start_inv (T : Nat) : ∀ d, d < 8 →
    ((Timeline.start 0).chan d).ctr = 0 ∧ ((Timeline.start 0).chan d).prev ≤ T := by
  intro d hd
  rw [start_chan 0 d hd]
  exact ⟨rfl, Nat.zero_le _⟩

theorem legacy_raw_parse (w0 w1 w2 w3 k fuel : Nat) (payload : List Nat)
    (hw0 : w0 >>> 20 = 0xA00) (hp : 1 ≤ popcount (w1 &&& 0xFF)) (hk : 1 ≤ k)
    (hsz : w0 &&& 0xFFFFFF = 4 + popcount (w1 &&& 0xFF) * k)
    (hpl : payload.length = popcount (w1 &&& 0xFF) * k) (hfuel : 2 ≤ fuel) :
    SplitChannels fuel [(w0 :: w1 :: w2 :: w3 :: payload, 4 * (4 + payload.length))] [] [] []
        false =
      Except.ok (Parsed.pushAll
        { retbuff := [], retsize := [], timeStamps := [], channels := [],
          eventIndices := [0], bErrorSet := false }
        (rawOccurrences (w1 &&& 0xFF) (w3 &&& 0x7FFFFFFF) k allChannels payload)) := by
  obtain ⟨f, rfl⟩ : ∃ f, fuel = f + 2 := ⟨fuel - 2, by omega⟩
  have h24 : w0 &&& 0xFFFFFF < 16777216 := Nat.and_lt_two_pow w0 (n := 24) (by decide)
  have h31 : w3 &&& 0x7FFFFFFF < 2147483648 := Nat.and_lt_two_pow w3 (n := 31) (by decide)
  have hblen : (w0 :: w1 :: w2 :: w3 :: payload).length = 4 + payload.length := by
    simp only [List.length_cons]; omega
  have hlen : 4 * (w0 :: w1 :: w2 :: w3 :: payload).length < 4294967296 := by
    rw [hblen]; omega
  have hcs : subU32 (w0 &&& 0xFFFFFF) 4 / popcount (w1 &&& 0xFF) = k := by
    have : subU32 (w0 &&& 0xFFFFFF) 4 = popcount (w1 &&& 0xFF) * k := by
      unfold subU32; omega
    rw [this, Nat.mul_div_cancel_left k (by omega)]
  have hfor := splitChannelsFor_raw (w0 :: w1 :: w2 :: w3 :: payload) hlen (w1 &&& 0xFF)
    (w3 &&& 0x7FFFFFFF) k (f + 2) hk (by omega) (by omega) allChannels 4
    { retbuff := [], retsize := [], timeStamps := [], channels := [],
      eventIndices := [0], bErrorSet := false } payload [] (by rw [hblen]; omega)
    (by simp) (by rw [hpl, popcount_mask])
  have hr0 : rd (w0 :: w1 :: w2 :: w3 :: payload) 0 = Except.ok w0 := rfl
  have hr1 : rd (w0 :: w1 :: w2 :: w3 :: payload) 1 = Except.ok w1 := rfl
  have hr3 : rd (w0 :: w1 :: w2 :: w3 :: payload) 3 = Except.ok w3 := by simp [rd]
  have hu1 : u32 (0 + 1) = 1 := rfl
  have hu3 : u32 (0 + 3) = 3 := rfl
  have hu4 : u32 (0 + 4) = 4 := rfl
  have hu0 : u32 ([] : List (List Nat)).length = 0 := rfl
  have hq : 4 * (4 + payload.length) / 4 = 4 + payload.length := by omega
  unfold SplitChannels
  rw [splitChannelsBufs, if_neg (by omega), splitChannelsScan, hq, if_pos (by omega)]
  simp only [hr0]
  rw [if_neg (header_ne_filler _ hw0), if_neg (by rw [hw0]; exact fun h => h rfl)]
  simp only [hu1, hr1, hu3, hr3, hu4]
  rw [if_neg (by intro h; omega)]
  simp only [Bool.false_eq_true, if_false, hcs, hu0, List.nil_append, hfor]
  rw [splitChannelsScan, hq, if_neg (by omega)]
  rfl

theorem Parsed.quads_proj (p : Parsed) (n : Nat)
    (h1 : p.timeStamps.length = n) (h2 : p.channels.length = n)
    (h3 : p.retbuff.length = n) (h4 : p.retsize.length = n) :
    p.quads.map (fun q => q.1) = p.timeStamps ∧ p.quads.map (fun q => q.2.1) = p.channels ∧
      p.quads.map (fun q => q.2.2.1) = p.retbuff ∧ p.quads.map (fun q => q.2.2.2) = p.retsize := by
  have a1 : (p.retbuff.zip p.retsize).length = n := by simp [h3, h4]
  have a2 : (p.channels.zip (p.retbuff.zip p.retsize)).length = n := by simp [h2, h3, h4]
  have e1 : p.quads.map Prod.fst = p.timeStamps := List.map_fst_zip _ _ (by omega)
  have e2 : p.quads.map Prod.snd = p.channels.zip (p.retbuff.zip p.retsize) :=
    List.map_snd_zip _ _ (by omega)
  have e3 : (p.channels.zip (p.retbuff.zip p.retsize)).map Prod.fst = p.channels :=
    List.map_fst_zip _ _ (by omega)
  have e4 : (p.channels.zip (p.retbuff.zip p.retsize)).map Prod.snd = p.retbuff.zip p.retsize :=
    List.map_snd_zip _ _ (by omega)
  have e5 : (p.retbuff.zip p.retsize).map Prod.fst = p.retbuff := List.map_fst_zip _ _ (by omega)
  have e6 : (p.retbuff.zip p.retsize).map Prod.snd = p.retsize := List.map_snd_zip _ _ (by omega)
  refine ⟨e1, ?_, ?_, ?_⟩
  · rw [← e3, ← e2, List.map_map]; rfl
  · rw [← e5, ← e4, ← e2, List.map_map, List.map_map]; rfl
  · rw [← e6, ← e4, ← e2, List.map_map, List.map_map]; rfl

theorem maskChannels_lt (mask : Nat) : ∀ c ∈ maskChannels mask allChannels, c < 8 :=
  fun c hc => allChannels_lt c (List.mem_of_mem_filter hc)

/-! ## Lemmas: the channel parsers return or fault within the fuel -/

theorem rd_ok_lt (buf : List Nat) (i w : Nat) (h : rd buf i = Except.ok w) : i < buf.length := by
  unfold rd at h
  split at h
  · next hw =>
    by_contra hn
    rw [List.getElem?_eq_none (by omega)] at hw
    cases hw
  · cases h

theorem rd_error (buf : List Nat) (i : Nat) (e : Fault) (h : rd buf i = Except.error e) :
    e = Fault.outOfBounds := by
  unfold rd at h
  split at h
  · cases h
  · cases h; rfl

theorem copyWords_ok_bounds (buf : List Nat) (a b : Nat) (ws : List Nat)
    (h : copyWords buf a b = Except.ok ws) : a ≤ b ∧ (b ≤ buf.length ∨ a = b) := by
  unfold copyWords at h
  split at h
  · next hab => exact ⟨by omega, Or.inr hab⟩
  · split at h
    · next hab => exact ⟨by omega, Or.inl hab.2⟩
    · cases h

theorem copyWords_error (buf : List Nat) (a b : Nat) (e : Fault)
    (h : copyWords buf a b = Except.error e) : e = Fault.outOfBounds := by
  unfold copyWords at h
  split at h
  · cases h
  · split at h
    · cases h
    · cases h; rfl

theorem newFWFor_total (buf : List Nat) (size mask : Nat) (hb : buf.length + 8 < 4294967296) :
    ∀ (cs : List Nat) (idx : Nat) (out : Parsed), idx ≤ buf.length + 4 →
      (∀ r, newFWFor buf size mask cs idx out = Except.ok r → idx ≤ r.1 ∧ r.1 ≤ buf.length + 4) ∧
      newFWFor buf size mask cs idx out ≠ Except.error Fault.fuel := by
  intro cs
  induction cs with
  | nil =>
    intro idx out hidx
    rw [newFWFor]
    refine ⟨?_, fun h => by cases h⟩
    intro r h
    cases h
    exact ⟨Nat.le_refl _, hidx⟩
  | cons c cs ih =>
    intro idx out hidx
    rw [newFWFor]
    split
    · exact ih idx out hidx
    · split
      · next e he =>
        have := rd_error _ _ _ he
        subst this
        exact ⟨fun r h => (by cases h), fun h => (by cases h)⟩
      · next channelSize h1 =>
        have hi := rd_ok_lt _ _ _ h1
        have u1 : u32 (idx + 1) = idx + 1 := u32_of_lt _ (by omega)
        rw [u1]
        split
        · next e he =>
          have := rd_error _ _ _ he
          subst this
          exact ⟨fun r h => (by cases h), fun h => (by cases h)⟩
        · next w h2 =>
          have hi2 := rd_ok_lt _ _ _ h2
          have u2 : u32 (idx + 1 + 1) = idx + 2 := u32_of_lt _ (by omega)
          dsimp only
          rw [u2]
          split
          · split
            · next e he =>
              have := copyWords_error _ _ _ _ he
              subst this
              exact ⟨fun r h => (by cases h), fun h => (by cases h)⟩
            · next keep hk =>
              obtain ⟨b1, b2⟩ := copyWords_ok_bounds _ _ _ _ hk
              obtain ⟨i1, i2⟩ := ih (subU32 (u32 (idx + 2 + channelSize)) 2)
                (out.push keep (u32 (subU32 channelSize 2 * 4)) c (w &&& 0x7FFFFFFF))
                (by omega)
              refine ⟨fun r h => ?_, i2⟩
              have := i1 r h
              omega
          · obtain ⟨i1, i2⟩ := ih (idx + 2) out (by omega)
            refine ⟨fun r h => ?_, i2⟩
            have := i1 r h
            omega

theorem newFWScan_total (buf : List Nat) (size : Nat) (hb : buf.length + 8 < 4294967296) :
    ∀ (fuel idx : Nat) (out : Parsed), idx ≤ buf.length + 4 → buf.length + 6 ≤ fuel + idx →
      newFWScan buf size fuel idx out ≠ Except.error Fault.fuel := by
  intro fuel
  induction fuel with
  | zero => intro idx out h1 h2; omega
  | succ f ih =>
    intro idx out hidx hfuel
    rw [newFWScan]
    split
    · split
      · next e he =>
        have := rd_error _ _ _ he
        subst this
        exact fun h => by cases h
      · next w h1 =>
        have hi := rd_ok_lt _ _ _ h1
        have u1 : u32 (idx + 1) = idx + 1 := u32_of_lt _ (by omega)
        have u4 : u32 (idx + 4) = idx + 4 := u32_of_lt _ (by omega)
        rw [u1, u4]
        split
        · exact ih _ _ (by omega) (by omega)
        · split
          · exact ih _ _ (by omega) (by omega)
          · split
            · next e he =>
              have := rd_error _ _ _ he
              subst this
              exact fun h => by cases h
            · next w1 h2 =>
              dsimp only
              obtain ⟨t1, t2⟩ := newFWFor_total buf size (w1 &&& 0xFF) hb allChannels (idx + 4) out
                (by omega)
              split
              · next e he =>
                intro h
                cases h
                exact t2 he
              · next idx1 out1 hf =>
                have := t1 _ hf
                exact ih _ _ (by omega) (by omega)
    · exact fun h => by cases h

theorem channelWords_total (buf : List Nat) (zle : Bool) (channel headerTime channelSize : Nat)
    (hb : buf.length + 8 < 4294967296) :
    ∀ (fuel idx wordCnt sampleCnt : Nat) (out : Parsed), idx ≤ buf.length + 4 →
      buf.length + 6 ≤ fuel + idx →
      (∀ r, channelWords buf zle channel headerTime channelSize fuel idx wordCnt sampleCnt out =
        Except.ok r → idx ≤ r.1 ∧ r.1 ≤ buf.length + 4) ∧
      channelWords buf zle channel headerTime channelSize fuel idx wordCnt sampleCnt out ≠
        Except.error Fault.fuel := by
  intro fuel
  induction fuel with
  | zero => intro idx wc sc out h1 h2; omega
  | succ f ih =>
    intro idx wc sc out hidx hfuel
    rw [channelWords]
    split
    · next hwc =>
      split
      · split
        · next e he =>
          have := rd_error _ _ _ he
          subst this
          exact ⟨fun r h => (by cases h), fun h => (by cases h)⟩
        · next w h1 =>
          have hi := rd_ok_lt _ _ _ h1
          have u1 : u32 (idx + 1) = idx + 1 := u32_of_lt _ (by omega)
          rw [u1]
          split
          · obtain ⟨i1, i2⟩ := ih (idx + 1) (u32 (wc + 1)) (u32 (sc + u32 (2 * w))) out
              (by omega) (by omega)
            refine ⟨fun r h => ?_, i2⟩
            have := i1 r h
            omega
          · dsimp only
            split
            · next e he =>
              have := copyWords_error _ _ _ _ he
              subst this
              exact ⟨fun r h => (by cases h), fun h => (by cases h)⟩
            · next keep hk =>
              obtain ⟨b1, b2⟩ := copyWords_ok_bounds _ _ _ _ hk
              obtain ⟨i1, i2⟩ := ih (u32 (idx + 1 + (w &&& 0xFFFFFFF)))
                (u32 (u32 (wc + 1) + (w &&& 0xFFFFFFF))) (u32 (sc + 2 * (w &&& 0xFFFFFFF)))
                (out.push keep (u32 ((w &&& 0xFFFFFFF) * 4)) channel (u32 (headerTime + sc)))
                (by omega) (by omega)
              refine ⟨fun r h => ?_, i2⟩
              have := i1 r h
              omega
      · split
        · exact ⟨fun r h => (by cases h), fun h => (by cases h)⟩
        · next hcs =>
          split
          · next e he =>
            have := copyWords_error _ _ _ _ he
            subst this
            exact ⟨fun r h => (by cases h), fun h => (by cases h)⟩
          · next keep hk =>
            obtain ⟨b1, b2⟩ := copyWords_ok_bounds _ _ _ _ hk
            have hlt : idx < u32 (idx + channelSize) := by
              rcases Nat.lt_or_ge idx (u32 (idx + channelSize)) with h | h
              · exact h
              · exfalso
                have he : u32 (idx + channelSize) = idx := by omega
                unfold u32 at he
                omega
            obtain ⟨i1, i2⟩ := ih (u32 (idx + channelSize)) (u32 (wc + channelSize))
              (u32 (sc + 2 * channelSize))
              (out.push keep (u32 (channelSize * 4)) channel (u32 (headerTime + sc)))
              (by omega) (by omega)
            refine ⟨fun r h => ?_, i2⟩
            have := i1 r h
            omega
    · refine ⟨fun r h => ?_, fun h => (by cases h)⟩
      cases h
      exact ⟨Nat.le_refl _, hidx⟩

theorem splitChannelsFor_total (buf : List Nat) (zle : Bool)
    (mask headerTime channelSize0 n : Nat) (hb : buf.length + 8 < 4294967296)
    (hn : buf.length + 6 ≤ n) :
    ∀ (cs : List Nat) (idx : Nat) (out : Parsed), idx ≤ buf.length + 4 →
      (∀ r, splitChannelsFor buf zle mask headerTime channelSize0 n cs idx out = Except.ok r →
        idx ≤ r.1 ∧ r.1 ≤ buf.length + 4) ∧
      splitChannelsFor buf zle mask headerTime channelSize0 n cs idx out ≠
        Except.error Fault.fuel := by
  intro cs
  induction cs with
  | nil =>
    intro idx out hidx
    rw [splitChannelsFor]
    refine ⟨?_, fun h => (by cases h)⟩
    intro r h
    cases h
    exact ⟨Nat.le_refl _, hidx⟩
  | cons c cs ih =>
    intro idx out hidx
    rw [splitChannelsFor]
    split
    · exact ih idx out hidx
    · split
      · split
        · next e he =>
          have := rd_error _ _ _ he
          subst this
          exact ⟨fun r h => (by cases h), fun h => (by cases h)⟩
        · next channelSize h1 =>
          have hi := rd_ok_lt _ _ _ h1
          have u1 : u32 (idx + 1) = idx + 1 := u32_of_lt _ (by omega)
          rw [u1]
          obtain ⟨t1, t2⟩ := channelWords_total buf zle c headerTime channelSize hb n (idx + 1) 1 0
            out (by omega) (by omega)
          split
          · next e he =>
            refine ⟨fun r h => (by cases h), fun h => ?_⟩
            cases h
            exact t2 he
          · next idx1 out1 hw =>
            have hw1 := t1 _ hw
            obtain ⟨i1, i2⟩ := ih idx1 out1 hw1.2
            refine ⟨fun r h => ?_, i2⟩
            have := i1 r h
            have := hw1.1
            omega
      · obtain ⟨t1, t2⟩ := channelWords_total buf zle c headerTime channelSize0 hb n idx 0 0
          out hidx (by omega)
        split
        · next e he =>
          refine ⟨fun r h => (by cases h), fun h => ?_⟩
          cases h
          exact t2 he
        · next idx1 out1 hw =>
          have hw1 := t1 _ hw
          obtain ⟨i1, i2⟩ := ih idx1 out1 hw1.2
          refine ⟨fun r h => ?_, i2⟩
          have := i1 r h
          have := hw1.1
          omega

theorem splitChannelsScan_total (buf : List Nat) (size : Nat) (zle : Bool) (n : Nat)
    (hb : buf.length + 8 < 4294967296) (hn : buf.length + 6 ≤ n) :
    ∀ (fuel idx : Nat) (out : Parsed), idx ≤ buf.length + 4 → buf.length + 6 ≤ fuel + idx →
      splitChannelsScan buf size zle n fuel idx out ≠ Except.error Fault.fuel := by
  intro fuel
  induction fuel with
  | zero => intro idx out h1 h2; omega
  | succ f ih =>
    intro idx out hidx hfuel
    rw [splitChannelsScan]
    split
    · split
      · next e he =>
        have := rd_error _ _ _ he
        subst this
        exact fun h => (by cases h)
      · next w h1 =>
        have hi := rd_ok_lt _ _ _ h1
        have u1 : u32 (idx + 1) = idx + 1 := u32_of_lt _ (by omega)
        have u3 : u32 (idx + 3) = idx + 3 := u32_of_lt _ (by omega)
        have u4 : u32 (idx + 4) = idx + 4 := u32_of_lt _ (by omega)
        rw [u1, u3, u4]
        split
        · exact ih _ _ (by omega) (by omega)
        · split
          · exact ih _ _ (by omega) (by omega)
          · split
            · next e he =>
              have := rd_error _ _ _ he
              subst this
              exact fun h => (by cases h)
            · next w1 h2 =>
              dsimp only
              split
              · exact ih _ _ (by omega) (by omega)
              · split
                · next e he =>
                  have := rd_error _ _ _ he
                  subst this
                  exact fun h => (by cases h)
                · next w3 h3 =>
                  obtain ⟨t1, t2⟩ := splitChannelsFor_total buf zle (w1 &&& 0xFF)
                    (w3 &&& 0x7FFFFFFF)
                    (if zle = true then 0 else subU32 (w &&& 0xFFFFFF) 4 / popcount (w1 &&& 0xFF))
                    n hb hn allChannels (idx + 4)
                    { out with eventIndices := out.eventIndices ++ [u32 out.retbuff.length] }
                    (by omega)
                  split
                  · next e he =>
                    intro h
                    cases h
                    exact t2 he
                  · next idx1 out1 hf =>
                    have := t1 _ hf
                    exact ih _ _ (by omega) (by omega)
    · exact fun h => (by cases h)

theorem splitChannelsBufs_total (zle : Bool) (fuel : Nat) :
    ∀ (blts : List (List Nat × Nat)) (out : Parsed),
      (∀ b ∈ blts, b.1.length + 6 ≤ fuel ∧ b.1.length + 8 < 4294967296) →
      splitChannelsBufs zle fuel blts out ≠ Except.error Fault.fuel := by
  intro blts
  induction blts with
  | nil =>
    intro out _
    rw [splitChannelsBufs]
    exact fun h => (by cases h)
  | cons x xs ih =>
    intro out hb
    obtain ⟨buf, size⟩ := x
    obtain ⟨h1, h2⟩ : buf.length + 6 ≤ fuel ∧ buf.length + 8 < 4294967296 :=
      hb (buf, size) (List.mem_cons_self _ _)
    have hxs : ∀ b ∈ xs, b.1.length + 6 ≤ fuel ∧ b.1.length + 8 < 4294967296 :=
      fun b hm => hb b (List.mem_cons_of_mem _ hm)
    rw [splitChannelsBufs]
    split
    · exact ih out hxs
    · have ht := splitChannelsScan_total buf size zle fuel h2 h1 fuel 0 out (by omega) (by omega)
      split
      · next e he =>
        intro h
        cases h
        exact ht he
      · exact ih _ hxs

theorem newFWBufs_total (fuel : Nat) :
    ∀ (blts : List (List Nat × Nat)) (out : Parsed),
      (∀ b ∈ blts, b.1.length + 6 ≤ fuel ∧ b.1.length + 8 < 4294967296) →
      newFWBufs fuel blts out ≠ Except.error Fault.fuel := by
  intro blts
  induction blts with
  | nil =>
    intro out _
    rw [newFWBufs]
    exact fun h => (by cases h)
  | cons x xs ih =>
    intro out hb
    obtain ⟨buf, size⟩ := x
    obtain ⟨h1, h2⟩ : buf.length + 6 ≤ fuel ∧ buf.length + 8 < 4294967296 :=
      hb (buf, size) (List.mem_cons_self _ _)
    have hxs : ∀ b ∈ xs, b.1.length + 6 ≤ fuel ∧ b.1.length + 8 < 4294967296 :=
      fun b hm => hb b (List.mem_cons_of_mem _ hm)
    rw [newFWBufs]
    split
    · exact ih out hxs
    · have ht := newFWScan_total buf size h2 fuel 0 out (by omega) (by omega)
      split
      · next e he =>
        intro h
        cases h
        exact ht he
      · exact ih _ hxs

/-! ## Lemmas: the insert batching -/

theorem rotating_false_of_ne (o : BatchOptions) (h : o.rotating_collections ≠ some 1) :
    o.rotating = false := by
  unfold BatchOptions.rotating
  cases hv : o.rotating_collections with
  | none => rfl
  | some v =>
    have : v ≠ 1 := fun e => h (by rw [hv, e])
    simp [this]

theorem rotating_true_of_eq (o : BatchOptions) (h : o.rotating_collections = some 1) :
    o.rotating = true := by
  unfold BatchOptions.rotating
  rw [h]
  rfl

theorem rotationFlush_off (o : BatchOptions) (ins : Nat → Bool) (ctr : Nat) (s : Batching)
    (h : o.rotating = false) : rotationFlush o ins ctr s = (s, false) := by
  unfold rotationFlush
  rw [if_neg]
  rw [h]
  simp

theorem appendFlush_tags_off (o : BatchOptions) (ins : Nat → Bool) (ctr : Nat) (last : Bool)
    (d : Doc) (s : Batching) (h : o.rotating = false) :
    ∃ cs, (appendFlush o ins ctr last d s).1.calls = s.calls ++ cs ∧ ∀ c ∈ cs, c.tag = -1 := by
  unfold appendFlush
  cases hv : s.vMongoInsertVec with
  | none => exact ⟨[], by simp, by simp⟩
  | some v =>
    simp only [h, Bool.false_eq_true, if_false]
    split_ifs with h1 h2
    · exact ⟨[{ batch := some (v ++ [d]), tag := -1 }], by simp, by simp⟩
    · exact ⟨[{ batch := some (v ++ [d]), tag := -1 }], by simp, by simp⟩
    · exact ⟨[], by simp, by simp⟩

theorem batchStep_tags_off (o : BatchOptions) (ins : Nat → Bool) (ctr : Nat) (last : Bool)
    (d : Doc) (s : Batching) (h : o.rotating = false) :
    ∃ cs, (batchStep o ins ctr last d s).1.calls = s.calls ++ cs ∧ ∀ c ∈ cs, c.tag = -1 := by
  unfold batchStep
  rw [rotationFlush_off o ins ctr s h]
  exact appendFlush_tags_off o ins ctr last d s h

theorem toInt32_channel (ch : Nat) (h : ¬ (toInt32 ch < 0 ∨ toInt32 ch > 7)) :
    (toInt32 ch).toNat < 8 ∧ toInt32 ch = (((toInt32 ch).toNat : Nat) : Int) := by
  omega

theorem mongoFor_succ_cases (o : BatchOptions) (ins : Nat → Bool) (iModule : Int)
    (headerTime : Nat) (p : Parsed) (k b : Nat) (tl : Timeline) (s : Batching) :
    (∃ e, mongoFor o ins iModule headerTime p (k + 1) b tl s = (s, e)) ∨
    (∃ ts ch c buff sz, c < 8 ∧ c = (toInt32 ch).toNat ∧ p.timeStamps[b]? = some ts ∧
      p.channels[b]? = some ch ∧ p.retbuff[b]? = some buff ∧ p.retsize[b]? = some sz ∧
      mongoFor o ins iModule headerTime p (k + 1) b tl s =
        match batchStep o ins ((timelineStep headerTime tl ts c).ChannelResetCounters.getD c 0)
            (decide (b = p.retbuff.length - 1))
            { record := { module := iModule, channel := (c : Int),
                          time := liftTime (timelineStep headerTime tl ts c) ts c,
                          endtime := liftTime (timelineStep headerTime tl ts c) ts c + (sz : Int),
                          data := buff }
              resetCounter := (timelineStep headerTime tl ts c).ChannelResetCounters.getD c 0 }
            s with
        | (s1, none) => mongoFor o ins iModule headerTime p k (b + 1)
            (timelineStep headerTime tl ts c) s1
        | (s1, some e) => (s1, e)) := by
  rw [mongoFor]
  split
  · rename_i TimeStamp ch e1 e2
    dsimp only
    split_ifs with hc
    · exact Or.inl ⟨_, rfl⟩
    · split
      · rename_i buff eventSize e3 e4
        obtain ⟨h8, hcast⟩ := toInt32_channel ch hc
        refine Or.inr ⟨TimeStamp, ch, (toInt32 ch).toNat, buff, eventSize, h8, rfl, e1, e2, e3,
          e4, ?_⟩
        rw [← hcast]
      · exact Or.inl ⟨_, rfl⟩
  · exact Or.inl ⟨_, rfl⟩

theorem mongoFor_tags_off (o : BatchOptions) (ins : Nat → Bool) (iModule : Int)
    (headerTime : Nat) (p : Parsed) (h : o.rotating = false) :
    ∀ (k b : Nat) (tl : Timeline) (s : Batching),
      ∃ cs, (mongoFor o ins iModule headerTime p k b tl s).1.calls = s.calls ++ cs ∧
        ∀ c ∈ cs, c.tag = -1 := by
  intro k
  induction k with
  | zero =>
    intro b tl s
    exact ⟨[], by simp [mongoFor], by simp⟩
  | succ k ih =>
    intro b tl s
    rcases mongoFor_succ_cases o ins iModule headerTime p k b tl s with ⟨e, he⟩ |
      ⟨ts, ch, c, buff, sz, _, _, _, _, _, _, he⟩
    · rw [he]
      exact ⟨[], by simp, by simp⟩
    · rw [he]
      obtain ⟨cs1, e1, t1⟩ := batchStep_tags_off o ins
        ((timelineStep headerTime tl ts c).ChannelResetCounters.getD c 0)
        (decide (b = p.retbuff.length - 1))
        { record := { module := iModule, channel := (c : Int),
                      time := liftTime (timelineStep headerTime tl ts c) ts c,
                      endtime := liftTime (timelineStep headerTime tl ts c) ts c + (sz : Int),
                      data := buff }
          resetCounter := (timelineStep headerTime tl ts c).ChannelResetCounters.getD c 0 } s h
      split
      · rename_i s1 hs
        rw [hs] at e1
        obtain ⟨cs2, e2, t2⟩ := ih (b + 1) (timelineStep headerTime tl ts c) s1
        refine ⟨cs1 ++ cs2, ?_, ?_⟩
        · rw [e2, e1, List.append_assoc]
        · intro c hc
          rcases List.mem_append.1 hc with hc | hc
          · exact t1 c hc
          · exact t2 c hc
      · rename_i s1 e hs
        rw [hs] at e1
        exact ⟨cs1, e1, t1⟩

theorem Timeline.Fits_start (r : Nat) (hr : r < 4294967296) : (Timeline.start r).Fits := by
  refine ⟨Timeline.WF_start r, ?_⟩
  intro i
  by_cases hi : i < 8
  · rw [start_chan r i hi]
    exact hr
  · have : (Timeline.start r).ChannelResetCounters.getD i 0 = 0 := by
      rw [List.getD_eq_getElem?_getD, List.getElem?_eq_none]
      · rfl
      · rw [(Timeline.WF_start r).2.1]
        omega
    show (Timeline.start r).ChannelResetCounters.getD i 0 < 4294967296
    omega

theorem Timeline.Fits_step (h : Nat) (tl : Timeline) (t c : Nat) (hc : c < 8) (hf : tl.Fits) :
    (timelineStep h tl t c).Fits := by
  refine ⟨Timeline.WF_step h tl t c hf.1, ?_⟩
  intro i
  by_cases hi : c = i
  · subst hi
    rw [chan_step_same h tl t c hf.1 hc]
    exact chanStep_ctr_lt h _ t (hf.2 c)
  · rw [chan_step_other h tl t c i hi]
    exact hf.2 i

theorem toInt32_range (x : Nat) : -2147483648 ≤ toInt32 x ∧ toInt32 x < 2147483648 := by
  unfold toInt32
  split_ifs <;> omega

theorem toInt32_of_unsigned_eq (ctr : Nat) (L : Int) (h1 : -2147483648 ≤ L) (h2 : L < 2147483648)
    (h : u32 ctr = (L % 4294967296).toNat) : toInt32 ctr = L := by
  unfold toInt32
  unfold u32 at h
  split_ifs <;> omega

theorem toInt32_inj (x y : Nat) (hx : x < 4294967296) (hy : y < 4294967296)
    (h : toInt32 x = toInt32 y) : x = y := by
  unfold toInt32 at h
  split_ifs at h <;> omega

theorem rotationFlush_rotated (o : BatchOptions) (ins : Nat → Bool) (ctr : Nat) (s : Batching)
    (hrot : o.rotating = true) (hins : ∀ n, ins n = true)
    (hs : s.Rotated) (hc : ∀ c ∈ s.calls, c.Homogeneous) :
    ∃ s1, rotationFlush o ins ctr s = (s1, false) ∧ s1.Rotated ∧
      (∀ c ∈ s1.calls, c.Homogeneous) ∧ toInt32 ctr = s1.LAST_RESET_COUNT := by
  obtain ⟨h1, h2, v, hv, hb⟩ := hs
  unfold rotationFlush
  by_cases hne : u32 ctr ≠ (s.LAST_RESET_COUNT % 4294967296).toNat
  · rw [if_pos ⟨hrot, hne⟩]
    dsimp only
    rw [if_pos (hins _)]
    refine ⟨_, rfl, ⟨(toInt32_range ctr).1, (toInt32_range ctr).2, [], rfl, ?_⟩, ?_, rfl⟩
    · intro d hd
      cases hd
    · intro c hcm
      rcases List.mem_append.1 hcm with hcm | hcm
      · exact hc c hcm
      · rw [List.mem_singleton] at hcm
        subst hcm
        exact ⟨v, hv, hb⟩
  · rw [if_neg (fun h => hne h.2)]
    refine ⟨s, rfl, ⟨h1, h2, v, hv, hb⟩, hc, ?_⟩
    exact toInt32_of_unsigned_eq ctr _ h1 h2 (not_not.1 hne)

theorem appendFlush_rotated (o : BatchOptions) (ins : Nat → Bool) (ctr : Nat) (last : Bool)
    (d : Doc) (s : Batching) (hrot : o.rotating = true) (hins : ∀ n, ins n = true)
    (hd : d.resetCounter = ctr) (hctr : ctr < 4294967296)
    (hs : s.Rotated) (hc : ∀ c ∈ s.calls, c.Homogeneous)
    (hl : toInt32 ctr = s.LAST_RESET_COUNT) :
    (appendFlush o ins ctr last d s).2 = none ∧ (appendFlush o ins ctr last d s).1.Rotated ∧
      ∀ c ∈ (appendFlush o ins ctr last d s).1.calls, c.Homogeneous := by
  obtain ⟨h1, h2, v, hv, hb⟩ := hs
  have hb1 : builtWith (v ++ [d]) s.LAST_RESET_COUNT := by
    intro x hx
    rcases List.mem_append.1 hx with hx | hx
    · exact hb x hx
    · rw [List.mem_singleton] at hx
      subst hx
      rw [hd]
      exact ⟨hctr, hl⟩
  unfold appendFlush
  rw [hv]
  simp only [hrot, if_true, hins]
  split_ifs with hi
  · refine ⟨rfl, ⟨(toInt32_range ctr).1, (toInt32_range ctr).2, [], rfl, ?_⟩, ?_⟩
    · intro d hd
      cases hd
    · intro c hcm
      rcases List.mem_append.1 hcm with hcm | hcm
      · exact hc c hcm
      · rw [List.mem_singleton] at hcm
        subst hcm
        exact ⟨v ++ [d], rfl, hb1⟩
  · exact ⟨rfl, ⟨h1, h2, v ++ [d], rfl, hb1⟩, hc⟩

theorem batchStep_rotated (o : BatchOptions) (ins : Nat → Bool) (ctr : Nat) (last : Bool)
    (d : Doc) (s : Batching) (hrot : o.rotating = true) (hins : ∀ n, ins n = true)
    (hd : d.resetCounter = ctr) (hctr : ctr < 4294967296)
    (hs : s.Rotated) (hc : ∀ c ∈ s.calls, c.Homogeneous) :
    (batchStep o ins ctr last d s).2 = none ∧ (batchStep o ins ctr last d s).1.Rotated ∧
      ∀ c ∈ (batchStep o ins ctr last d s).1.calls, c.Homogeneous := by
  obtain ⟨s1, e1, r1, c1, l1⟩ := rotationFlush_rotated o ins ctr s hrot hins hs hc
  unfold batchStep
  rw [e1]
  exact appendFlush_rotated o ins ctr last d s1 hrot hins hd hctr r1 c1 l1

theorem mongoFor_rotated (o : BatchOptions) (ins : Nat → Bool) (iModule : Int)
    (headerTime : Nat) (p : Parsed) (hrot : o.rotating = true) (hins : ∀ n, ins n = true) :
    ∀ (k b : Nat) (tl : Timeline) (s : Batching), tl.Fits → s.Rotated →
      (∀ c ∈ s.calls, c.Homogeneous) →
      (mongoFor o ins iModule headerTime p k b tl s).1.Rotated ∧
        ∀ c ∈ (mongoFor o ins iModule headerTime p k b tl s).1.calls, c.Homogeneous := by
  intro k
  induction k with
  | zero =>
    intro b tl s _ hs hc
    rw [mongoFor]
    exact ⟨hs, hc⟩
  | succ k ih =>
    intro b tl s hf hs hc
    rcases mongoFor_succ_cases o ins iModule headerTime p k b tl s with ⟨e, he⟩ |
      ⟨ts, ch, c, buff, sz, hc8, _, _, _, _, _, he⟩
    · rw [he]
      exact ⟨hs, hc⟩
    · rw [he]
      have hf1 := Timeline.Fits_step headerTime tl ts c hc8 hf
      obtain ⟨n1, r1, c1⟩ := batchStep_rotated o ins
        ((timelineStep headerTime tl ts c).ChannelResetCounters.getD c 0)
        (decide (b = p.retbuff.length - 1))
        { record := { module := iModule, channel := (c : Int),
                      time := liftTime (timelineStep headerTime tl ts c) ts c,
                      endtime := liftTime (timelineStep headerTime tl ts c) ts c + (sz : Int),
                      data := buff }
          resetCounter := (timelineStep headerTime tl ts c).ChannelResetCounters.getD c 0 } s
        hrot hins rfl (hf1.2 c) hs hc
      split
      · rename_i s1 hs1
        rw [hs1] at r1 c1
        exact ih (b + 1) _ s1 hf1 r1 c1
      · rename_i s1 e hs1
        rw [hs1] at n1
        cases n1

theorem mongoFor_succ (o : BatchOptions) (ins : Nat → Bool) (iModule : Int) (headerTime : Nat)
    (p : Parsed) (k b : Nat) (tl : Timeline) (s : Batching) (ts ch : Nat) (buff : List Nat)
    (sz : Nat) (e1 : p.timeStamps[b]? = some ts) (e2 : p.channels[b]? = some ch)
    (e3 : p.retbuff[b]? = some buff) (e4 : p.retsize[b]? = some sz) (hc8 : ch < 8)
    (last : Bool) (hl : decide (b = p.retbuff.length - 1) = last) :
    mongoFor o ins iModule headerTime p (k + 1) b tl s =
      match batchStep o ins ((timelineStep headerTime tl ts ch).ChannelResetCounters.getD ch 0)
          last
          { record := { module := iModule, channel := (ch : Int),
                        time := liftTime (timelineStep headerTime tl ts ch) ts ch,
                        endtime := liftTime (timelineStep headerTime tl ts ch) ts ch + (sz : Int),
                        data := buff }
            resetCounter := (timelineStep headerTime tl ts ch).ChannelResetCounters.getD ch 0 }
          s with
      | (s1, none) => mongoFor o ins iModule headerTime p k (b + 1)
          (timelineStep headerTime tl ts ch) s1
      | (s1, some e) => (s1, e) := by
  subst hl
  rw [mongoFor]
  simp only [e1, e2, e3, e4, toInt32_small _ hc8]
  rw [if_neg (by omega)]
  simp only [Int.toNat_ofNat]

theorem docsRun_length (iModule : Int) (headerTime : Nat) :
    ∀ (l : List (Nat × Nat × List Nat × Nat)) (tl : Timeline),
      (docsRun iModule headerTime tl l).length = l.length := by
  intro l
  induction l with
  | nil => intro tl; rfl
  | cons x rest ih =>
    intro tl
    obtain ⟨ts, ch, buff, sz⟩ := x
    simp only [docsRun, List.length_cons, ih]

theorem docsRun_record (iModule : Int) (headerTime : Nat) :
    ∀ (l : List (Nat × Nat × List Nat × Nat)) (tl : Timeline),
      (docsRun iModule headerTime tl l).map Doc.record = recordsRun iModule headerTime tl l := by
  intro l
  induction l with
  | nil => intro tl; rfl
  | cons x rest ih =>
    intro tl
    obtain ⟨ts, ch, buff, sz⟩ := x
    simp only [docsRun, recordsRun, List.map_cons, ih]

theorem mongoFor_run (o : BatchOptions) (ins : Nat → Bool) (iModule : Int) (headerTime : Nat)
    (p : Parsed) (h1 : p.timeStamps.length = p.retbuff.length)
    (h2 : p.channels.length = p.retbuff.length) (h4 : p.retsize.length = p.retbuff.length)
    (hch : ∀ x ∈ p.channels, x < 8) :
    ∀ (k b : Nat) (tl : Timeline) (s : Batching), b + k = p.retbuff.length →
      mongoFor o ins iModule headerTime p k b tl s =
        batchRun o ins (docsRun iModule headerTime tl (p.quads.drop b)) s := by
  have hq := p.quads_length p.retbuff.length h1 h2 rfl h4
  intro k
  induction k with
  | zero =>
    intro b tl s hb
    rw [mongoFor, List.drop_of_length_le (by omega)]
    rfl
  | succ k ih =>
    intro b tl s hb
    have hd : p.quads.drop b = (p.timeStamps[b], p.channels[b], p.retbuff[b], p.retsize[b]) ::
        p.quads.drop (b + 1) := by
      rw [List.drop_eq_getElem_cons (by omega)]
      simp [Parsed.quads]
    have hc8 : p.channels[b] < 8 := hch _ (List.getElem_mem _)
    have e1 : p.timeStamps[b]? = some p.timeStamps[b] := List.getElem?_eq_getElem (by omega)
    have e2 : p.channels[b]? = some p.channels[b] := List.getElem?_eq_getElem (by omega)
    have e3 : p.retbuff[b]? = some p.retbuff[b] := List.getElem?_eq_getElem (by omega)
    have e4 : p.retsize[b]? = some p.retsize[b] := List.getElem?_eq_getElem (by omega)
    have hlast : decide (b = p.retbuff.length - 1) =
        decide (docsRun iModule headerTime
          (timelineStep headerTime tl p.timeStamps[b] p.channels[b]) (p.quads.drop (b + 1)) = []) := by
      apply decide_eq_decide.2
      rw [← List.length_eq_zero, docsRun_length, List.length_drop, hq]
      omega
    rw [hd, mongoFor_succ o ins iModule headerTime p k b tl s _ _ _ _ e1 e2 e3 e4 hc8 _ hlast]
    simp only [docsRun, batchRun]
    generalize batchStep o ins _ _ _ s = r
    obtain ⟨s1, _ | e⟩ := r
    · exact ih (b + 1) _ s1 (by omega)
    · rfl

theorem threshold_iff (N len : Nat) (hN : N < 2147483648) (hlen : len ≤ N + 1) :
    (toInt32 len > (N : Int) ∨ toInt32 len < 0) ↔ N < len := by
  unfold toInt32
  split_ifs <;> omega

theorem appendFlush_threshold (o : BatchOptions) (ins : Nat → Bool) (N : Nat)
    (hrot : o.rotating = false) (hN : o.min_insert_size = (N : Int)) (hN31 : N < 2147483648)
    (hins : ∀ n, ins n = true) (ctr : Nat) (last : Bool) (d : Doc) (v : List Doc) (L : Int)
    (cs : List InsertCall) (hv : v.length ≤ N) :
    appendFlush o ins ctr last d { vMongoInsertVec := some v, LAST_RESET_COUNT := L, calls := cs } =
      if N < (v ++ [d]).length ∨ last = true then
        ({ vMongoInsertVec := some [], LAST_RESET_COUNT := toInt32 ctr,
           calls := cs ++ [{ batch := some (v ++ [d]), tag := -1 }] }, none)
      else ({ vMongoInsertVec := some (v ++ [d]), LAST_RESET_COUNT := L, calls := cs }, none) := by
  have hlen : (v ++ [d]).length ≤ N + 1 := by
    rw [List.length_append, List.length_singleton]
    omega
  have hiff := threshold_iff N (v ++ [d]).length hN31 hlen
  unfold appendFlush
  simp only [hrot, hins, hN, Bool.false_eq_true, if_false, if_true, Bool.or_eq_true,
    decide_eq_true_eq, hiff]

theorem batchRun_threshold (o : BatchOptions) (ins : Nat → Bool) (N : Nat)
    (hrot : o.rotating = false) (hN : o.min_insert_size = (N : Int)) (hN31 : N < 2147483648)
    (hins : ∀ n, ins n = true) :
    ∀ (ds v : List Doc) (L : Int) (cs : List InsertCall), v.length ≤ N →
      (batchRun o ins ds { vMongoInsertVec := some v, LAST_RESET_COUNT := L, calls := cs }).2 =
          LoopEnd.completed ∧
      (batchRun o ins ds { vMongoInsertVec := some v, LAST_RESET_COUNT := L, calls := cs }).1.calls =
          cs ++ (chunkRun N v ds).map (fun b => { batch := some b, tag := -1 }) ∧
      (ds ≠ [] →
        (batchRun o ins ds
          { vMongoInsertVec := some v, LAST_RESET_COUNT := L, calls := cs }).1.vMongoInsertVec =
            some []) := by
  intro ds
  induction ds with
  | nil =>
    intro v L cs _
    simp [batchRun, chunkRun]
  | cons d rest ih =>
    intro v L cs hv
    rw [batchRun, batchStep, rotationFlush_off o ins _ _ hrot]
    simp only
    rw [appendFlush_threshold o ins N hrot hN hN31 hins _ _ d v L cs hv, chunkRun]
    simp only [decide_eq_true_eq]
    by_cases hc : N < (v ++ [d]).length ∨ rest = []
    · rw [if_pos hc, if_pos hc]
      simp only
      obtain ⟨i1, i2, i3⟩ := ih [] (toInt32 d.resetCounter)
        (cs ++ [{ batch := some (v ++ [d]), tag := -1 }]) (Nat.zero_le _)
      refine ⟨i1, ?_, ?_⟩
      · rw [i2]
        simp
      · intro _
        by_cases hr : rest = []
        · subst hr
          rfl
        · exact i3 hr
    · rw [if_neg hc, if_neg hc]
      simp only
      have hlen : (v ++ [d]).length ≤ N := by
        have := fun h => hc (Or.inl h)
        omega
      obtain ⟨i1, i2, i3⟩ := ih (v ++ [d]) L cs hlen
      exact ⟨i1, i2, fun _ => i3 (fun h => hc (Or.inr h))⟩

theorem batchesOf_full (N : Nat) (a r : List Doc) (ha : a.length = N + 1) :
    batchesOf N (a ++ r) = a :: batchesOf N r := by
  unfold batchesOf
  have hcount : ((a ++ r).length + N) / (N + 1) = (r.length + N) / (N + 1) + 1 := by
    rw [List.length_append, ha]
    have : N + 1 + r.length + N = (r.length + N) + (N + 1) := by omega
    rw [this, Nat.add_div_right _ (Nat.succ_pos N)]
  rw [hcount, List.range_succ_eq_map, List.map_cons, List.map_map]
  congr 1
  · rw [Nat.zero_mul, List.drop_zero, ← ha, List.take_left]
  · apply List.map_congr_left
    intro k _
    simp only [Function.comp]
    have : (k + 1) * (N + 1) = a.length + k * (N + 1) := by rw [ha]; ring
    rw [this, List.drop_append]

theorem batchesOf_short (N : Nat) (a : List Doc) (ha : a ≠ []) (hl : a.length ≤ N + 1) :
    batchesOf N a = [a] := by
  unfold batchesOf
  have hpos : 0 < a.length := List.length_pos.2 ha
  have hcount : (a.length + N) / (N + 1) = 1 := by
    apply Nat.div_eq_of_lt_le <;> omega
  rw [hcount, show List.range 1 = [0] from rfl, List.map_cons, List.map_nil, Nat.zero_mul,
    List.drop_zero, List.take_of_length_le hl]

theorem chunkRun_eq_batchesOf (N : Nat) :
    ∀ (ds v : List Doc), ds ≠ [] → v.length ≤ N → chunkRun N v ds = batchesOf N (v ++ ds) := by
  intro ds
  induction ds with
  | nil => intro v h; exact absurd rfl h
  | cons d rest ih =>
    intro v _ hv
    rw [chunkRun]
    by_cases hr : rest = []
    · subst hr
      rw [if_pos (Or.inr rfl), chunkRun]
      rw [batchesOf_short N (v ++ [d]) (by simp)]
      rw [List.length_append, List.length_singleton]
      omega
    · by_cases hN : N < (v ++ [d]).length
      · rw [if_pos (Or.inl hN), ih [] hr (Nat.zero_le _), List.nil_append]
        have hl : (v ++ [d]).length = N + 1 := by
          rw [List.length_append, List.length_singleton] at hN ⊢
          omega
        rw [← batchesOf_full N (v ++ [d]) rest hl, List.append_assoc, List.singleton_append]
      · rw [if_neg (fun h => h.elim hN hr), ih (v ++ [d]) hr (by omega), List.append_assoc,
          List.singleton_append]

theorem batchesOf_nil (N : Nat) : batchesOf N [] = [] := by
  unfold batchesOf
  rw [List.length_nil, Nat.zero_add, Nat.div_eq_of_lt (Nat.lt_succ_self N)]
  rfl

theorem batchesOf_lengths (N : Nat) :
    ∀ (n : Nat) (docs : List Doc), docs.length = n →
      (batchesOf N docs).map List.length =
        List.replicate (n / (N + 1)) (N + 1) ++
          (if n % (N + 1) = 0 then [] else [n % (N + 1)]) := by
  intro n
  induction n using Nat.strong_induction_on with
  | _ n ih =>
    intro docs hn
    by_cases hbig : N + 1 ≤ n
    · have hsplit : docs = docs.take (N + 1) ++ docs.drop (N + 1) := (List.take_append_drop _ _).symm
      have ha : (docs.take (N + 1)).length = N + 1 := by
        rw [List.length_take, hn]
        omega
      have hr : (docs.drop (N + 1)).length = n - (N + 1) := by rw [List.length_drop, hn]
      rw [hsplit, batchesOf_full N _ _ ha, List.map_cons, ha,
        ih (n - (N + 1)) (by omega) _ hr]
      have e1 : n / (N + 1) = (n - (N + 1)) / (N + 1) + 1 := by
        have : n = (n - (N + 1)) + (N + 1) := by omega
        conv_lhs => rw [this]
        exact Nat.add_div_right _ (Nat.succ_pos N)
      have e2 : n % (N + 1) = (n - (N + 1)) % (N + 1) := by
        have : n = (n - (N + 1)) + (N + 1) := by omega
        conv_lhs => rw [this]
        exact Nat.add_mod_right _ _
      rw [e1, e2, List.replicate_succ, List.cons_append]
    · have hdiv : n / (N + 1) = 0 := Nat.div_eq_of_lt (by omega)
      have hmod : n % (N + 1) = n := Nat.mod_eq_of_lt (by omega)
      rw [hdiv, hmod, List.replicate_zero, List.nil_append]
      by_cases hz : n = 0
      · have : docs = [] := List.length_eq_zero.1 (by omega)
        subst this
        rw [if_pos hz]
        unfold batchesOf
        have : ([] : List Doc).length = 0 := rfl
        rw [this, Nat.zero_add, Nat.div_eq_of_lt (Nat.lt_succ_self N)]
        rfl
      · rw [if_neg hz, batchesOf_short N docs (by intro h; subst h; exact hz hn.symm) (by omega)]
        simp [hn]

/-! ## Lemmas: the three phases of the loop of `GetBufferIntegral` -/

theorem rd_lt (buf : List Nat) (i : Nat) (h : i < buf.length) : rd buf i = Except.ok buf[i] := by
  unfold rd
  rw [List.getElem?_eq_getElem h]

theorem integralLoop_baseline (buf : List Nat) (bins k : Nat) :
    ∀ (j i : Nat) (b I : ℚ), i + j ≤ bins / 2 → i + j ≤ buf.length →
      integralLoop buf bins (j + k) i b I =
        integralLoop buf bins k (i + j) (b + (((buf.drop i).take j).map wordSum).sum) I := by
  intro j
  induction j with
  | zero =>
    intro i b I _ _
    simp
  | succ j ih =>
    intro i b I h1 h2
    have hi : i < buf.length := by omega
    have hstep : j + 1 + k = (j + k) + 1 := by omega
    rw [hstep, integralLoop, rd_lt buf i hi]
    simp only
    rw [if_pos (by omega), ih (i + 1) _ I (by omega) (by omega)]
    have hd : buf.drop i = buf[i] :: buf.drop (i + 1) := List.drop_eq_getElem_cons hi
    rw [hd, List.take_succ_cons, List.map_cons, List.sum_cons]
    have e : i + 1 + j = i + (j + 1) := by omega
    rw [e]
    congr 1
    unfold wordSum
    ring

theorem integralLoop_divide (buf : List Nat) (bins k : Nat) (b I : ℚ)
    (h : bins / 2 < buf.length) :
    integralLoop buf bins (k + 1) (bins / 2) b I =
      integralLoop buf bins k (bins / 2 + 1) (b / (bins : ℚ)) I := by
  rw [integralLoop, rd_lt buf _ h]
  simp only
  rw [if_neg (by omega), if_pos trivial]

theorem integralLoop_integral (buf : List Nat) (bins : Nat) (b : ℚ) :
    ∀ (k i : Nat) (I : ℚ), bins / 2 < i → i + k ≤ buf.length →
      integralLoop buf bins k i b I =
        Except.ok (I + (((buf.drop i).take k).map (wordTerm b)).sum) := by
  intro k
  induction k with
  | zero =>
    intro i I _ _
    simp [integralLoop]
  | succ k ih =>
    intro i I h1 h2
    have hi : i < buf.length := by omega
    rw [integralLoop, rd_lt buf i hi]
    simp only
    rw [if_neg (by omega), if_neg (by omega), ih (i + 1) _ (by omega) (by omega)]
    have hd : buf.drop i = buf[i] :: buf.drop (i + 1) := List.drop_eq_getElem_cons hi
    rw [hd, List.take_succ_cons, List.map_cons, List.sum_cons]
    congr 1
    unfold wordTerm
    ring

theorem integralLoop_words (buf : List Nat) (bins n : Nat) (hn : n ≤ buf.length) :
    integralLoop buf bins n 0 0 0 =
      Except.ok ((((buf.take n).drop (bins / 2 + 1)).map
        (wordTerm ((((buf.take n).take (bins / 2)).map wordSum).sum / (bins : ℚ)))).sum) := by
  by_cases hcase : n ≤ bins / 2
  · have h1 := integralLoop_baseline buf bins 0 n 0 0 0 (by omega) (by omega)
    rw [Nat.add_zero] at h1
    rw [h1, integralLoop, List.drop_of_length_le (by rw [List.length_take]; omega)]
    rfl
  · obtain ⟨m, hm⟩ : ∃ m, n = bins / 2 + (m + 1) := ⟨n - bins / 2 - 1, by omega⟩
    have h1 := integralLoop_baseline buf bins (m + 1) (bins / 2) 0 0 0 (by omega) (by omega)
    rw [hm, h1, Nat.zero_add, integralLoop_divide buf bins m _ _ (by omega),
      integralLoop_integral buf bins _ m _ 0 (by omega) (by omega)]
    rw [List.drop_zero, zero_add, zero_add, List.take_take, List.drop_take]
    have e1 : min (bins / 2) (bins / 2 + (m + 1)) = bins / 2 := by omega
    have e2 : bins / 2 + (m + 1) - (bins / 2 + 1) = m := by omega
    rw [e1, e2]

/-! ## Lemmas: the bucketed sharding plan -/

theorem rdInt_lt (v : List Int) (i : Nat) (h : i < v.length) : rdInt v i = Except.ok v[i] := by
  unfold rdInt
  rw [List.getElem?_eq_getElem h]

theorem getD_of_lt (v : List Int) (i : Nat) (h : i < v.length) : v.getD i 0 = v[i] := by
  rw [List.getD_eq_getElem?_getD, List.getElem?_eq_getElem h]
  rfl

theorem splitLoop_run (s : List Int) (m : Nat) (hm : 0 < m) (hlen : s.length < 2147483648)
    (hms : m ≤ s.length) :
    ∀ (fuel x : Nat) (acc : List Int), (s.length + m - 1 - x) / m < fuel →
      splitLoop s m fuel x acc =
        Except.ok (acc ++ (List.range ((s.length + m - 1 - x) / m)).map
          (fun j => s.getD (x + j * m) 0)) := by
  intro fuel
  induction fuel with
  | zero => intro x acc h; exact absurd h (Nat.not_lt_zero _)
  | succ fuel ih =>
    intro x acc hf
    rw [splitLoop]
    by_cases hx : x < s.length
    · rw [if_pos hx, rdInt_lt s x hx]
      simp only
      have hu : u32 (x + m) = x + m := u32_of_lt _ (by omega)
      have hcnt : (s.length + m - 1 - x) / m = (s.length + m - 1 - (x + m)) / m + 1 := by
        have : s.length + m - 1 - x = (s.length + m - 1 - (x + m)) + m := by omega
        rw [this, Nat.add_div_right _ hm]
      rw [hu, ih (x + m) _ (by omega), hcnt, List.range_succ_eq_map, List.map_cons,
        List.map_map, List.append_assoc, List.singleton_append]
      congr 2
      rw [Nat.zero_mul, Nat.add_zero, getD_of_lt s x hx]
      congr 1
      apply List.map_congr_left
      intro j _
      simp only [Function.comp]
      congr 1
      rw [Nat.succ_mul]
      omega
    · rw [if_neg hx]
      have : (s.length + m - 1 - x) / m = 0 := Nat.div_eq_of_lt (by omega)
      rw [this]
      simp

theorem migrateLoop_run (s splitList : List Int) (hs : 0 < s.length) :
    ∀ (k i : Nat), i + k = splitList.length + 1 →
      migrateLoop s splitList k i =
        Except.ok ((List.range k).map (fun t =>
          AdminCommand.moveChunk (if i + t = 0 then s.getD 0 0 else splitList.getD (i + t - 1) 0)
            ((i + t) % 3))) := by
  intro k
  induction k with
  | zero => intro i _; rfl
  | succ k ih =>
    intro i hik
    rw [migrateLoop, rdInt_lt s 0 hs]
    simp only
    have hval : (if i = 0 then Except.ok s[0] else rdInt splitList (i - 1)) =
        (Except.ok (if i = 0 then s.getD 0 0 else splitList.getD (i - 1) 0) :
          Except Fault Int) := by
      by_cases hi : i = 0
      · rw [if_pos hi, if_pos hi, getD_of_lt s 0 hs]
      · rw [if_neg hi, if_neg hi, rdInt_lt splitList (i - 1) (by omega),
          getD_of_lt splitList _ (by omega)]
    rw [hval, ih (i + 1) (by omega)]
    simp only
    rw [List.range_succ_eq_map, List.map_cons, List.map_map, Nat.add_zero]
    congr 2
    apply List.map_congr_left
    intro t _
    simp only [Function.comp]
    have e : i + 1 + t = i + (t + 1) := by omega
    rw [e]

theorem ceil_third_bounds (n : Nat) (hn : 0 < n) :
    0 < (n + 3 - 1) / 3 ∧ (n + 3 - 1) / 3 ≤ n ∧ (n - 1) / ((n + 3 - 1) / 3) ≤ 2 := by
  have h1 : 0 < (n + 3 - 1) / 3 := by omega
  refine ⟨h1, by omega, ?_⟩
  apply Nat.le_of_lt_succ
  rw [Nat.div_lt_iff_lt_mul h1]
  omega

/-! ## Lemmas: the composite document of `PullRunMode` -/

theorem lookup_filter_unique (b x : BsonObj) (f : String) (hb : b.lookup f = none) :
    (x.filter (fun e => !(b.any (fun y => y.1 == e.1)))).lookup f = x.lookup f := by
  have hbf : b.any (fun y => y.1 == f) = false := by
    rw [List.lookup_eq_none_iff] at hb
    rw [List.any_eq_false]
    intro y hy
    have := hb y hy
    simp only [bne_iff_ne, ne_eq] at this
    simp only [beq_iff_eq]
    exact fun h => this h.symm
  induction x with
  | nil => rfl
  | cons e rest ih =>
    obtain ⟨k, v⟩ := e
    by_cases hk : f = k
    · subst hk
      rw [List.filter_cons, hbf]
      simp only [Bool.not_false, if_true, List.lookup_cons_self]
    · have hne : (f == k) = false := by simp [hk]
      rw [List.filter_cons]
      split_ifs
      · rw [List.lookup_cons, List.lookup_cons, hne]
        exact ih
      · rw [List.lookup_cons, hne]
        exact ih

theorem lookup_appendElementsUnique (b x : BsonObj) (f : String) :
    (appendElementsUnique b x).lookup f = (b.lookup f).or (x.lookup f) := by
  unfold appendElementsUnique
  rw [List.lookup_append]
  cases hb : b.lookup f with
  | some v => rfl
  | none =>
    rw [lookup_filter_unique b x f hb]

theorem firstDefined_cons (f : String) (d : BsonObj) (rest : List BsonObj) :
    firstDefined f (d :: rest) = (d.lookup f).or (firstDefined f rest) := by
  rw [firstDefined]
  cases d.lookup f <;> rfl

theorem parentIsString_spec (d : BsonObj) (h : parentIsString d = true) :
    ∀ n, d.lookup "parent" ≠ some (BsonValue.num n) := by
  intro n hn
  unfold parentIsString at h
  rw [hn] at h
  cases h

theorem composite_ok (res q : BsonObj) (hq : ∀ n, q.lookup "parent" ≠ some (BsonValue.num n)) :
    ∃ c, composite res q = Except.ok c ∧
      c.lookup "parent" = some ((q.lookup "parent").getD (BsonValue.str "none")) ∧
      ∀ f, f ≠ "parent" → c.lookup f = (res.lookup f).or (q.lookup f) := by
  unfold composite
  cases hp : q.lookup "parent" with
  | none =>
    refine ⟨_, rfl, ?_, ?_⟩
    · rw [lookup_appendElementsUnique, lookup_appendElementsUnique]
      rfl
    · intro f hf
      have hne : (f == "parent") = false := by simp [hf]
      rw [lookup_appendElementsUnique, lookup_appendElementsUnique, List.lookup_cons, hne]
      rfl
  | some v =>
    cases v with
    | num n => exact absurd hp (hq n)
    | str p =>
      refine ⟨_, rfl, ?_, ?_⟩
      · rw [lookup_appendElementsUnique, lookup_appendElementsUnique]
        rfl
      · intro f hf
        have hne : (f == "parent") = false := by simp [hf]
        rw [lookup_appendElementsUnique, lookup_appendElementsUnique, List.lookup_cons, hne]
        rfl

theorem pullLoop_chain (coll : List BsonObj) :
    ∀ (fuel : Nat) (res d : BsonObj),
      (res.lookup "parent" = d.lookup "parent" ∨
        (d.lookup "parent" = none ∧ res.lookup "parent" = some (BsonValue.str "none"))) →
      (ancestors coll fuel d).length < fuel →
      (∀ x ∈ d :: ancestors coll fuel d, ∀ n, x.lookup "parent" ≠ some (BsonValue.num n)) →
      ∃ out, pullLoop coll fuel res = Except.ok out ∧
        (∀ f, f ≠ "parent" →
          out.lookup f = (res.lookup f).or (firstDefined f (ancestors coll fuel d))) ∧
        (ancestors coll fuel d = [] → out = res) ∧
        (∀ a, (ancestors coll fuel d).getLast? = some a →
          out.lookup "parent" = some ((a.lookup "parent").getD (BsonValue.str "none"))) := by
  intro fuel
  induction fuel with
  | zero => intro res d _ h _; exact absurd h (Nat.not_lt_zero _)
  | succ fuel ih =>
    intro res d hcompat hlen hstr
    have stop : pullLoop coll (fuel + 1) res = Except.ok res → ancestors coll (fuel + 1) d = [] →
        ∃ out, pullLoop coll (fuel + 1) res = Except.ok out ∧
          (∀ f, f ≠ "parent" →
            out.lookup f = (res.lookup f).or (firstDefined f (ancestors coll (fuel + 1) d))) ∧
          (ancestors coll (fuel + 1) d = [] → out = res) ∧
          (∀ a, (ancestors coll (fuel + 1) d).getLast? = some a →
            out.lookup "parent" = some ((a.lookup "parent").getD (BsonValue.str "none"))) := by
      intro h1 h2
      refine ⟨res, h1, ?_, fun _ => rfl, ?_⟩
      · intro f _
        rw [h2]
        cases res.lookup f <;> rfl
      · intro a ha
        rw [h2] at ha
        cases ha
    cases hd : d.lookup "parent" with
    | none =>
      have hanc : ancestors coll (fuel + 1) d = [] := by rw [ancestors, hd]
      apply stop _ hanc
      rcases hcompat with h | ⟨_, h⟩
      · rw [pullLoop, h, hd]
      · rw [pullLoop, h]
        rfl
    | some v =>
      cases v with
      | num n => exact absurd hd (hstr d (List.mem_cons_self _ _) n)
      | str p =>
        have hres : res.lookup "parent" = some (BsonValue.str p) := by
          rcases hcompat with h | ⟨h, _⟩
          · rw [h, hd]
          · rw [hd] at h
            cases h
        by_cases hp : p = "none"
        · have hanc : ancestors coll (fuel + 1) d = [] := by
            rw [ancestors, hd]
            simp only [hp, if_true]
          apply stop _ hanc
          rw [pullLoop, hres]
          simp only [hp, if_true]
        · by_cases hq : (findOne coll p).length = 0
          · have hanc : ancestors coll (fuel + 1) d = [] := by
              rw [ancestors, hd]
              simp only [hp, hq, if_true, if_false]
            apply stop _ hanc
            rw [pullLoop, hres]
            simp only [hp, hq, if_true, if_false]
          · have hanc : ancestors coll (fuel + 1) d =
                findOne coll p :: ancestors coll fuel (findOne coll p) := by
              rw [ancestors, hd]
              simp only [hp, hq, if_false]
            rw [hanc] at hlen hstr ⊢
            have hqs : ∀ n, (findOne coll p).lookup "parent" ≠ some (BsonValue.num n) :=
              hstr _ (List.mem_cons_of_mem _ (List.mem_cons_self _ _))
            obtain ⟨c, hc, hcp, hcf⟩ := composite_ok res (findOne coll p) hqs
            have hcompat2 : c.lookup "parent" = (findOne coll p).lookup "parent" ∨
                ((findOne coll p).lookup "parent" = none ∧
                  c.lookup "parent" = some (BsonValue.str "none")) := by
              cases hqp : (findOne coll p).lookup "parent" with
              | none =>
                right
                rw [hcp, hqp]
                exact ⟨rfl, rfl⟩
              | some w =>
                left
                rw [hcp, hqp]
                rfl
            obtain ⟨out, ho, hof, hoe, hol⟩ := ih c (findOne coll p) hcompat2
              (by rw [List.length_cons] at hlen; omega)
              (fun x hx => hstr x (List.mem_cons_of_mem _ hx))
            have hrun : pullLoop coll (fuel + 1) res = Except.ok out := by
              rw [pullLoop, hres]
              simp only [hp, hq, if_false, hc]
              exact ho
            refine ⟨out, hrun, ?_, ?_, ?_⟩
            · intro f hf
              rw [hof f hf, hcf f hf, firstDefined_cons]
              cases res.lookup f <;> rfl
            · intro h
              cases h
            · intro a ha
              cases hA : ancestors coll fuel (findOne coll p) with
              | nil =>
                rw [hA] at ha
                have : a = findOne coll p := by
                  simp only [List.getLast?_singleton, Option.some.injEq] at ha
                  exact ha.symm
                rw [this, hoe hA, hcp]
              | cons a2 rest =>
                rw [hA, List.getLast?_cons_cons] at ha
                rw [hA] at hol
                exact hol a ha

theorem composite_num (res q : BsonObj) (n : Int)
    (hq : q.lookup "parent" = some (BsonValue.num n)) :
    composite res q = Except.error PullFault.notString := by
  unfold composite
  rw [hq]

theorem pullLoop_within_fuel (coll : List BsonObj) :
    ∀ (fuel : Nat) (res d : BsonObj),
      (res.lookup "parent" = d.lookup "parent" ∨
        (d.lookup "parent" = none ∧ res.lookup "parent" = some (BsonValue.str "none"))) →
      (ancestors coll fuel d).length < fuel →
      pullLoop coll fuel res ≠ Except.error PullFault.fuel := by
  intro fuel
  induction fuel with
  | zero => intro res d _ h; exact absurd h (Nat.not_lt_zero _)
  | succ fuel ih =>
    intro res d hcompat hlen
    cases hd : d.lookup "parent" with
    | none =>
      rcases hcompat with h | ⟨_, h⟩
      · rw [pullLoop, h, hd]
        intro hc
        cases hc
      · rw [pullLoop, h]
        intro hc
        cases hc
    | some v =>
      have hres : res.lookup "parent" = some v := by
        rcases hcompat with h | ⟨h, _⟩
        · rw [h, hd]
        · rw [hd] at h
          cases h
      cases v with
      | num n =>
        rw [pullLoop, hres]
        intro hc
        cases hc
      | str p =>
        rw [pullLoop, hres]
        simp only
        by_cases hp : p = "none"
        · rw [if_pos hp]
          intro hc
          cases hc
        · rw [if_neg hp]
          by_cases hq : (findOne coll p).length = 0
          · rw [if_pos hq]
            intro hc
            cases hc
          · rw [if_neg hq]
            have hanc : ancestors coll (fuel + 1) d =
                findOne coll p :: ancestors coll fuel (findOne coll p) := by
              rw [ancestors, hd]
              simp only [hp, hq, if_false]
            rw [hanc, List.length_cons] at hlen
            cases hqp : (findOne coll p).lookup "parent" with
            | none =>
              obtain ⟨c, hc, hcp, _⟩ := composite_ok res (findOne coll p)
                (fun n h => by rw [hqp] at h; cases h)
              rw [hc]
              simp only
              refine ih c (findOne coll p) (Or.inr ⟨hqp, ?_⟩) (by omega)
              rw [hcp, hqp]
              rfl
            | some w =>
              cases w with
              | num n =>
                rw [composite_num res _ n hqp]
                intro hc
                cases hc
              | str p2 =>
                obtain ⟨c, hc, hcp, _⟩ := composite_ok res (findOne coll p)
                  (fun n h => by rw [hqp] at h; cases h)
                rw [hc]
                simp only
                refine ih c (findOne coll p) (Or.inl ?_) (by omega)
                rw [hcp, hqp]
                rfl

theorem ancestors_stable (coll : List BsonObj) :
    ∀ (n : Nat) (d : BsonObj), (ancestors coll n d).length < n →
      ∀ k, ancestors coll (n + k) d = ancestors coll n d := by
  intro n
  induction n with
  | zero => intro d h; exact absurd h (Nat.not_lt_zero _)
  | succ n ih =>
    intro d h k
    have e : n + 1 + k = (n + k) + 1 := by omega
    rw [e, ancestors, ancestors]
    rw [ancestors] at h
    cases hd : d.lookup "parent" with
    | none => rfl
    | some v =>
      cases v with
      | num m => rfl
      | str p =>
        rw [hd] at h
        simp only at h ⊢
        by_cases hp : p = "none"
        · simp only [hp, if_true]
        · by_cases hq : (findOne coll p).length = 0
          · simp only [hp, hq, if_true, if_false]
          · simp only [hp, hq, if_false] at h ⊢
            rw [ih (findOne coll p) (by rw [List.length_cons] at h; omega) k]

/-! ## Lemmas: the members after `UpdateEndTime` -/

theorem UpdateEndTime_members (db : RunsCommand → Reply) (nowTime : Nat) (detector : String)
    (s : Master) :
    (UpdateEndTime db nowTime detector s).1 =
      if (s.m_collectionThreads.lookup detector).isSome then
        { s with m_collectionThreads := clearRun detector s.m_collectionThreads }
      else s := by
  unfold UpdateEndTime
  simp only
  split_ifs <;> rfl

theorem lookup_clearRun (key : String) (t : CollectionThread) :
    ∀ (l : List (String × CollectionThread)), l.lookup key = some t →
      (clearRun key l).lookup key = some { t with run := false } := by
  intro l
  induction l with
  | nil => intro h; cases h
  | cons e rest ih =>
    intro h
    obtain ⟨k, u⟩ := e
    rw [clearRun]
    by_cases hk : k = key
    · subst hk
      rw [if_pos rfl, List.lookup_cons_self]
      rw [List.lookup_cons_self] at h
      cases h
      rfl
    · have hne : (key == k) = false := by
        simp only [beq_eq_false_iff_ne, ne_eq]
        exact fun e => hk e.symm
      rw [if_neg hk, List.lookup_cons, hne]
      rw [List.lookup_cons, hne] at h
      exact ih h

/-! ## Lemmas: the counters of one channel -/

theorem countersOf_docsRun (iModule : Int) (headerTime c : Nat) (hc : c < 8) :
    ∀ (qs : List (Nat × Nat × List Nat × Nat)) (tl : Timeline), tl.WF →
      (∀ q ∈ qs, q.2.1 < 8) →
      countersOf (docsRun iModule headerTime tl qs) c =
        chanCounters headerTime (tl.chan c)
          ((qs.filter (fun q => q.2.1 = c)).map (fun q => q.1)) := by
  intro qs
  induction qs with
  | nil => intro tl _ _; simp [docsRun, countersOf, chanCounters]
  | cons q qs ih =>
    intro tl hw hq
    obtain ⟨ts, ch, buff, sz⟩ := q
    have hch : ch < 8 := hq (ts, ch, buff, sz) (List.mem_cons_self _ _)
    have hq2 : ∀ q ∈ qs, q.2.1 < 8 := fun q hm => hq q (List.mem_cons_of_mem _ hm)
    have ih2 := ih (timelineStep headerTime tl ts ch) (Timeline.WF_step _ _ _ _ hw) hq2
    unfold countersOf at ih2 ⊢
    by_cases e : ch = c
    · subst e
      have hctr : (timelineStep headerTime tl ts ch).ChannelResetCounters.getD ch 0 =
          (chanStep headerTime (tl.chan ch) ts).ctr :=
        congrArg ChanState.ctr (chan_step_same headerTime tl ts ch hw hch)
      simp only [docsRun, List.filter_cons, decide_True, if_true, List.map_cons, ih2,
        chanCounters, hctr, chan_step_same _ _ _ _ hw hch]
    · have e2 : ¬ ((ch : Int) = (c : Int)) := by omega
      simp only [docsRun, List.filter_cons, e, e2, decide_False, Bool.false_eq_true, if_false]
      rw [ih2, chan_step_other _ _ _ _ _ e]

/-! ## Lemmas: every document is handed over once -/

theorem handedOver_append (a b : List InsertCall) :
    handedOver (a ++ b) = handedOver a ++ handedOver b := by
  unfold handedOver
  rw [List.map_append, List.flatten_append]

theorem handedOver_singleton (v : List Doc) (tag : Int) :
    handedOver [{ batch := some v, tag := tag }] = v := by
  unfold handedOver
  simp

theorem batchStep_exactly_once (o : BatchOptions) (ins : Nat → Bool) (ctr : Nat) (last : Bool)
    (d : Doc) (s : Batching) (v : List Doc) (hins : ∀ n, ins n = true)
    (hv : s.vMongoInsertVec = some v) (hc : ∀ c ∈ s.calls, c.batch.isSome = true) :
    ∃ s1 v1, batchStep o ins ctr last d s = (s1, none) ∧ s1.vMongoInsertVec = some v1 ∧
      handedOver s1.calls ++ v1 = handedOver s.calls ++ v ++ [d] ∧
      (last = true → v1 = []) ∧ ∀ c ∈ s1.calls, c.batch.isSome = true := by
  have hflush : ∃ s0 v0, rotationFlush o ins ctr s = (s0, false) ∧ s0.vMongoInsertVec = some v0 ∧
      handedOver s0.calls ++ v0 = handedOver s.calls ++ v ∧
      ∀ c ∈ s0.calls, c.batch.isSome = true := by
    unfold rotationFlush
    split_ifs with h1 h2
    · refine ⟨_, [], rfl, rfl, ?_, ?_⟩
      · simp only [handedOver_append, hv, handedOver_singleton, List.append_nil]
      · intro c hcm
        rcases List.mem_append.1 hcm with hcm | hcm
        · exact hc c hcm
        · rw [List.mem_singleton] at hcm
          subst hcm
          rw [hv]
          rfl
    · exact absurd (hins _) h2
    · exact ⟨s, v, rfl, hv, rfl, hc⟩
  obtain ⟨s0, v0, e0, hv0, h0, hc0⟩ := hflush
  unfold batchStep
  rw [e0]
  simp only
  unfold appendFlush
  rw [hv0]
  simp only [hins, if_true]
  by_cases h1 : (decide (toInt32 (v0 ++ [d]).length > o.min_insert_size ∨
      toInt32 (v0 ++ [d]).length < 0) || last) = true
  · rw [if_pos h1]
    refine ⟨_, [], rfl, rfl, ?_, fun _ => rfl, ?_⟩
    · simp only [handedOver_append, handedOver_singleton, List.append_nil]
      rw [← List.append_assoc, h0]
    · intro c hcm
      rcases List.mem_append.1 hcm with hcm | hcm
      · exact hc0 c hcm
      · rw [List.mem_singleton] at hcm
        subst hcm
        rfl
  · rw [if_neg h1]
    refine ⟨_, v0 ++ [d], rfl, rfl, ?_, ?_, hc0⟩
    · simp only
      rw [← List.append_assoc, h0]
    · intro hl
      simp only [hl, Bool.or_true, not_true_eq_false] at h1

theorem batchRun_exactly_once (o : BatchOptions) (ins : Nat → Bool) (hins : ∀ n, ins n = true) :
    ∀ (ds : List Doc) (s : Batching) (v : List Doc), s.vMongoInsertVec = some v →
      (∀ c ∈ s.calls, c.batch.isSome = true) →
      (batchRun o ins ds s).2 = LoopEnd.completed ∧
      (∃ v1, (batchRun o ins ds s).1.vMongoInsertVec = some v1 ∧
        handedOver (batchRun o ins ds s).1.calls ++ v1 = handedOver s.calls ++ v ++ ds ∧
        (ds ≠ [] → v1 = [])) ∧
      ∀ c ∈ (batchRun o ins ds s).1.calls, c.batch.isSome = true := by
  intro ds
  induction ds with
  | nil =>
    intro s v hv hc
    rw [batchRun]
    exact ⟨rfl, ⟨v, hv, by simp, fun h => absurd rfl h⟩, hc⟩
  | cons d rest ih =>
    intro s v hv hc
    obtain ⟨s1, v1, e1, hv1, h1, hl1, hc1⟩ :=
      batchStep_exactly_once o ins d.resetCounter (decide (rest = [])) d s v hins hv hc
    rw [batchRun, e1]
    simp only
    obtain ⟨i1, ⟨v2, hv2, h2, hl2⟩, i3⟩ := ih s1 v1 hv1 hc1
    refine ⟨i1, ⟨v2, hv2, ?_, ?_⟩, i3⟩
    · rw [h2, h1]
      simp
    · intro _
      by_cases hr : rest = []
      · subst hr
        rw [batchRun] at hv2
        rw [hv1] at hv2
        injection hv2 with hv2
        rw [← hv2]
        exact hl1 (by simp)
      · exact hl2 hr

/-! ## Lemmas: the shape of the bucketed plan -/

theorem splitPoints_moves (mv : List (Int × Nat)) :
    splitPoints (mv.map (fun x => AdminCommand.moveChunk x.1 x.2)) = [] := by
  induction mv with
  | nil => rfl
  | cons x rest ih =>
    unfold splitPoints at ih ⊢
    rw [List.map_cons, List.filterMap_cons]
    exact ih

theorem splitPoints_plan (sp : List Int) (mv : List (Int × Nat)) :
    splitPoints (sp.map AdminCommand.split ++
      mv.map (fun x => AdminCommand.moveChunk x.1 x.2)) = sp := by
  induction sp with
  | nil => exact splitPoints_moves mv
  | cons v rest ih =>
    unfold splitPoints at ih ⊢
    rw [List.map_cons, List.cons_append, List.filterMap_cons]
    simp only
    rw [ih]

theorem moveShards_moves (mv : List (Int × Nat)) :
    moveShards (mv.map (fun x => AdminCommand.moveChunk x.1 x.2)) = mv.map (fun x => x.2) := by
  induction mv with
  | nil => rfl
  | cons x rest ih =>
    unfold moveShards at ih ⊢
    rw [List.map_cons, List.filterMap_cons]
    simp only
    rw [ih, List.map_cons]

theorem moveShards_plan (sp : List Int) (mv : List (Int × Nat)) :
    moveShards (sp.map AdminCommand.split ++
      mv.map (fun x => AdminCommand.moveChunk x.1 x.2)) = mv.map (fun x => x.2) := by
  induction sp with
  | nil => exact moveShards_moves mv
  | cons v rest ih =>
    unfold moveShards at ih ⊢
    rw [List.map_cons, List.cons_append, List.filterMap_cons]
    exact ih

theorem bucketedSharding_shape (fuel : Nat) (boardList : List Int) (hne : boardList ≠ [])
    (hlen : boardList.length < 2147483648) (hfuel : boardList.length ≤ fuel) :
    ∃ (sp : List Int) (vals : Nat → Int),
      sp.length = (boardList.length - 1) / ((boardList.length + 2) / 3) ∧ sp.length ≤ 2 ∧
      bucketedSharding fuel boardList = Except.ok (0,
        sp.map AdminCommand.split ++
          ((List.range (sp.length + 1)).map (fun t => (vals t, t))).map
            (fun x => AdminCommand.moveChunk x.1 x.2)) := by
  have hn : 0 < boardList.length := List.length_pos.2 hne
  have hsl : (boardList.insertionSort (fun a b => a ≤ b)).length = boardList.length :=
    List.length_insertionSort _ _
  obtain ⟨hm, hmn, hcnt⟩ := ceil_third_bounds boardList.length hn
  have hm3 : (boardList.length + 3 - 1) / 3 = (boardList.length + 2) / 3 := rfl
  rw [hm3] at hm hmn hcnt
  have hsplit := splitLoop_run (boardList.insertionSort (fun a b => a ≤ b))
    ((boardList.length + 2) / 3) hm (by rw [hsl]; exact hlen) (by rw [hsl]; exact hmn) fuel
    ((boardList.length + 2) / 3) []
  rw [hsl] at hsplit
  have hsub : boardList.length + (boardList.length + 2) / 3 - 1 - (boardList.length + 2) / 3 =
      boardList.length - 1 := by omega
  rw [hsub, List.nil_append] at hsplit
  have hsplit2 := hsplit (by
    have := Nat.div_le_self (boardList.length - 1) ((boardList.length + 2) / 3)
    omega)
  obtain ⟨sp, hspl, hrun⟩ : ∃ sp : List Int,
      sp.length = (boardList.length - 1) / ((boardList.length + 2) / 3) ∧
      splitLoop (boardList.insertionSort (fun a b => a ≤ b)) ((boardList.length + 2) / 3) fuel
        ((boardList.length + 2) / 3) [] = Except.ok sp :=
    ⟨_, by rw [List.length_map, List.length_range], hsplit2⟩
  refine ⟨sp, fun t => if 0 + t = 0 then (boardList.insertionSort (fun a b => a ≤ b)).getD 0 0
      else sp.getD (0 + t - 1) 0, hspl, by rw [hspl]; exact hcnt, ?_⟩
  unfold bucketedSharding
  simp only [hsl]
  have hsh : shards.length = 3 := rfl
  rw [hsh, hm3, if_neg (by omega), hrun]
  simp only
  rw [migrateLoop_run _ _ (by rw [hsl]; exact hn) _ 0 (by omega)]
  simp only
  rw [List.map_map]
  refine congrArg (fun z => Except.ok ((0 : Int), List.map AdminCommand.split sp ++ z)) ?_
  apply List.map_congr_left
  intro t ht
  have ht2 := List.mem_range.1 ht
  simp only [Function.comp]
  rw [Nat.zero_add, Nat.mod_eq_of_lt (by omega)]

/-! ## Lemmas: the rolling-collection worker -/

theorem roundEven_err (q : ℚ) : |(roundEven q : ℚ) - q| ≤ 1 / 2 := by
  have h1 : (⌊q⌋ : ℚ) ≤ q := Int.floor_le q
  have h2 : q < (⌊q⌋ : ℚ) + 1 := Int.lt_floor_add_one q
  unfold roundEven
  rw [abs_le]
  split_ifs with a b c
  · constructor <;> linarith
  · push_cast; constructor <;> linarith
  · constructor <;> linarith
  · push_cast; constructor <;> linarith

theorem double_err (q : ℚ) (hq : 0 ≤ q) : |double q - q| ≤ q / 2 ^ 53 := by
  unfold double
  by_cases h0 : q = 0
  · rw [if_pos h0, h0]; norm_num
  · rw [if_neg h0]
    have hpos : 0 < q := lt_of_le_of_ne hq (Ne.symm h0)
    rw [abs_of_pos hpos]
    have hp : (0 : ℚ) < (2 : ℚ) ^ (Int.log 2 q - 52) := zpow_pos (by norm_num) _
    have hlog : (2 : ℚ) ^ (Int.log 2 q) ≤ q := Int.zpow_log_le_self (by norm_num) hpos
    have hsplit : (2 : ℚ) ^ (Int.log 2 q) = (2 : ℚ) ^ (Int.log 2 q - 52) * 2 ^ 52 := by
      rw [zpow_sub₀ (by norm_num : (2 : ℚ) ≠ 0)]
      have : ((2 : ℚ) ^ (52 : ℤ)) = 2 ^ 52 := by norm_cast
      rw [this]
      field_simp
    have herr := roundEven_err (q / (2 : ℚ) ^ (Int.log 2 q - 52))
    have hq2 : q = q / (2 : ℚ) ^ (Int.log 2 q - 52) * (2 : ℚ) ^ (Int.log 2 q - 52) := by
      field_simp
    have : (roundEven (q / (2 : ℚ) ^ (Int.log 2 q - 52)) : ℚ) * (2 : ℚ) ^ (Int.log 2 q - 52) - q
        = ((roundEven (q / (2 : ℚ) ^ (Int.log 2 q - 52)) : ℚ) -
            q / (2 : ℚ) ^ (Int.log 2 q - 52)) * (2 : ℚ) ^ (Int.log 2 q - 52) := by
      field_simp
    rw [this, abs_mul, abs_of_pos hp]
    have h3 : |(roundEven (q / (2 : ℚ) ^ (Int.log 2 q - 52)) : ℚ) -
        q / (2 : ℚ) ^ (Int.log 2 q - 52)| * (2 : ℚ) ^ (Int.log 2 q - 52)
        ≤ 1 / 2 * (2 : ℚ) ^ (Int.log 2 q - 52) :=
      mul_le_mul_of_nonneg_right herr (le_of_lt hp)
    have h4 : 1 / 2 * (2 : ℚ) ^ (Int.log 2 q - 52) ≤ q / 2 ^ 53 := by
      rw [le_div_iff₀ (by norm_num)]
      rw [hsplit] at hlog
      norm_num at hlog ⊢
      linarith
    exact le_trans h3 h4

theorem double_eq_of (q : ℚ) (e : Int) (hq : 0 < q) (h1 : (2 : ℚ) ^ e ≤ q)
    (h2 : q < (2 : ℚ) ^ (e + 1)) :
    double q = (roundEven (q / (2 : ℚ) ^ (e - 52)) : ℚ) * (2 : ℚ) ^ (e - 52) := by
  have hl : Int.log 2 q = e := by
    apply le_antisymm
    · have := (Int.lt_zpow_iff_log_lt (by norm_num : 1 < 2) hq).mp h2
      omega
    · exact (Int.zpow_le_iff_le_log (by norm_num : 1 < 2) hq).mp h1
  unfold double
  rw [if_neg (ne_of_gt hq), abs_of_pos hq, hl]

theorem roundEven_of (q : ℚ) (z : Int) (h1 : (z : ℚ) - 1 / 2 < q) (h2 : q < (z : ℚ) + 1 / 2) :
    roundEven q = z := by
  have h := roundEven_err q
  rw [abs_le] at h
  have a : ((roundEven q : Int) : ℚ) < ((z + 1 : Int) : ℚ) := by push_cast; linarith [h.2]
  have b : ((z - 1 : Int) : ℚ) < ((roundEven q : Int) : ℚ) := by push_cast; linarith [h.1]
  have a2 : roundEven q < z + 1 := by exact_mod_cast a
  have b2 : z - 1 < roundEven q := by exact_mod_cast b
  omega

theorem double_val (q v s : ℚ) (e z : Int) (hs : s = (2 : ℚ) ^ (e - 52)) (hq : 0 < q)
    (h1 : s * 2 ^ 52 ≤ q) (h2 : q < s * 2 ^ 53)
    (hz1 : ((z : ℚ) - 1 / 2) * s < q) (hz2 : q < ((z : ℚ) + 1 / 2) * s)
    (hv : v = (z : ℚ) * s) : double q = v := by
  have hs0 : 0 < s := by rw [hs]; exact zpow_pos (by norm_num) _
  have e1 : (2 : ℚ) ^ e = s * 2 ^ 52 := by
    rw [hs, zpow_sub₀ (by norm_num : (2 : ℚ) ≠ 0)]
    have : ((2 : ℚ) ^ (52 : ℤ)) = 2 ^ 52 := by norm_cast
    rw [this]; field_simp
  have e2 : (2 : ℚ) ^ (e + 1) = s * 2 ^ 53 := by
    rw [zpow_add_one₀ (by norm_num : (2 : ℚ) ≠ 0), e1]; ring
  rw [double_eq_of q e hq (by rw [e1]; exact h1) (by rw [e2]; exact h2), ← hs,
    roundEven_of (q / s) z (by rw [lt_div_iff₀ hs0]; exact hz1)
      (by rw [div_lt_iff₀ hs0]; exact hz2), hv]

theorem double_tenth : double 0.1 = 3602879701896397 / 36028797018963968 := by
  apply double_val 0.1 _ (1 / 72057594037927936) (-4) 7205759403792794
  · norm_num [zpow_neg]
  all_goals norm_num

theorem double_K : double (1 + double 0.1) = 2476979795053773 / 2251799813685248 := by
  rw [double_tenth]
  apply double_val _ _ (1 / 4503599627370496) 0 4953959590107546
  · norm_num [zpow_neg]
  all_goals norm_num

theorem roundEven_tie (q : ℚ) (z : Int) (h : q = (z : ℚ) + 1 / 2) (hz : z % 2 = 0) :
    roundEven q = z := by
  have hf : ⌊q⌋ = z := by
    rw [Int.floor_eq_iff, h]
    constructor <;> linarith
  unfold roundEven
  rw [hf, if_neg (by rw [h]; norm_num), if_neg (by rw [h]; norm_num), if_pos hz]

/-- The value the test of the worker compares the counter with stays within `1/420` of
`tdiff * 1.1 / 21 + 10`. -/
theorem readAhead_value (t : Nat) (ht : t < 4294967296) :
    |double (double (double ((t : ℚ) * double (1 + double 0.1)) / 21) + 10) -
        ((t : ℚ) * 11 / 210 + 10)| ≤ 1 / 420 := by
  have hu : ((2 : ℚ) ^ 53) = 9007199254740992 := by norm_num
  have ha := double_err 0.1 (by norm_num)
  rw [abs_le, hu] at ha
  have hK := double_err (1 + double 0.1) (by linarith [ha.1])
  rw [abs_le, hu] at hK
  have ht0 : (0 : ℚ) ≤ (t : ℚ) := Nat.cast_nonneg t
  have ht1 : (t : ℚ) ≤ 4294967296 := by exact_mod_cast le_of_lt ht
  have hKlo : (11 : ℚ) / 10 - 1 / 1000000000000000 ≤ double (1 + double 0.1) := by
    linarith [ha.1, ha.2, hK.1, hK.2]
  have hKhi : double (1 + double 0.1) ≤ (11 : ℚ) / 10 + 1 / 1000000000000000 := by
    linarith [ha.1, ha.2, hK.1, hK.2]
  have hp1 : (t : ℚ) * ((11 : ℚ) / 10 - 1 / 1000000000000000) ≤
      (t : ℚ) * double (1 + double 0.1) := mul_le_mul_of_nonneg_left hKlo ht0
  have hp2 : (t : ℚ) * double (1 + double 0.1) ≤
      (t : ℚ) * ((11 : ℚ) / 10 + 1 / 1000000000000000) := mul_le_mul_of_nonneg_left hKhi ht0
  have hp0 : 0 ≤ (t : ℚ) * double (1 + double 0.1) := by nlinarith
  have h1 := double_err ((t : ℚ) * double (1 + double 0.1)) hp0
  rw [abs_le, hu] at h1
  have hx1 : 0 ≤ double ((t : ℚ) * double (1 + double 0.1)) := by linarith [h1.1]
  have h2 := double_err (double ((t : ℚ) * double (1 + double 0.1)) / 21)
    (div_nonneg hx1 (by norm_num))
  rw [abs_le, hu] at h2
  have hx2 : 0 ≤ double (double ((t : ℚ) * double (1 + double 0.1)) / 21) := by
    linarith [h2.1, div_nonneg hx1 (by norm_num : (0 : ℚ) ≤ 21)]
  have h3 := double_err (double (double ((t : ℚ) * double (1 + double 0.1)) / 21) + 10)
    (by linarith)
  rw [abs_le, hu] at h3
  rw [abs_le]
  constructor <;> linarith [h1.1, h1.2, h2.1, h2.2, h3.1, h3.2]

theorem readAhead_of_gt (t : Nat) (c : Int) (ht : t < 4294967296)
    (h : 210 * (c - 10) < 11 * (t : Int)) : readAhead t c = true := by
  unfold readAhead
  rw [decide_eq_true_iff]
  have hv := readAhead_value t ht
  rw [abs_le] at hv
  have h2 : ((210 * (c - 10) + 1 : Int) : ℚ) ≤ ((11 * (t : Int) : Int) : ℚ) := by
    exact_mod_cast h
  push_cast at h2
  linarith [hv.1]

theorem readAhead_only_ge (t : Nat) (c : Int) (ht : t < 4294967296)
    (h : readAhead t c = true) : 210 * (c - 10) ≤ 11 * (t : Int) := by
  unfold readAhead at h
  rw [decide_eq_true_iff] at h
  have hv := readAhead_value t ht
  rw [abs_le] at hv
  by_contra hn
  have h2 : ((11 * (t : Int) + 1 : Int) : ℚ) ≤ ((210 * (c - 10) : Int) : ℚ) := by
    exact_mod_cast (not_le.mp hn)
  push_cast at h2
  linarith [hv.2]

theorem readAhead_tie_fires : readAhead 840 54 = true := by
  unfold readAhead
  rw [double_K]
  have x1 : double (((840 : Nat) : ℚ) * (2476979795053773 / 2251799813685248)) =
      8127589952520193 / 8796093022208 := by
    apply double_val _ _ (1 / 8796093022208) 9 8127589952520193
    · norm_num [zpow_neg]
    all_goals norm_num
  rw [x1]
  have x2 : double ((8127589952520193 : ℚ) / 8796093022208 / 21) =
      6192449487634433 / 140737488355328 := by
    apply double_val _ _ (1 / 140737488355328) 5 6192449487634433
    · norm_num [zpow_neg]
    all_goals norm_num
  rw [x2]
  have x3 : double ((6192449487634433 : ℚ) / 140737488355328 + 10) =
      7599824371187713 / 140737488355328 := by
    apply double_val _ _ (1 / 140737488355328) 5 7599824371187713
    · norm_num [zpow_neg]
    all_goals norm_num
  rw [x3]
  norm_num

theorem readAhead_tie_silent : readAhead 210 21 = false := by
  unfold readAhead
  rw [double_K]
  have x1 : double (((210 : Nat) : ℚ) * (2476979795053773 / 2251799813685248)) =
      8127589952520193 / 35184372088832 := by
    apply double_val _ _ (1 / 35184372088832) 7 8127589952520193
    · norm_num [zpow_neg]
    all_goals norm_num
  rw [x1]
  have x2 : double ((8127589952520193 : ℚ) / 35184372088832 / 21) =
      6192449487634433 / 562949953421312 := by
    apply double_val _ _ (1 / 562949953421312) 3 6192449487634433
    · norm_num [zpow_neg]
    all_goals norm_num
  rw [x2]
  have x3 : double ((6192449487634433 : ℚ) / 562949953421312 + 10) = 21 := by
    rw [double_eq_of _ 4 (by norm_num) (by norm_num) (by norm_num),
      roundEven_tie _ 5910974510923776 (by norm_num [zpow_neg]) (by decide)]
    norm_num [zpow_neg]
  rw [x3]
  norm_num

theorem exact_gt_iff (t : Nat) (c : Int) :
    ((t : ℚ) * 1.1 / 21 + 10 > (c : ℚ)) ↔ 210 * (c - 10) < 11 * (t : Int) := by
  constructor
  · intro h
    have h2 : ((210 * (c - 10) : Int) : ℚ) < ((11 * (t : Int) : Int) : ℚ) := by
      push_cast
      norm_num at h
      linarith
    exact_mod_cast h2
  · intro h
    have h2 : ((210 * (c - 10) : Int) : ℚ) < ((11 * (t : Int) : Int) : ℚ) := by
      exact_mod_cast h
    push_cast at h2
    norm_num
    linarith

theorem exact_lt_iff (t : Nat) (c : Int) :
    ((t : ℚ) * 1.1 / 21 + 10 < (c : ℚ)) ↔ 11 * (t : Int) < 210 * (c - 10) := by
  constructor
  · intro h
    have h2 : ((11 * (t : Int) : Int) : ℚ) < ((210 * (c - 10) : Int) : ℚ) := by
      push_cast
      norm_num at h
      linarith
    exact_mod_cast h2
  · intro h
    have h2 : ((11 * (t : Int) : Int) : ℚ) < ((210 * (c - 10) : Int) : ℚ) := by
      exact_mod_cast h
    push_cast at h2
    norm_num
    linarith

theorem behind_iff (t : Nat) (c : Int) :
    ((t : ℚ) * 1.1 / 21 + 10 ≤ (c : ℚ)) ↔ 11 * (t : Int) ≤ 210 * (c - 10) := by
  constructor
  · intro h
    have h2 : ((11 * (t : Int) : Int) : ℚ) ≤ ((210 * (c - 10) : Int) : ℚ) := by
      push_cast
      norm_num at h
      linarith
    exact_mod_cast h2
  · intro h
    have h2 : ((11 * (t : Int) : Int) : ℚ) ≤ ((210 * (c - 10) : Int) : ℚ) := by
      exact_mod_cast h
    push_cast at h2
    norm_num
    linarith

theorem distinctHosts_nodup (hosts : List (String × String)) :
    ∀ created : List String, created.Nodup → (distinctHosts created hosts).Nodup := by
  induction hosts with
  | nil => intro created h; exact h
  | cons h1 rest ih =>
    intro created h
    unfold distinctHosts
    by_cases hm : h1.2 ∈ created
    · rw [if_pos hm]; exact ih created h
    · rw [if_neg hm]
      apply ih
      rw [List.nodup_append]
      refine ⟨h, List.nodup_singleton _, ?_⟩
      intro a ha hb
      rw [List.mem_singleton] at hb
      subst hb
      exact hm ha

theorem distinctHosts_mem (hosts : List (String × String)) :
    ∀ (created : List String) (a : String),
      a ∈ distinctHosts created hosts ↔ a ∈ created ∨ a ∈ hosts.map Prod.snd := by
  induction hosts with
  | nil => intro created a; simp [distinctHosts]
  | cons h1 rest ih =>
    intro created a
    unfold distinctHosts
    by_cases hm : h1.2 ∈ created
    · rw [if_pos hm, ih]
      simp only [List.map_cons, List.mem_cons]
      constructor
      · rintro (h | h)
        · exact Or.inl h
        · exact Or.inr (Or.inr h)
      · rintro (h | h | h)
        · exact Or.inl h
        · exact Or.inl (h ▸ hm)
        · exact Or.inr h
    · rw [if_neg hm, ih]
      simp only [List.map_cons, List.mem_cons, List.mem_append, List.mem_singleton]
      tauto

/-- The calls made are those of the cycles `2, 3, ...` in order, one cycle per iteration at
most. -/
theorem rolling_run (address : String) (hosts : List (String × String)) (clock : List Nat) :
    ∀ (s : Rolling) (k : Nat), s.counter = 2 + (k : Int) →
      s.made = (List.range k).flatMap (fun i => provision address hosts (2 + (i : Int))) →
      ∃ j : Nat, j ≤ clock.length ∧
        (clock.foldl (rollingIteration address hosts) s).counter = 2 + ((k + j : Nat) : Int) ∧
        (clock.foldl (rollingIteration address hosts) s).made =
          (List.range (k + j)).flatMap (fun i => provision address hosts (2 + (i : Int))) := by
  induction clock with
  | nil => intro s k hc hm; exact ⟨0, le_refl _, hc, hm⟩
  | cons t rest ih =>
    intro s k hc hm
    rw [List.foldl_cons]
    by_cases hr : readAhead t s.counter = true
    · have hstep : rollingIteration address hosts s t =
          { counter := s.counter + 1, made := s.made ++ provision address hosts s.counter } := by
        unfold rollingIteration; rw [if_pos hr]
      obtain ⟨j, hj, h1, h2⟩ := ih (rollingIteration address hosts s t) (k + 1)
        (by rw [hstep]; simp only; rw [hc]; push_cast; ring)
        (by rw [hstep]; simp only
            rw [List.range_succ, List.flatMap_append, hm, hc]
            simp [List.flatMap])
      refine ⟨j + 1, by simp only [List.length_cons]; omega, ?_, ?_⟩
      · rw [h1]; push_cast; ring
      · rw [h2]; congr 2; omega
    · have hstep : rollingIteration address hosts s t = s := by
        unfold rollingIteration; rw [if_neg hr]
      rw [hstep]
      obtain ⟨j, hj, h1, h2⟩ := ih s k hc hm
      exact ⟨j, by simp only [List.length_cons]; omega, h1, h2⟩

theorem rolling_snoc (address : String) (hosts : List (String × String)) (n : Nat) :
    CollectionThreadWrapper address hosts (List.range (n + 1)) =
      rollingIteration address hosts (CollectionThreadWrapper address hosts (List.range n)) n := by
  unfold CollectionThreadWrapper
  rw [List.range_succ, List.foldl_append]
  rfl

/-- During the first nine iterations the worker provisions one cycle per iteration. -/
theorem rolling_first (address : String) (hosts : List (String × String)) :
    ∀ n : Nat, n ≤ 9 →
      (CollectionThreadWrapper address hosts (List.range n)).counter = 2 + (n : Int) := by
  intro n
  induction n with
  | zero => intro _; rfl
  | succ n ih =>
    intro hn
    rw [rolling_snoc]
    have h := ih (by omega)
    have hr : readAhead n (CollectionThreadWrapper address hosts (List.range n)).counter
        = true := readAhead_of_gt n _ (by omega) (by rw [h]; omega)
    unfold rollingIteration
    rw [if_pos hr]
    simp only
    rw [h]; push_cast; ring

/-- From the ninth iteration on the worker is ahead of the clock at the end of the iteration. -/
theorem rolling_ahead (address : String) (hosts : List (String × String)) :
    ∀ n : Nat, 9 ≤ n → n ≤ 4294967296 →
      11 * ((n : Int) - 1) ≤
        210 * ((CollectionThreadWrapper address hosts (List.range n)).counter - 10) := by
  intro n hn
  induction n with
  | zero => omega
  | succ n ih =>
    intro hb
    by_cases h9 : n = 8
    · subst h9
      rw [rolling_first address hosts 9 (le_refl _)]
      norm_num
    · have h := ih (by omega) (by omega)
      rw [rolling_snoc]
      unfold rollingIteration
      by_cases hr : readAhead n (CollectionThreadWrapper address hosts (List.range n)).counter
          = true
      · rw [if_pos hr]
        simp only
        push_cast
        omega
      · rw [if_neg hr]
        have hr2 : ¬ (210 * ((CollectionThreadWrapper address hosts (List.range n)).counter - 10)
            < 11 * (n : Int)) := fun hlt => hr (readAhead_of_gt n _ (by omega) hlt)
        push_cast
        omega

/-- The last cycle provisioned is never beyond the clock. -/
theorem rolling_not_beyond (address : String) (hosts : List (String × String)) :
    ∀ n : Nat, 1 ≤ n → n ≤ 4294967296 →
      210 * ((CollectionThreadWrapper address hosts (List.range n)).counter - 11) ≤
        11 * ((n : Int) - 1) := by
  intro n hn
  induction n with
  | zero => omega
  | succ n ih =>
    intro hb
    by_cases h0 : n = 0
    · subst h0
      rw [rolling_first address hosts 1 (by omega)]
      norm_num
    · have h := ih (by omega) (by omega)
      rw [rolling_snoc]
      unfold rollingIteration
      by_cases hr : readAhead n (CollectionThreadWrapper address hosts (List.range n)).counter
          = true
      · rw [if_pos hr]
        simp only
        have hge := readAhead_only_ge n _ (by omega) hr
        push_cast
        omega
      · rw [if_neg hr]
        push_cast
        omega

/-! ## Lemmas: the run number -/

theorem findLatest_none (detector : String) (docs : List RunDoc) :
    findLatest detector docs = none ↔ ∀ d ∈ docs, d.detector ≠ detector := by
  induction docs with
  | nil => simp [findLatest]
  | cons d rest ih =>
    unfold findLatest
    by_cases hd : d.detector = detector
    · rw [if_pos hd]
      constructor
      · intro h
        cases hf : findLatest detector rest with
        | none => rw [hf] at h; cases h
        | some e =>
          rw [hf] at h
          simp only at h
          split_ifs at h
      · intro h
        exact absurd hd (h d (List.mem_cons_self _ _))
    · rw [if_neg hd, ih]
      constructor
      · intro h e he
        rcases List.mem_cons.mp he with rfl | he
        · exact hd
        · exact h e he
      · intro h e he
        exact h e (List.mem_cons_of_mem _ he)

theorem findLatest_some (detector : String) (docs : List RunDoc) (obj : RunDoc)
    (h : findLatest detector docs = some obj) :
    obj ∈ docs ∧ obj.detector = detector ∧
      ∀ d ∈ docs, d.detector = detector → d.number ≤ obj.number := by
  induction docs generalizing obj with
  | nil => simp [findLatest] at h
  | cons d rest ih =>
    unfold findLatest at h
    by_cases hd : d.detector = detector
    · rw [if_pos hd] at h
      cases hf : findLatest detector rest with
      | none =>
        rw [hf] at h
        simp only [Option.some.injEq] at h
        subst h
        refine ⟨List.mem_cons_self _ _, hd, ?_⟩
        intro e he hed
        rcases List.mem_cons.mp he with rfl | he
        · exact le_refl _
        · exact absurd hed ((findLatest_none detector rest).mp hf e he)
      | some e =>
        rw [hf] at h
        simp only at h
        obtain ⟨hm, hdet, hmax⟩ := ih e hf
        by_cases hlt : d.number < e.number
        · rw [if_pos hlt] at h
          simp only [Option.some.injEq] at h
          subst h
          refine ⟨List.mem_cons_of_mem _ hm, hdet, ?_⟩
          intro x hx hxd
          rcases List.mem_cons.mp hx with rfl | hx
          · exact le_of_lt hlt
          · exact hmax x hx hxd
        · rw [if_neg hlt] at h
          simp only [Option.some.injEq] at h
          subst h
          refine ⟨List.mem_cons_self _ _, hd, ?_⟩
          intro x hx hxd
          rcases List.mem_cons.mp hx with rfl | hx
          · exact le_refl _
          · exact le_trans (hmax x hx hxd) (not_lt.mp hlt)
    · rw [if_neg hd] at h
      obtain ⟨hm, hdet, hmax⟩ := ih obj h
      refine ⟨List.mem_cons_of_mem _ hm, hdet, ?_⟩
      intro x hx hxd
      rcases List.mem_cons.mp hx with rfl | hx
      · exact absurd hxd hd
      · exact hmax x hx hxd

theorem int32_of_range (z : Int) (h1 : -2147483648 ≤ z) (h2 : z < 2147483648) : int32 z = z := by
  unfold int32
  omega

/-! ## Lemmas: the options file -/

theorem Reset_const (o1 o2 : koOptions) : Reset o1 = Reset o2 := rfl

theorem getD_zero_of_head (words : List String) (w : String) (h : words.head? = some w) :
    words.getD 0 "" = w := by
  cases words with
  | nil => cases h
  | cons a rest =>
    simp only [List.head?_cons, Option.some.injEq] at h
    subst h
    rfl

/-- A line of fewer than two words leaves the options as they are and the loop goes on. -/
theorem readLine_short (I H : String → Int) (o : koOptions) (line : String)
    (h : (wordsOf line).length < 2) : readLine I H o line = (o, false) := by
  unfold readLine
  by_cases hh : startsWithHash line = true
  · rw [if_pos hh]
  · rw [if_neg hh]
    simp only
    rw [if_pos h]

/-- A malformed directive of two words or more leaves the loop by `break`. -/
theorem readLine_malformed (I H : String → Int) (o : koOptions) (line : String)
    (hhash : startsWithHash line = false) (hbad : malformedDirective line = true)
    (h2 : 2 ≤ (wordsOf line).length) : readLine I H o line = (o, true) := by
  unfold readLine
  rw [if_neg (by rw [hhash]; decide)]
  simp only
  rw [if_neg (by omega)]
  unfold malformedDirective at hbad
  simp only [Bool.or_eq_true, Bool.and_eq_true, decide_eq_true_eq] at hbad
  rcases hbad with (⟨hw, hl⟩ | ⟨hw, hl⟩) | ⟨hw, hl⟩
  · rw [getD_zero_of_head _ _ hw]
    simp [hl]
  · rw [getD_zero_of_head _ _ hw]
    simp [hl]
  · rw [getD_zero_of_head _ _ hw]
    simp [hl]

theorem readLoop_break (I H : String → Int) (bad : String) (post : List String)
    (hb : ∀ o, readLine I H o bad = (o, true)) :
    ∀ (pre : List String) (o : koOptions),
      readLoop I H (pre ++ bad :: post) o = readLoop I H pre o := by
  intro pre
  induction pre with
  | nil =>
    intro o
    rw [List.nil_append]
    unfold readLoop
    rw [hb o]
  | cons l rest ih =>
    intro o
    rw [List.cons_append]
    unfold readLoop
    cases hl : readLine I H o l with
    | mk o1 b =>
      cases b with
      | true => rfl
      | false => exact ih o1

theorem readLoop_skip (I H : String → Int) (l : String) (post : List String)
    (hs : ∀ o, readLine I H o l = (o, false)) :
    ∀ (pre : List String) (o : koOptions),
      readLoop I H (pre ++ l :: post) o = readLoop I H (pre ++ post) o := by
  intro pre
  induction pre with
  | nil =>
    intro o
    rw [List.nil_append, List.nil_append]
    conv_lhs => unfold readLoop
    rw [hs o]
  | cons a rest ih =>
    intro o
    rw [List.cons_append, List.cons_append]
    unfold readLoop
    cases hl : readLine I H o a with
    | mk o1 b =>
      cases b with
      | true => rfl
      | false => exact ih o1

/-! ## The claims -/

/-- C1: for every legal new-firmware BLT (any sequence of `0xFFFFFFFF` filler words and events,
each event a header whose word 0 is marked `0xA00` and whose word 1 carries the channel mask,
followed for each set mask bit in ascending order by a block `[k + 2, time word, k payload
words]`), of a byte size that fits 32 bits, `SplitChannelsNewFW` with enough fuel returns exactly
one occurrence per channel block, in order, with the mask bit as channel, the time word
`& 0x7FFFFFFF` as timestamp, the `k` payload words as payload and `4k` as size, without setting
the error flag; the payloads recorded for each channel are those of its blocks, in order. -/
theorem newfw_round_trip (items : List FWItem) (fuel : Nat)
    (hlegal : ∀ i ∈ items, i.legal)
    (hlen : 4 * (fwWords items).length < 4294967296) (hfuel : items.length < fuel) :
    ∃ out : Parsed,
      SplitChannelsNewFW fuel [(fwWords items, 4 * (fwWords items).length)] [] [] =
        Except.ok out ∧
      out.occurrences = fwOccurrences items ∧
      out.retsize = (fwOccurrences items).map (fun x => 4 * x.payload.length) ∧
      out.bErrorSet = false ∧
      ∀ c : Nat, payloadsOf out.occurrences c = fwPayloads c items := by
  have hf := Parsed.pushAll_fields (fwOccurrences items)
    { retbuff := [], retsize := [], timeStamps := [], channels := [], eventIndices := [],
      bErrorSet := false }
  obtain ⟨h1, h2, h3, h4, _, h6⟩ := hf
  simp only [List.nil_append] at h1 h2 h3 h4
  have hocc := occurrences_of_fields _ _ h1 h3 h4
  refine ⟨_, ?_, hocc, h2, h6, ?_⟩
  · unfold SplitChannelsNewFW
    rw [newFWBufs]
    by_cases h0 : 4 * (fwWords items).length = 0
    · rw [if_pos h0]
      have hnil : items = [] := by
        cases items with
        | nil => rfl
        | cons i rest =>
          exfalso
          rw [fwWords_cons] at h0
          cases i with
          | filler => simp [FWItem.words] at h0
          | event e => simp [FWItem.words, FWEvent.words] at h0
      subst hnil
      rfl
    · rw [if_neg h0]
      rw [newFWScan_items (fwWords items) _ rfl hlen items fuel 0 _ hlegal (by omega) rfl hfuel]
      rfl
  · intro c
    rw [hocc]
    exact payloadsOf_fwOccurrences c items

/-- Witness for C1: a filler word, an event with mask `0x05` (channel 0 with two payload words,
channel 2 with one), a filler word and an event with mask `0x04` (no payload word). -/
theorem newfw_round_trip_witness :
    ∃ out : Parsed,
      SplitChannelsNewFW 5
        [([4294967295, 2684354560, 5, 0, 0, 4, 2147483725, 11, 12, 3, 78, 13, 4294967295,
           2684354560, 4, 0, 0, 2, 79], 76)] [] [] = Except.ok out ∧
      out.occurrences =
        [{ channel := 0, time := 77, payload := [11, 12] },
         { channel := 2, time := 78, payload := [13] },
         { channel := 2, time := 79, payload := [] }] ∧
      out.retsize = [8, 4, 0] ∧
      out.bErrorSet = false := by
  obtain ⟨out, e1, e2, e3, e4, _⟩ :=
    newfw_round_trip
      [FWItem.filler,
       FWItem.event { w0 := 2684354560, w1 := 5, w2 := 0, w3 := 0,
                      blk := fun c => if c = 0 then { time := 2147483725, payload := [11, 12] }
                                      else { time := 78, payload := [13] } },
       FWItem.filler,
       FWItem.event { w0 := 2684354560, w1 := 4, w2 := 0, w3 := 0,
                      blk := fun _ => { time := 79, payload := [] } }] 5
      (by intro i hi; simp at hi; rcases hi with h | h | h | h <;> subst h <;> simp [FWItem.legal])
      (by decide) (by decide)
  exact ⟨out, e1, e2, e3, e4⟩

/-- C2 (amended): for every BLT made of one legacy header with channel mask `m`
(`p = popcount(m) >= 1`), size field `(word0 & 0xFFFFFF) = 4 + p*k` with `k >= 1`, and header
time `word3`, followed by `p*k` payload words, `SplitChannels` with `ZLE = false` returns exactly
`p` occurrences, one per set bit of `m` in ascending channel order, each with timestamp
`word3 & 0x7FFFFFFF` and with payload its consecutive `k`-word slice (`4k` bytes); with
`reset_epoch = 0` and a header time at read within `10^9` of that timestamp, `Process` writes one
record per occurrence whose time is that timestamp. -/
theorem legacy_raw_extraction (iModule : Int) (w0 w1 w2 w3 k fuel hRead : Nat)
    (payload : List Nat)
    (hw0 : w0 >>> 20 = 0xA00) (hp : 1 ≤ popcount (w1 &&& 0xFF)) (hk : 1 ≤ k)
    (hsz : w0 &&& 0xFFFFFF = 4 + popcount (w1 &&& 0xFF) * k)
    (hpl : payload.length = popcount (w1 &&& 0xFF) * k) (hfuel : 2 ≤ fuel)
    (hnear : |(hRead : Int) - ((w3 &&& 0x7FFFFFFF : Nat) : Int)| ≤ 1000000000) :
    ∃ (out : Parsed) (tl : Timeline) (recs : List Record),
      SplitChannels fuel [(w0 :: w1 :: w2 :: w3 :: payload, 4 * (4 + payload.length))]
        [] [] [] false = Except.ok out ∧
      out.channels = maskChannels (w1 &&& 0xFF) allChannels ∧
      out.channels.length = popcount (w1 &&& 0xFF) ∧
      out.timeStamps = List.replicate (popcount (w1 &&& 0xFF)) (w3 &&& 0x7FFFFFFF) ∧
      out.retsize = List.replicate (popcount (w1 &&& 0xFF)) (4 * k) ∧
      out.retbuff =
        (List.range (popcount (w1 &&& 0xFF))).map (fun i => (payload.drop (i * k)).take k) ∧
      processRound iModule 0 hRead out = Except.ok (tl, recs) ∧
      recs.map (fun r => r.channel) = out.channels.map (fun c : Nat => (c : Int)) ∧
      recs.map (fun r => r.time) =
        List.replicate (popcount (w1 &&& 0xFF)) ((w3 &&& 0x7FFFFFFF : Nat) : Int) ∧
      recs.map (fun r => r.endtime) =
        List.replicate (popcount (w1 &&& 0xFF))
          (((w3 &&& 0x7FFFFFFF : Nat) : Int) + ((4 * k : Nat) : Int)) ∧
      recs.map (fun r => r.data) = out.retbuff := by
  have hparse := legacy_raw_parse w0 w1 w2 w3 k fuel payload hw0 hp hk hsz hpl hfuel
  have h31 : w3 &&& 0x7FFFFFFF < 2147483648 := Nat.and_lt_two_pow w3 (n := 31) (by decide)
  have hpm := popcount_mask w1
  obtain ⟨g1, g2, g3, g4, _, _⟩ := Parsed.pushAll_fields
    (rawOccurrences (w1 &&& 0xFF) (w3 &&& 0x7FFFFFFF) k allChannels payload)
    { retbuff := [], retsize := [], timeStamps := [], channels := [],
      eventIndices := [0], bErrorSet := false }
  obtain ⟨r1, r2, r3⟩ := rawOccurrences_fields (w1 &&& 0xFF) (w3 &&& 0x7FFFFFFF) k allChannels
    payload
  simp only [List.nil_append] at g1 g2 g3 g4
  rw [r3] at g1
  rw [r2] at g3
  rw [r1] at g4
  rw [← hpm] at g1 g3
  have hslice : ∀ i ∈ List.range (popcount (w1 &&& 0xFF)),
      ((payload.drop (i * k)).take k).length = k := by
    intro i hi
    rw [List.mem_range] at hi
    rw [List.length_take, List.length_drop, hpl]
    have : (i + 1) * k ≤ popcount (w1 &&& 0xFF) * k := Nat.mul_le_mul_right k hi
    rw [Nat.add_mul, Nat.one_mul] at this
    omega
  have g2b : (Parsed.pushAll
        { retbuff := [], retsize := [], timeStamps := [], channels := [],
          eventIndices := [0], bErrorSet := false }
        (rawOccurrences (w1 &&& 0xFF) (w3 &&& 0x7FFFFFFF) k allChannels payload)).retsize =
      List.replicate (popcount (w1 &&& 0xFF)) (4 * k) := by
    rw [g2]
    have : List.map (fun x : Occurrence => 4 * x.payload.length)
        (rawOccurrences (w1 &&& 0xFF) (w3 &&& 0x7FFFFFFF) k allChannels payload) =
        List.map (fun pl : List Nat => 4 * pl.length)
          (List.map (fun x : Occurrence => x.payload)
            (rawOccurrences (w1 &&& 0xFF) (w3 &&& 0x7FFFFFFF) k allChannels payload)) := by
      rw [List.map_map]; rfl
    rw [this, r3, ← hpm, List.map_map, List.eq_replicate_iff]
    refine ⟨by simp, ?_⟩
    intro b hb
    rw [List.mem_map] at hb
    obtain ⟨i, hi, rfl⟩ := hb
    simp only [Function.comp]
    rw [hslice i hi]
  have hlenC : (Parsed.pushAll
        { retbuff := [], retsize := [], timeStamps := [], channels := [],
          eventIndices := [0], bErrorSet := false }
        (rawOccurrences (w1 &&& 0xFF) (w3 &&& 0x7FFFFFFF) k allChannels payload)).channels.length =
      popcount (w1 &&& 0xFF) := by rw [g4, hpm]
  generalize Parsed.pushAll
        { retbuff := [], retsize := [], timeStamps := [], channels := [],
          eventIndices := [0], bErrorSet := false }
        (rawOccurrences (w1 &&& 0xFF) (w3 &&& 0x7FFFFFFF) k allChannels payload) = out
    at hparse g1 g2b g3 g4 hlenC
  have n1 : out.timeStamps.length = popcount (w1 &&& 0xFF) := by rw [g3]; simp
  have n3 : out.retbuff.length = popcount (w1 &&& 0xFF) := by rw [g1]; simp
  have n4 : out.retsize.length = popcount (w1 &&& 0xFF) := by rw [g2b]; simp
  have hch : ∀ x ∈ out.channels, x < 8 := by
    rw [g4]; exact maskChannels_lt _
  have hrun := processRound_run iModule 0 hRead out (by omega) (by omega) (by omega) hch
  obtain ⟨q1, q2, q3, q4⟩ := out.quads_proj _ n1 hlenC n3 n4
  have hqs : ∀ q ∈ out.quads, q.1 = (w3 &&& 0x7FFFFFFF) ∧ q.2.1 < 8 := by
    intro q hq
    refine ⟨?_, quads_channel_lt out hch q hq⟩
    have hm : q.1 ∈ out.timeStamps := by
      rw [← q1]; exact List.mem_map_of_mem _ hq
    rw [g3] at hm
    exact (List.mem_replicate.mp hm).2
  have hrecs := recordsRun_same_time iModule hRead (w3 &&& 0x7FFFFFFF) h31
    (farApart_near hRead _ h31 hnear) out.quads (Timeline.start 0) (Timeline.WF_start 0)
    (start_inv _) hqs
  rw [hrecs] at hrun
  refine ⟨out, _, _, hparse, g4, hlenC, g3, g2b, g1, hrun, ?_, ?_, ?_, ?_⟩
  · rw [List.map_map, ← q2, List.map_map]; rfl
  · rw [List.map_map, List.eq_replicate_iff]
    refine ⟨by simp [out.quads_length _ n1 hlenC n3 n4], ?_⟩
    intro b hb
    rw [List.mem_map] at hb
    obtain ⟨q, _, rfl⟩ := hb
    rfl
  · rw [List.map_map, List.eq_replicate_iff]
    refine ⟨by simp [out.quads_length _ n1 hlenC n3 n4], ?_⟩
    intro b hb
    rw [List.mem_map] at hb
    obtain ⟨q, hq, rfl⟩ := hb
    have hm : q.2.2.2 ∈ out.retsize := by
      rw [← q4]; exact List.mem_map_of_mem _ hq
    rw [g2b] at hm
    have := (List.mem_replicate.mp hm).2
    simp only [Function.comp, this]
  · rw [List.map_map, ← q3]; rfl

/-- Witness for C2: the specification's scenario: mask `0x03`, two channels of 6 words, header
time `1000`, read with reset epoch `0` at header time `1000`: records `(channel 0, time 1000,
24 B)` and `(channel 1, time 1000, 24 B)`. -/
theorem legacy_raw_extraction_witness :
    ∃ (out : Parsed) (tl : Timeline) (recs : List Record),
      SplitChannels 10
        [([2684354576, 3, 0, 1000, 1, 2, 3, 4, 5, 6, 7, 8, 9, 10, 11, 12], 64)]
        [] [] [] false = Except.ok out ∧
      out.channels = [0, 1] ∧
      out.timeStamps = [1000, 1000] ∧
      out.retsize = [24, 24] ∧
      out.retbuff = [[1, 2, 3, 4, 5, 6], [7, 8, 9, 10, 11, 12]] ∧
      processRound 7 0 1000 out = Except.ok (tl, recs) ∧
      recs.map (fun r => r.channel) = [0, 1] ∧
      recs.map (fun r => r.time) = [1000, 1000] ∧
      recs.map (fun r => r.endtime) = [1024, 1024] ∧
      recs.map (fun r => r.data) = [[1, 2, 3, 4, 5, 6], [7, 8, 9, 10, 11, 12]] := by
  obtain ⟨out, tl, recs, e1, e2, _, e4, e5, e6, e7, e8, e9, e10, e11⟩ :=
    legacy_raw_extraction 7 2684354576 3 0 1000 6 10 1000 [1, 2, 3, 4, 5, 6, 7, 8, 9, 10, 11, 12]
      (by decide) (by decide) (by decide) (by decide) (by decide) (by decide)
      (by rw [show (1000 &&& 0x7FFFFFFF : Nat) = 1000 by decide]; norm_num)
  refine ⟨out, tl, recs, e1, e2.trans (by decide), e4.trans (by decide), e5.trans (by decide),
    e6.trans (by decide), e7, ?_, e9.trans (by decide), e10.trans (by decide), ?_⟩
  · rw [e8, e2]; decide
  · rw [e11, e6]; decide

/-- Counterexample to C2 as stated: a header with mask `0x01` (`p = 1`) and size field
`4 = 4 + p * 0`, followed by no payload word: `SplitChannels` with `ZLE = false` returns no
occurrence, not `p = 1` occurrence with an empty payload. -/
theorem legacy_raw_extraction_counterexample :
    2684354564 >>> 20 = 0xA00 ∧ popcount (1 &&& 0xFF) = 1 ∧
      2684354564 &&& 0xFFFFFF = 4 + popcount (1 &&& 0xFF) * 0 ∧
      SplitChannels 10 [([2684354564, 1, 0, 1000], 16)] [] [] [] false =
        Except.ok { retbuff := [], retsize := [], timeStamps := [], channels := [],
                    eventIndices := [0], bErrorSet := false } := by
  refine ⟨by decide, by decide, by decide, by decide⟩

/-- C3: for every legacy BLT made of filler words and events whose channel blocks are
well-formed ZLE blocks (a size word `channelSize`, then `channelSize - 1` words of control words
and the data words they announce), of a byte size that fits 32 bits, `SplitChannels` with
`ZLE = true` and enough fuel returns, for each block in order, exactly one occurrence per control
word with top nibble `0x8`, with the next `good = word & 0x0FFFFFFF` words as payload (`4 * good`
bytes) and timestamp `headerTime + sampleCnt` modulo `2^32`, `sampleCnt` being the sum over the
preceding control words of the block of `2 * word` for skip words and `2 * good` for good-data
words; skip words emit nothing. -/
theorem zle_expansion (pieces : List ZPiece) (fuel : Nat)
    (hlegal : ∀ i ∈ pieces, i.legal)
    (hlen : 4 * (zWords pieces).length < 4294967296) (hfuel : (zWords pieces).length < fuel) :
    ∃ out : Parsed,
      SplitChannels fuel [(zWords pieces, 4 * (zWords pieces).length)] [] [] [] true =
        Except.ok out ∧
      out.occurrences = zOccurrences pieces ∧
      out.retsize = (zOccurrences pieces).map (fun x => 4 * x.payload.length) := by
  obtain ⟨h1, h2, h3, h4⟩ := Parsed.pushPieces_fields pieces
    { retbuff := [], retsize := [], timeStamps := [], channels := [], eventIndices := [],
      bErrorSet := false }
  simp only [List.nil_append] at h1 h2 h3 h4
  have hocc := occurrences_of_fields _ _ h1 h3 h4
  have hpl := zWords_length_ge pieces
  refine ⟨_, ?_, hocc, h2⟩
  unfold SplitChannels
  rw [splitChannelsBufs]
  by_cases h0 : 4 * (zWords pieces).length = 0
  · rw [if_pos h0]
    have hnil : pieces = [] := by
      cases pieces with
      | nil => rfl
      | cons i rest => exfalso; simp at hpl; omega
    subst hnil
    rfl
  · rw [if_neg h0]
    rw [splitChannelsScan_zle (zWords pieces) _ rfl hlen fuel hfuel pieces fuel 0 _ hlegal
      (by omega) rfl (by omega)]
    rfl

/-- Witness for C3: one event at header time `1000` with channels 0 and 2; channel 0 holds a
skip word `3`, two good words, a skip word `5` and one good word; channel 2 holds an empty
good-data block. -/
theorem zle_expansion_witness :
    ∃ out : Parsed,
      SplitChannels 20
        [([4294967295, 2684354560, 5, 0, 1000, 8, 3, 2147483650, 11, 12, 5, 2147483649, 13,
           2, 2147483648], 60)] [] [] [] true = Except.ok out ∧
      out.occurrences =
        [{ channel := 0, time := 1006, payload := [11, 12] },
         { channel := 0, time := 1020, payload := [13] },
         { channel := 2, time := 1000, payload := [] }] ∧
      out.retsize = [8, 4, 0] :=
  zle_expansion
    [ZPiece.filler,
     ZPiece.event { w0 := 2684354560, w1 := 5, w2 := 0, w3 := 1000,
                    blk := fun c => if c = 0 then
                        [ZItem.skip 3, ZItem.good 2147483650 [11, 12], ZItem.skip 5,
                         ZItem.good 2147483649 [13]]
                      else [ZItem.good 2147483648 []] }] 20
    (by
      intro i hi
      simp at hi
      rcases hi with h | h <;> subst h
      · trivial
      · refine ⟨by decide, ?_⟩
        intro c hc i hi
        have hc2 : c = 0 ∨ c = 2 := by
          have : maskChannels (5 &&& 0xFF) allChannels = [0, 2] := by decide
          have hc3 : c ∈ [0, 2] := this ▸ hc
          simpa using hc3
        rcases hc2 with h | h <;> subst h <;> simp at hi
        · rcases hi with h | h | h | h <;> subst h <;> simp only [ZItem.legal] <;> decide
        · subst hi; simp only [ZItem.legal]; decide)
    (by decide) (by decide)

/-- C4 (the code at the failing input): the header word `0xA0000005` has low 16 bits `5`, so the
claim has 20 words copied and skipped; `SplitBlocks` takes `word & (0xFFFF*4) = 4`, copies the 4
words at the header, records 16 bytes and resumes the scan at word 4. -/
theorem splitBlocks_header_size :
    (2684354565 &&& 0xFFFF) * 4 = 20 ∧ blockSize 2684354565 = 4 ∧
      SplitBlocks 30
        [([2684354565, 1, 2, 3, 4, 5, 6, 7, 8, 9, 10, 11, 12, 13, 14, 15, 16, 17, 18, 19], 80)] =
        Except.ok { retbuff := [[2684354565, 1, 2, 3]], retsize := [16] } := by
  refine ⟨by decide, by decide, by decide⟩

/-- C5 (the code at the failing input): `SplitBlocks` stops scanning a buffer at the first
`0xFFFFFFFF` word; a header after a leading filler word, or after filler between events, is not
found, while the same header without the filler is, and `SplitChannelsNewFW` does skip the
filler. -/
theorem splitBlocks_stops_at_filler :
    SplitBlocks 10 [([4294967295, 2684354564, 1, 2, 3], 20)] =
        Except.ok { retbuff := [], retsize := [] } ∧
      SplitBlocks 10 [([2684354564, 1, 2, 3], 16)] =
        Except.ok { retbuff := [[2684354564, 1, 2, 3]], retsize := [16] } ∧
      SplitBlocks 10 [([2684354564, 1, 2, 3, 4294967295, 2684354564, 5, 6, 7], 36)] =
        Except.ok { retbuff := [[2684354564, 1, 2, 3]], retsize := [16] } ∧
      SplitChannelsNewFW 10 [([4294967295, 2684354560, 1, 0, 0, 3, 77, 9], 32)] [] [] =
        Except.ok { retbuff := [[9]], retsize := [4], timeStamps := [77], channels := [0],
                    eventIndices := [], bErrorSet := false } := by
  refine ⟨by decide, by decide, by decide, by decide⟩

/-- C6 (the code at the failing input): a buffer of 8 words (32 bytes) whose only channel block,
reached at `idx = 6`, declares `channelSize = 10`: `idx + channelSize - 2 = 14 > 8 = size_words`,
yet the test of `SplitChannelsNewFW` against the byte count (`14 < 32`) passes and the copy reads
words 8..13, beyond the buffer; with the test against the word count nothing would be read. -/
theorem newfw_bounds_check_in_bytes :
    subU32 (u32 (6 + 10)) 2 = 14 ∧ ¬ (14 ≤ 32 / 4) ∧
      SplitChannelsNewFW 10 [([2684354560, 1, 0, 0, 10, 77, 1, 2], 32)] [] [] =
        Except.error Fault.outOfBounds ∧
      newFWFor [2684354560, 1, 0, 0, 10, 77, 1, 2] (32 / 4) 1 allChannels 4
          { retbuff := [], retsize := [], timeStamps := [], channels := [], eventIndices := [],
            bErrorSet := false } =
        Except.ok (6, { retbuff := [], retsize := [], timeStamps := [], channels := [],
                        eventIndices := [], bErrorSet := false }) := by
  refine ⟨by decide, by decide, by decide, by decide⟩

/-- C7: whatever the input, when `SplitChannels` (ZLE or raw) or `SplitChannelsNewFW`, started
with empty `timeStamps` and `channels`, returns, the buffer vector, the size vector, `timeStamps`
and `channels` have the same length and every entry of `channels` is in `0..7`; consequently
`Process` runs its loop over that output to the end: the `ERROR in CHANNEL` return is not taken
(nor is a vector read out of range).  Moreover the parsers do not loop for ever: with fuel above
the buffer lengths (buffers shorter than `2^32 - 8` words) they return or fault, never running
out of fuel. -/
theorem parser_output_aligned (fuel : Nat) (blts : List (List Nat × Nat))
    (eventIndices : List Nat) (zle : Bool) :
    (∀ out : Parsed,
      (SplitChannels fuel blts [] [] eventIndices zle = Except.ok out ∨
        SplitChannelsNewFW fuel blts [] [] = Except.ok out) →
      out.retsize.length = out.retbuff.length ∧ out.timeStamps.length = out.retbuff.length ∧
      out.channels.length = out.retbuff.length ∧ (∀ x ∈ out.channels, x < 8) ∧
      ∀ (iModule : Int) (resetCounterStart headerTime : Nat),
        ∃ (tl : Timeline) (recs : List Record),
          processRound iModule resetCounterStart headerTime out = Except.ok (tl, recs) ∧
          recs.length = out.retbuff.length) ∧
    ((∀ b ∈ blts, b.1.length + 6 ≤ fuel ∧ b.1.length + 8 < 4294967296) →
      SplitChannels fuel blts [] [] eventIndices zle ≠ Except.error Fault.fuel ∧
      SplitChannelsNewFW fuel blts [] [] ≠ Except.error Fault.fuel) := by
  refine ⟨?_, fun hb => ⟨splitChannelsBufs_total zle fuel blts _ hb, newFWBufs_total fuel blts _ hb⟩⟩
  intro out hparse
  have hal : out.Aligned := by
    rcases hparse with h | h
    · exact splitChannelsBufs_aligned zle fuel blts _ out
        ⟨rfl, rfl, rfl, fun x hx => by cases hx⟩ h
    · exact newFWBufs_aligned fuel blts _ out ⟨rfl, rfl, rfl, fun x hx => by cases hx⟩ h
  obtain ⟨h1, h2, h3, h4⟩ := hal
  refine ⟨h1, h2, h3, h4, ?_⟩
  intro iModule r headerTime
  refine ⟨_, _, processRound_run iModule r headerTime out h2 h3 h1 h4, ?_⟩
  rw [recordsRun_length, out.quads_length out.retbuff.length h2 h3 rfl h1]

/-- Witness for C7: a legacy ZLE buffer with one header, channel 0, one good-data block. -/
theorem parser_output_aligned_witness :
    ∃ out : Parsed,
      SplitChannels 20 [([2684354576, 1, 0, 1000, 6, 3, 2147483650, 11, 12, 2147483648], 40)]
        [] [] [] true = Except.ok out ∧
      out.retsize.length = out.retbuff.length ∧ out.timeStamps.length = out.retbuff.length ∧
      out.channels.length = out.retbuff.length ∧ (∀ x ∈ out.channels, x < 8) ∧
      ∀ (iModule : Int) (resetCounterStart headerTime : Nat),
        ∃ (tl : Timeline) (recs : List Record),
          processRound iModule resetCounterStart headerTime out = Except.ok (tl, recs) ∧
          recs.length = out.retbuff.length :=
  ⟨_, rfl, (parser_output_aligned 20
    [([2684354576, 1, 0, 1000, 6, 3, 2147483650, 11, 12, 2147483648], 40)] [] true).1 _
    (Or.inl rfl)⟩

/-- C8 (amended): for the first occurrence of channel `c` in a BLT group (the occurrences before
it, `pre`, are on other channels), with seed `r`, header time `h` at read and raw time `t`, both
below `2^31`: after that iteration of the loop of `Process` the reset counter of `c` is `r - 1`
if `|h - t| > 10^9`, `t > h` and `r > 0`; is `r + 1` reduced modulo `2^32` if `|h - t| > 10^9`
otherwise; is `r` if `|h - t| <= 10^9`; and the record of the occurrence carries that counter
times `2^31` plus `t`. -/
theorem reset_epoch_seeding (iModule : Int) (r h c t : Nat) (p : Parsed)
    (pre post : List (Nat × Nat × List Nat × Nat)) (buff : List Nat) (sz : Nat)
    (h1 : p.timeStamps.length = p.retbuff.length) (h2 : p.channels.length = p.retbuff.length)
    (h4 : p.retsize.length = p.retbuff.length) (hch : ∀ x ∈ p.channels, x < 8)
    (hq : p.quads = pre ++ (t, c, buff, sz) :: post) (hfirst : ∀ q ∈ pre, q.2.1 ≠ c)
    (hr : r < 4294967296) (hh : h < 2147483648) (ht : t < 2147483648) :
    ∃ (tl : Timeline) (recs : List Record) (rec : Record),
      processFor iModule h p (pre.length + 1) 0 (Timeline.start r) [] = Except.ok (tl, recs) ∧
      recs[pre.length]? = some rec ∧
      rec.channel = (c : Int) ∧
      tl.ChannelResetCounters.getD c 0 =
        (if 1000000000 < |(h : Int) - (t : Int)| then
          (if h < t ∧ 0 < r then r - 1 else (r + 1) % 4294967296)
        else r) ∧
      rec.time = ((tl.ChannelResetCounters.getD c 0 : Nat) : Int) * 2147483648 + (t : Int) ∧
      ∃ (tl2 : Timeline) (recs2 : List Record),
        processRound iModule r h p = Except.ok (tl2, recs2) ∧ recs2[pre.length]? = some rec := by
  have hn := p.quads_length p.retbuff.length h1 h2 rfl h4
  have hlen : pre.length + 1 + post.length = p.retbuff.length := by
    rw [← hn, hq]; simp; omega
  have hc : c < 8 := quads_channel_lt p hch (t, c, buff, sz) (by rw [hq]; simp)
  have hpre8 : ∀ q ∈ pre, q.2.1 < 8 := fun q hm => quads_channel_lt p hch q (by rw [hq]; simp [hm])
  have htake : (p.quads.drop 0).take (pre.length + 1) = pre ++ [(t, c, buff, sz)] := by
    rw [List.drop_zero, hq]
    have : pre ++ (t, c, buff, sz) :: post = (pre ++ [(t, c, buff, sz)]) ++ post := by simp
    rw [this]
    have hl : (pre ++ [(t, c, buff, sz)]).length = pre.length + 1 := by simp
    rw [← hl, List.take_left]
  have hrun := processFor_run iModule h p p.retbuff.length h1 h2 rfl h4 hch (pre.length + 1) 0
    (Timeline.start r) [] (by omega)
  rw [htake] at hrun
  have hwpre := timelineRun_WF h pre (Timeline.start r) (Timeline.WF_start r)
  have hchanpre : (timelineRun h (Timeline.start r) pre).chan c =
      { saw := false, ctr := r, prev := 0 } := by
    rw [timelineRun_chan_other h c pre _ hfirst, start_chan r c hc]
  have hTL : timelineRun h (Timeline.start r) (pre ++ [(t, c, buff, sz)]) =
      timelineStep h (timelineRun h (Timeline.start r) pre) t c := by
    have : ∀ (xs ys : List (Nat × Nat × List Nat × Nat)) (tl : Timeline),
        timelineRun h tl (xs ++ ys) = timelineRun h (timelineRun h tl xs) ys := by
      intro xs
      induction xs with
      | nil => intro ys tl; simp [timelineRun]
      | cons x xs ih => intro ys tl; obtain ⟨a, b, c, d⟩ := x; simp [timelineRun, ih]
    rw [this]; simp [timelineRun]
  have hstate : (timelineStep h (timelineRun h (Timeline.start r) pre) t c).chan c =
      chanStep h { saw := false, ctr := r, prev := 0 } t := by
    rw [chan_step_same h _ t c hwpre hc, hchanpre]
  have hctrv : (timelineStep h (timelineRun h (Timeline.start r) pre) t c).ChannelResetCounters.getD
      c 0 = (chanStep h { saw := false, ctr := r, prev := 0 } t).ctr := by
    have := congrArg ChanState.ctr hstate
    simpa [Timeline.chan] using this
  have hrecs : recordsRun iModule h (Timeline.start r) (pre ++ [(t, c, buff, sz)]) =
      recordsRun iModule h (Timeline.start r) pre ++
        [{ module := iModule, channel := (c : Int),
           time := liftTime (timelineStep h (timelineRun h (Timeline.start r) pre) t c) t c,
           endtime := liftTime (timelineStep h (timelineRun h (Timeline.start r) pre) t c) t c +
             (sz : Int), data := buff }] := by
    rw [recordsRun_append]; simp [recordsRun]
  refine ⟨_, _,
    { module := iModule, channel := (c : Int),
      time := liftTime (timelineStep h (timelineRun h (Timeline.start r) pre) t c) t c,
      endtime := liftTime (timelineStep h (timelineRun h (Timeline.start r) pre) t c) t c +
        (sz : Int), data := buff }, hrun, ?_, ?_, ?_, ?_, ?_⟩
  · rw [List.nil_append, hrecs]
    rw [List.getElem?_append_right (by rw [recordsRun_length])]
    simp [recordsRun_length]
  · rfl
  · rw [hTL, hctrv]
    exact chanStep_first h r t hr hh ht
  · rw [hTL, liftTime_chan, hstate, hctrv]
    exact chanLift_eq _ t (chanStep_ctr_lt h _ t hr) ht
  · refine ⟨_, _, processRound_run iModule r h p h1 h2 h4 hch, ?_⟩
    rw [hq]
    have : pre ++ (t, c, buff, sz) :: post = (pre ++ [(t, c, buff, sz)]) ++ post := by simp
    rw [this, recordsRun_append, hrecs]
    rw [List.getElem?_append_left (by simp [recordsRun_length])]
    rw [List.getElem?_append_right (by rw [recordsRun_length])]
    simp [recordsRun_length]

/-- Witness for C8: the specification's example, seed `5`, header time `0x7FFFFFF0`, first raw
time `0xF`: the counter becomes `6` and the time `6 * 2^31 + 0xF`. -/
theorem reset_epoch_seeding_witness :
    ∃ (tl : Timeline) (recs : List Record) (rec : Record),
      processFor 0 2147483632
        { retbuff := [[7]], retsize := [4], timeStamps := [15], channels := [3],
          eventIndices := [], bErrorSet := false } (0 + 1) 0 (Timeline.start 5) [] =
          Except.ok (tl, recs) ∧
      recs[0]? = some rec ∧
      rec.channel = 3 ∧
      tl.ChannelResetCounters.getD 3 0 = 6 ∧
      rec.time = 6 * 2147483648 + 15 := by
  obtain ⟨tl, recs, rec, e1, e2, e3, e4, e5, _⟩ :=
    reset_epoch_seeding 0 5 2147483632 3 15
      { retbuff := [[7]], retsize := [4], timeStamps := [15], channels := [3],
        eventIndices := [], bErrorSet := false } [] [] [7] 4 rfl rfl rfl (by decide) rfl
      (by simp) (by decide) (by decide) (by decide)
  refine ⟨tl, recs, rec, e1, e2, e3, ?_, ?_⟩
  · rw [e4]; decide
  · rw [e5, e4]; decide

/-- Counterexample to C8 as stated: with seed `r = 2^32 - 1`, header time `0x7FFFFFF0` and first
raw time `0xF` (far apart, `t < h`), the 32-bit counter wraps to `0`, not `r + 1`, and the time
written is `0xF`, not `(r + 1) * 2^31 + 0xF`. -/
theorem reset_epoch_seeding_counterexample :
    ∃ (tl : Timeline) (recs : List Record),
      processRound 0 4294967295 2147483632
        { retbuff := [[7]], retsize := [4], timeStamps := [15], channels := [3],
          eventIndices := [], bErrorSet := false } = Except.ok (tl, recs) ∧
      (1000000000 : Int) < |(2147483632 : Int) - 15| ∧
      tl.ChannelResetCounters.getD 3 0 = 0 ∧
      tl.ChannelResetCounters.getD 3 0 ≠ 4294967295 + 1 ∧
      recs.map (fun x => x.time) = [15] ∧
      recs.map (fun x => x.time) ≠ [(4294967295 + 1) * 2147483648 + 15] := by
  refine ⟨_, _, rfl, by decide, by decide, by decide, by decide, by decide⟩

/-- C9: for the occurrences of one channel `c` within a BLT group (any parser output, other
channels interleaved at will) whose raw times are below `2^31`, with consecutive raw times of
the channel different, and whose reset counter does not overflow 32 bits (the counters of
`idealCounters` stay below `2^32`), `Process` completes the group and the 64-bit times it writes
for channel `c` are strictly increasing. -/
theorem time64_strictly_increasing (iModule : Int) (r headerTime c : Nat) (p : Parsed)
    (h1 : p.timeStamps.length = p.retbuff.length) (h2 : p.channels.length = p.retbuff.length)
    (h4 : p.retsize.length = p.retbuff.length) (hch : ∀ x ∈ p.channels, x < 8)
    (hc : c < 8) (hr : r < 4294967296)
    (h31 : ∀ t ∈ p.timesOn c, t < 2147483648)
    (hne : List.Chain' (fun a b => a ≠ b) (p.timesOn c))
    (hno : ∀ x ∈ idealCounters headerTime { saw := false, ctr := r, prev := 0 } (p.timesOn c),
      x < 4294967296) :
    ∃ (tl : Timeline) (recs : List Record),
      processRound iModule r headerTime p = Except.ok (tl, recs) ∧
      recs.length = p.retbuff.length ∧
      (timesOf recs c).length = (p.timesOn c).length ∧
      List.Pairwise (fun a b : Int => a < b) (timesOf recs c) := by
  have hn := p.quads_length p.retbuff.length h1 h2 rfl h4
  have hT := timesOf_recordsRun iModule headerTime c hc p.quads (Timeline.start r)
    (Timeline.WF_start r) (quads_channel_lt p hch)
  rw [start_chan r c hc] at hT
  have hlenT : ∀ (ts : List Nat) (s : ChanState), (chanTimes headerTime s ts).length = ts.length := by
    intro ts
    induction ts with
    | nil => intro s; rfl
    | cons t ts ih => intro s; simp only [chanTimes, List.length_cons, ih]
  refine ⟨_, _, processRound_run iModule r headerTime p h1 h2 h4 hch, ?_, ?_, ?_⟩
  · rw [recordsRun_length, hn]
  · rw [hT, hlenT]; rfl
  · rw [hT]
    exact List.chain'_iff_pairwise.mp (chanTimes_chain headerTime _ _ hr h31 hne hno)

/-- Witness for C9: channel 0 wraps exactly three times (`200 → 50`, `60 → 20`, `30 → 10`),
with an occurrence of channel 1 in between. -/
theorem time64_strictly_increasing_witness :
    ∃ (tl : Timeline) (recs : List Record),
      processRound 0 0 100
        { retbuff := [[], [], [], [], [], [], [], []], retsize := [0, 0, 0, 0, 0, 0, 0, 0],
          timeStamps := [100, 200, 50, 7, 60, 20, 30, 10], channels := [0, 0, 0, 1, 0, 0, 0, 0],
          eventIndices := [], bErrorSet := false } = Except.ok (tl, recs) ∧
      timesOf recs 0 = [100, 200, 2147483698, 2147483708, 4294967316, 4294967326, 6442450954] ∧
      List.Pairwise (fun a b : Int => a < b) (timesOf recs 0) := by
  obtain ⟨tl, recs, e1, _, _, e4⟩ :=
    time64_strictly_increasing 0 0 100 0
      { retbuff := [[], [], [], [], [], [], [], []], retsize := [0, 0, 0, 0, 0, 0, 0, 0],
        timeStamps := [100, 200, 50, 7, 60, 20, 30, 10], channels := [0, 0, 0, 1, 0, 0, 0, 0],
        eventIndices := [], bErrorSet := false }
      rfl rfl rfl (by decide) (by decide) (by decide) (by decide)
      (by simp [Parsed.timesOn, Parsed.quads]) (by decide)
  refine ⟨tl, recs, e1, ?_, e4⟩
  have e5 : processRound 0 0 100
        { retbuff := [[], [], [], [], [], [], [], []], retsize := [0, 0, 0, 0, 0, 0, 0, 0],
          timeStamps := [100, 200, 50, 7, 60, 20, 30, 10], channels := [0, 0, 0, 1, 0, 0, 0, 0],
          eventIndices := [], bErrorSet := false } = Except.ok (tl, recs) → 
      timesOf recs 0 = [100, 200, 2147483698, 2147483708, 4294967316, 4294967326, 6442450954] := by
    intro e
    have e6 := Except.ok.inj e
    rw [← (Prod.mk.inj e6).2]
    decide
  exact e5 e1

/-- C10 (amended): in one iteration of the loop of `Process`, with `c` the channel's 32-bit reset
counter after the update steps and `ts` the 32-bit timestamp delivered by the parser, the time
written to the record is the 64-bit sum `(c << 31) + ts`; it is `(c << 31) | ts` whenever
`ts < 2^31`. -/
theorem lifted_time_formula (iModule : Int) (headerTime : Nat) (p : Parsed) (b ts ch : Nat)
    (buff : List Nat) (sz : Nat) (tl : Timeline) (recs : List Record)
    (hw : tl.WF) (hctr : ∀ x ∈ tl.ChannelResetCounters, x < 4294967296)
    (e1 : p.timeStamps[b]? = some ts) (e2 : p.channels[b]? = some ch)
    (e3 : p.retbuff[b]? = some buff) (e4 : p.retsize[b]? = some sz) (hch : ch < 8) :
    ∃ (tl1 : Timeline) (rec : Record),
      processFor iModule headerTime p 1 b tl recs = Except.ok (tl1, recs ++ [rec]) ∧
      tl1.ChannelResetCounters.getD ch 0 < 4294967296 ∧
      rec.time = toInt64 ((tl1.ChannelResetCounters.getD ch 0 <<< 31) + ts) ∧
      (ts < 2147483648 →
        rec.time = (((tl1.ChannelResetCounters.getD ch 0 <<< 31) ||| ts : Nat) : Int)) := by
  have hlt := counters_lt_step headerTime tl ts ch hw hch hctr
  refine ⟨timelineStep headerTime tl ts ch,
    { module := iModule, channel := (ch : Int),
      time := liftTime (timelineStep headerTime tl ts ch) ts ch,
      endtime := liftTime (timelineStep headerTime tl ts ch) ts ch + (sz : Int),
      data := buff }, ?_, hlt, ?_, ?_⟩
  · rw [processFor_succ iModule headerTime p 0 b tl recs ts ch buff sz e1 e2 e3 e4 hch, processFor]
  · show liftTime _ ts ch = _
    unfold liftTime
    rw [toInt64_mod]
  · intro hts
    show liftTime _ ts ch = _
    unfold liftTime
    rw [toInt64_mod]
    have e : (2 : Nat) ^ 31 = 2147483648 := by norm_num
    have hor := Nat.mul_add_lt_is_or (i := 31) (b := ts) (by rw [e]; exact hts)
      ((timelineStep headerTime tl ts ch).ChannelResetCounters.getD ch 0)
    rw [Nat.shiftLeft_eq, Nat.mul_comm _ (2 ^ 31), ← hor, e]
    exact toInt64_small _ (by omega)

/-- Witness for C10: counter `6` and timestamp `0xF` give `(6 << 31) | 0xF`. -/
theorem lifted_time_formula_witness :
    ∃ (tl1 : Timeline) (rec : Record),
      processFor 0 2147483632
        { retbuff := [[7]], retsize := [4], timeStamps := [15], channels := [3],
          eventIndices := [], bErrorSet := false } 1 0 (Timeline.start 5) [] =
          Except.ok (tl1, [] ++ [rec]) ∧
      tl1.ChannelResetCounters.getD 3 0 < 4294967296 ∧
      rec.time = toInt64 ((tl1.ChannelResetCounters.getD 3 0 <<< 31) + 15) ∧
      ((15 : Nat) < 2147483648 →
        rec.time = (((tl1.ChannelResetCounters.getD 3 0 <<< 31) ||| 15 : Nat) : Int)) :=
  lifted_time_formula 0 2147483632
    { retbuff := [[7]], retsize := [4], timeStamps := [15], channels := [3],
      eventIndices := [], bErrorSet := false } 0 15 3 [7] 4 (Timeline.start 5) []
    (Timeline.WF_start 5) (by decide) rfl rfl rfl rfl (by decide)

/-- Counterexample to C10 as stated: the ZLE parser delivers the timestamp `0x80000001` (header
time `0x7FFFFFFF` plus two skipped samples); with seed `2` and header time at read `0` the
counter of channel 0 becomes `1`, and `Process` writes `(1 << 31) + 0x80000001 = 2^32 + 1`, while
`(1 << 31) | 0x80000001 = 2^31 + 1`. -/
theorem lifted_time_formula_counterexample :
    ∃ (p : Parsed) (tl : Timeline) (recs : List Record),
      SplitChannels 10 [([2684354560, 1, 0, 2147483647, 3, 1, 2147483648], 28)] [] [] [] true =
        Except.ok p ∧
      p.timeStamps = [2147483649] ∧
      processRound 0 2 0 p = Except.ok (tl, recs) ∧
      tl.ChannelResetCounters.getD 0 0 = 1 ∧
      recs.map (fun x => x.time) = [4294967297] ∧
      recs.map (fun x => x.time) ≠
        [(((tl.ChannelResetCounters.getD 0 0 <<< 31) ||| 2147483649 : Nat) : Int)] := by
  refine ⟨_, _, _, rfl, rfl, rfl, by decide, by decide, by decide⟩

/-- C11 (amended). Rotation flush homogeneity: with `rotating_collections = 1` and every insert
succeeding, a round of `Process` entered with a vector whose documents were built with the counter
that `LAST_RESET_COUNT` holds (the empty vector of the start, or what the previous round left)
makes only calls of `InsertThreaded` whose batch holds documents built with one and the same
channel reset counter, and the epoch tag passed is that counter converted to a 32-bit `int`: the
counter itself when it is below `2^31`.  The round leaves the batching variables in such a state
again. -/
theorem rotation_flush_homogeneity (o : BatchOptions) (ins : Nat → Bool) (iModule : Int)
    (resetCounterStart headerTime : Nat) (p : Parsed) (s : Batching)
    (hrot : o.rotating_collections = some 1) (hins : ∀ n, ins n = true)
    (hr : resetCounterStart < 4294967296)
    (hs : s.Rotated) (hc : ∀ c ∈ s.calls, c.Homogeneous) :
    (∀ c ∈ (mongoRound o ins iModule resetCounterStart headerTime p s).1.calls,
      ∃ v, c.batch = some v ∧
        (∀ d1 ∈ v, ∀ d2 ∈ v, d1.resetCounter = d2.resetCounter) ∧
        ∀ d ∈ v, c.tag = toInt32 d.resetCounter ∧
          (d.resetCounter < 2147483648 → c.tag = (d.resetCounter : Int))) ∧
    (mongoRound o ins iModule resetCounterStart headerTime p s).1.Rotated ∧
    ∀ c ∈ (mongoRound o ins iModule resetCounterStart headerTime p s).1.calls,
      c.Homogeneous := by
  obtain ⟨r1, c1⟩ := mongoFor_rotated o ins iModule headerTime p (rotating_true_of_eq o hrot) hins
    p.retbuff.length 0 (Timeline.start resetCounterStart) s
    (Timeline.Fits_start resetCounterStart hr) hs hc
  refine ⟨?_, r1, c1⟩
  intro c hcm
  obtain ⟨v, hv, hb⟩ := c1 c hcm
  refine ⟨v, hv, ?_, ?_⟩
  · intro d1 h1 d2 h2
    exact toInt32_inj _ _ (hb d1 h1).1 (hb d2 h2).1 ((hb d1 h1).2.trans (hb d2 h2).2.symm)
  · intro d hd
    refine ⟨(hb d hd).2.symm, ?_⟩
    intro hsmall
    rw [← (hb d hd).2]
    unfold toInt32
    rw [Nat.mod_eq_of_lt (hb d hd).1, if_pos hsmall]

theorem rotation_flush_homogeneity_witness :
    (∀ c ∈ (mongoRound { rotating_collections := some 1, min_insert_size := 1 }
        (fun _ => true) 7 5 8
        { retbuff := [[1], [2], [3], [4], [5]], retsize := [4, 4, 4, 4, 4],
          timeStamps := [10, 20, 30, 5, 6], channels := [0, 0, 1, 0, 1],
          eventIndices := [], bErrorSet := false } Batching.start).1.calls,
      ∃ v, c.batch = some v ∧
        (∀ d1 ∈ v, ∀ d2 ∈ v, d1.resetCounter = d2.resetCounter) ∧
        ∀ d ∈ v, c.tag = toInt32 d.resetCounter ∧
          (d.resetCounter < 2147483648 → c.tag = (d.resetCounter : Int))) ∧
    (mongoRound { rotating_collections := some 1, min_insert_size := 1 }
        (fun _ => true) 7 5 8
        { retbuff := [[1], [2], [3], [4], [5]], retsize := [4, 4, 4, 4, 4],
          timeStamps := [10, 20, 30, 5, 6], channels := [0, 0, 1, 0, 1],
          eventIndices := [], bErrorSet := false } Batching.start).1.calls.map
      (fun c => (c.batch.map (fun v => v.map Doc.resetCounter), c.tag)) =
      [(some [], 0), (some [5, 5], 5), (some [5], 5), (some [6, 6], 6)] :=
  ⟨(rotation_flush_homogeneity { rotating_collections := some 1, min_insert_size := 1 }
      (fun _ => true) 7 5 8
      { retbuff := [[1], [2], [3], [4], [5]], retsize := [4, 4, 4, 4, 4],
        timeStamps := [10, 20, 30, 5, 6], channels := [0, 0, 1, 0, 1],
        eventIndices := [], bErrorSet := false } Batching.start rfl (fun _ => rfl) (by decide)
      ⟨by decide, by decide, [], rfl, fun d hd => by cases hd⟩
      (fun c hc => by cases hc)).1, by decide⟩

theorem rotation_flush_homogeneity_counterexample :
    ∃ c ∈ (mongoRound { rotating_collections := some 1, min_insert_size := 100 }
        (fun _ => true) 7 2147483648 0
        { retbuff := [[1]], retsize := [4], timeStamps := [10], channels := [0],
          eventIndices := [], bErrorSet := false } Batching.start).1.calls,
      ∃ v, c.batch = some v ∧ ∃ d ∈ v,
        d.resetCounter = 2147483648 ∧ c.tag = -2147483648 ∧ (d.resetCounter : Int) ≠ c.tag := by
  refine ⟨{ batch := some [{ record := { module := 7, channel := 0,
                                          time := 4611686018427387914,
                                          endtime := 4611686018427387918, data := [1] },
                             resetCounter := 2147483648 }],
            tag := -2147483648 }, by decide, _, rfl, _, List.mem_singleton.2 rfl, rfl, rfl,
    by decide⟩

/-- C12. Batch threshold: with rotation off, `mongo_min_insert_size = N >= 0`, every insert
succeeding and a round of `M` parsed occurrences entered with the empty vector, the loop of
`Process` runs to its end and its calls of `InsertThreaded` are exactly the batches of
`batchesOf`: the `k`-th call hands over the documents `k (N + 1) + 1 .. (k + 1) (N + 1)` of the
round (so it is made after occurrence `(k + 1) (N + 1)`), a last call hands over the
`M mod (N + 1)` documents left after occurrence `M` when that number is not zero, and there is
no other call; the vector is empty when the round ends. -/
theorem batch_threshold (o : BatchOptions) (N : Nat) (ins : Nat → Bool) (iModule : Int)
    (resetCounterStart headerTime : Nat) (p : Parsed) (L : Int)
    (hrot : o.rotating_collections ≠ some 1) (hN : o.min_insert_size = (N : Int))
    (hN31 : N < 2147483648) (hins : ∀ n, ins n = true) (hp : p.Aligned) :
    (mongoRound o ins iModule resetCounterStart headerTime p
        { vMongoInsertVec := some [], LAST_RESET_COUNT := L, calls := [] }).2 =
      LoopEnd.completed ∧
    (mongoRound o ins iModule resetCounterStart headerTime p
        { vMongoInsertVec := some [], LAST_RESET_COUNT := L, calls := [] }).1.calls =
      (batchesOf N (docsRun iModule headerTime (Timeline.start resetCounterStart) p.quads)).map
        (fun b => { batch := some b, tag := -1 }) ∧
    (mongoRound o ins iModule resetCounterStart headerTime p
        { vMongoInsertVec := some [], LAST_RESET_COUNT := L, calls := [] }).1.vMongoInsertVec =
      some [] ∧
    (docsRun iModule headerTime (Timeline.start resetCounterStart) p.quads).map Doc.record =
      recordsRun iModule headerTime (Timeline.start resetCounterStart) p.quads ∧
    (docsRun iModule headerTime (Timeline.start resetCounterStart) p.quads).length =
      p.retbuff.length ∧
    (batchesOf N (docsRun iModule headerTime (Timeline.start resetCounterStart) p.quads)).map
        List.length =
      List.replicate (p.retbuff.length / (N + 1)) (N + 1) ++
        (if p.retbuff.length % (N + 1) = 0 then [] else [p.retbuff.length % (N + 1)]) := by
  obtain ⟨h4, h1, h2, hch⟩ := hp
  have hq := p.quads_length p.retbuff.length h1 h2 rfl h4
  have hlen : (docsRun iModule headerTime (Timeline.start resetCounterStart) p.quads).length =
      p.retbuff.length := by rw [docsRun_length, hq]
  have hrun : mongoRound o ins iModule resetCounterStart headerTime p
      { vMongoInsertVec := some [], LAST_RESET_COUNT := L, calls := [] } =
      batchRun o ins (docsRun iModule headerTime (Timeline.start resetCounterStart) p.quads)
        { vMongoInsertVec := some [], LAST_RESET_COUNT := L, calls := [] } := by
    unfold mongoRound
    rw [mongoFor_run o ins iModule headerTime p h1 h2 h4 hch p.retbuff.length 0 _ _ (by omega),
      List.drop_zero]
  obtain ⟨b1, b2, b3⟩ := batchRun_threshold o ins N (rotating_false_of_ne o hrot) hN hN31 hins
    (docsRun iModule headerTime (Timeline.start resetCounterStart) p.quads) [] L []
    (Nat.zero_le _)
  rw [hrun]
  refine ⟨b1, ?_, ?_, docsRun_record _ _ _ _, hlen, batchesOf_lengths N _ _ hlen⟩
  · rw [b2, List.nil_append]
    by_cases hd : docsRun iModule headerTime (Timeline.start resetCounterStart) p.quads = []
    · rw [hd, batchesOf_nil]
      rfl
    · rw [chunkRun_eq_batchesOf N _ [] hd (Nat.zero_le _), List.nil_append]
  · by_cases hd : docsRun iModule headerTime (Timeline.start resetCounterStart) p.quads = []
    · rw [hd]
      rfl
    · exact b3 hd

set_option maxRecDepth 100000 in
theorem batch_threshold_witness :
    (mongoRound { rotating_collections := none, min_insert_size := 100 } (fun _ => true) 7 5 8
        { retbuff := List.replicate 203 [1], retsize := List.replicate 203 4,
          timeStamps := List.replicate 203 10, channels := List.replicate 203 0,
          eventIndices := [], bErrorSet := false }
        { vMongoInsertVec := some [], LAST_RESET_COUNT := 0, calls := [] }).1.calls.map
      (fun c => (c.batch.map List.length, c.tag)) =
      [(some 101, -1), (some 101, -1), (some 1, -1)] := by
  obtain ⟨_, hcalls, _, _, _, hlens⟩ :=
    batch_threshold { rotating_collections := none, min_insert_size := 100 } 100
      (fun _ => true) 7 5 8
      { retbuff := List.replicate 203 [1], retsize := List.replicate 203 4,
        timeStamps := List.replicate 203 10, channels := List.replicate 203 0,
        eventIndices := [], bErrorSet := false } 0 (by decide) rfl (by decide) (fun _ => rfl)
      ⟨by simp only [List.length_replicate], by simp only [List.length_replicate],
        by simp only [List.length_replicate],
        fun x hx => by rw [List.eq_of_mem_replicate hx]; decide⟩
  have hmap : ∀ bs : List (List Doc),
      (bs.map (fun b => ({ batch := some b, tag := -1 } : InsertCall))).map
        (fun c => (c.batch.map List.length, c.tag)) =
      (bs.map List.length).map (fun n => (some n, (-1 : Int))) := by
    intro bs
    simp [List.map_map, Function.comp]
  rw [hcalls, hmap, hlens.trans (by decide : _ = [101, 101, 1])]
  rfl

/-- C13. Rotation disabled tag: when the option `rotating_collections` is absent or different
from 1, every call of `InsertThreaded` that a round of `Process` makes passes the epoch tag
`-1`, whatever the occurrences and their reset counters, the results of the inserts and the
batching variables it is entered with (vector, NULL or not, and `LAST_RESET_COUNT`). -/
theorem rotation_disabled_tag (o : BatchOptions) (ins : Nat → Bool) (iModule : Int)
    (resetCounterStart headerTime : Nat) (p : Parsed) (s : Batching)
    (hrot : o.rotating_collections ≠ some 1) :
    ∃ cs, (mongoRound o ins iModule resetCounterStart headerTime p s).1.calls = s.calls ++ cs ∧
      ∀ c ∈ cs, c.tag = -1 :=
  mongoFor_tags_off o ins iModule headerTime p (rotating_false_of_ne o hrot) p.retbuff.length 0
    (Timeline.start resetCounterStart) s

theorem rotation_disabled_tag_witness :
    ∃ cs, (mongoRound { rotating_collections := some 0, min_insert_size := 1 } (fun n => n != 1)
        7 5 8
        { retbuff := [[1], [2], [3], [4], [5]], retsize := [4, 4, 4, 4, 4],
          timeStamps := [10, 20, 30, 5, 6], channels := [0, 0, 1, 0, 1],
          eventIndices := [], bErrorSet := false }
        { vMongoInsertVec := some [], LAST_RESET_COUNT := 3, calls := [] }).1.calls = [] ++ cs ∧
      cs.length = 2 ∧ ∀ c ∈ cs, c.tag = -1 := by
  obtain ⟨cs, h1, h2⟩ :=
    rotation_disabled_tag { rotating_collections := some 0, min_insert_size := 1 }
      (fun n => n != 1) 7 5 8
      { retbuff := [[1], [2], [3], [4], [5]], retsize := [4, 4, 4, 4, 4],
        timeStamps := [10, 20, 30, 5, 6], channels := [0, 0, 1, 0, 1],
        eventIndices := [], bErrorSet := false }
      { vMongoInsertVec := some [], LAST_RESET_COUNT := 3, calls := [] } (by decide)
  refine ⟨cs, h1, ?_, h2⟩
  have hl := congrArg List.length h1
  rw [List.nil_append] at hl
  rw [← hl]
  decide

/-- C14 (the code departs from the claim). For every buffer holding at least `size/4` words and
every even `bins_baseline >= 2`, `GetBufferIntegral` returns the sum of
`(baseline - first sample) + (baseline - second sample)` over the words after index
`bins_baseline/2`, with `baseline` the mean of the samples of the words before that index: the
word at index `bins_baseline/2`, whose samples are the first two after the baseline window, is
used up by the branch that divides the baseline and adds nothing to the integral. -/
theorem integral_definition (buffvec : List Nat) (size bins_baseline : Nat)
    (heven : bins_baseline % 2 = 0) (h2 : 2 ≤ bins_baseline)
    (hsize : size / 4 ≤ buffvec.length) :
    GetBufferIntegral buffvec size bins_baseline =
      Except.ok ((((buffvec.take (size / 4)).drop (bins_baseline / 2 + 1)).map
        (wordTerm ((((buffvec.take (size / 4)).take (bins_baseline / 2)).map wordSum).sum /
          (bins_baseline : ℚ)))).sum) := by
  have hb : (if bins_baseline % 2 = 1 then bins_baseline - 1 else bins_baseline) =
      bins_baseline := if_neg (by omega)
  unfold GetBufferIntegral
  simp only
  rw [hb, if_neg (by omega)]
  exact integralLoop_words buffvec bins_baseline (size / 4) hsize

theorem integral_definition_witness :
    GetBufferIntegral [0x00010001, 0x00010001, 0x00020002, 0x00020002] 16 4 = Except.ok (-2) ∧
    integralOfSamples [0x00010001, 0x00010001, 0x00020002, 0x00020002] 16 4 = -4 := by
  have a1 : (0x00010001 &&& 0x3FFF : Nat) = 1 := by decide
  have a2 : ((0x00010001 >>> 16) &&& 0x3FFF : Nat) = 1 := by decide
  have a3 : (0x00020002 &&& 0x3FFF : Nat) = 2 := by decide
  have a4 : ((0x00020002 >>> 16) &&& 0x3FFF : Nat) = 2 := by decide
  constructor
  · rw [integral_definition [0x00010001, 0x00010001, 0x00020002, 0x00020002] 16 4 (by decide)
      (by decide) (by decide)]
    norm_num [wordTerm, wordSum, a1, a2, a3, a4]
  · norm_num [integralOfSamples, samplesOf, a1, a2, a3, a4]

/-- C15 (amended). `GetBufferIntegral` returns 0 whenever `bins_baseline` is smaller than 2
(0 or 1), for every buffer and size; an odd `bins_baseline` is lowered by one, and for 3 or more
the integral is then computed with that even value instead of being refused. -/
theorem integral_baseline_validation (buffvec : List Nat) (size bins_baseline : Nat) :
    (bins_baseline < 2 → GetBufferIntegral buffvec size bins_baseline = Except.ok 0) ∧
    (bins_baseline % 2 = 1 →
      GetBufferIntegral buffvec size bins_baseline =
        GetBufferIntegral buffvec size (bins_baseline - 1)) := by
  constructor
  · intro h
    unfold GetBufferIntegral
    simp only
    rw [if_pos]
    split_ifs <;> omega
  · intro h
    unfold GetBufferIntegral
    simp only
    rw [if_pos h, if_neg (by omega : ¬ (bins_baseline - 1) % 2 = 1)]

theorem integral_baseline_validation_witness :
    GetBufferIntegral [0x00010001, 0, 0x00020002] 12 1 = Except.ok 0 ∧
    GetBufferIntegral [0x00010001, 0, 0x00020002] 12 3 =
      GetBufferIntegral [0x00010001, 0, 0x00020002] 12 (3 - 1) :=
  ⟨(integral_baseline_validation [0x00010001, 0, 0x00020002] 12 1).1 (by decide),
    (integral_baseline_validation [0x00010001, 0, 0x00020002] 12 3).2 (by decide)⟩

theorem integral_baseline_validation_counterexample :
    (3 : Nat) % 2 = 1 ∧
    GetBufferIntegral [0x00010001, 0, 0x00020002] 12 3 = Except.ok (-2) ∧
    GetBufferIntegral [0x00010001, 0, 0x00020002] 12 3 ≠ Except.ok 0 := by
  have a1 : (0x00010001 &&& 0x3FFF : Nat) = 1 := by decide
  have a2 : ((0x00010001 >>> 16) &&& 0x3FFF : Nat) = 1 := by decide
  have a3 : (0x00020002 &&& 0x3FFF : Nat) = 2 := by decide
  have a4 : ((0x00020002 >>> 16) &&& 0x3FFF : Nat) = 2 := by decide
  have e : GetBufferIntegral [0x00010001, 0, 0x00020002] 12 3 = Except.ok (-2) := by
    norm_num [GetBufferIntegral, integralLoop, rd, a1, a2, a3, a4]
  refine ⟨by decide, e, ?_⟩
  rw [e]
  intro h
  injection h with h
  norm_num at h

/-- C16. Bucketed sharding plan: for every non-empty board list of `n` ids (fewer than `2^31`)
and the 3 shards, with `m = ceil(n/3)` and `s` the ids sorted ascending, the plan returns 0 after
issuing the split commands at `s[m], s[2m], ...` (the indices `j*m < n` with `j >= 1`, in that
order; there are at most two), then the migration of the chunk holding `s[0]` to shard 0 and of
the chunk found at the `k`-th split point to shard `k`. -/
theorem bucketed_sharding_plan (fuel : Nat) (boardList : List Int) (hne : boardList ≠ [])
    (hlen : boardList.length < 2147483648) (hfuel : boardList.length ≤ fuel) :
    ∃ (s : List Int) (m : Nat),
      List.Sorted (fun a b => a ≤ b) s ∧ s.Perm boardList ∧
      m = (boardList.length + 2) / 3 ∧ 0 < m ∧
      (∀ j, (j + 1) * m < boardList.length ↔ j < (boardList.length - 1) / m) ∧
      (boardList.length - 1) / m ≤ 2 ∧
      bucketedSharding fuel boardList = Except.ok (0,
        (List.range ((boardList.length - 1) / m)).map
            (fun j => AdminCommand.split (s.getD ((j + 1) * m) 0)) ++
          AdminCommand.moveChunk (s.getD 0 0) 0 ::
            (List.range ((boardList.length - 1) / m)).map
              (fun j => AdminCommand.moveChunk (s.getD ((j + 1) * m) 0) (j + 1))) := by
  have hn : 0 < boardList.length := List.length_pos.2 hne
  have hsl : (boardList.insertionSort (fun a b => a ≤ b)).length = boardList.length :=
    List.length_insertionSort _ _
  obtain ⟨hm, hmn, hcnt⟩ := ceil_third_bounds boardList.length hn
  have hm3 : (boardList.length + 3 - 1) / 3 = (boardList.length + 2) / 3 := rfl
  rw [hm3] at hm hmn hcnt
  refine ⟨boardList.insertionSort (fun a b => a ≤ b), (boardList.length + 2) / 3,
    List.sorted_insertionSort _ _, List.perm_insertionSort _ _, rfl, hm, ?_, hcnt, ?_⟩
  · intro j
    rw [Nat.lt_iff_add_one_le, Nat.lt_iff_add_one_le, Nat.le_div_iff_mul_le hm]
    omega
  · have hsplit := splitLoop_run (boardList.insertionSort (fun a b => a ≤ b))
      ((boardList.length + 2) / 3) hm (by rw [hsl]; exact hlen) (by rw [hsl]; exact hmn) fuel
      ((boardList.length + 2) / 3) []
    rw [hsl] at hsplit
    have hsub : boardList.length + (boardList.length + 2) / 3 - 1 - (boardList.length + 2) / 3 =
        boardList.length - 1 := by omega
    rw [hsub, List.nil_append] at hsplit
    have hsplit2 := hsplit (by
      have := Nat.div_le_self (boardList.length - 1) ((boardList.length + 2) / 3)
      omega)
    unfold bucketedSharding
    simp only [hsl]
    have hsh : shards.length = 3 := rfl
    rw [hsh, hm3, if_neg (by omega), hsplit2]
    simp only
    rw [migrateLoop_run _ _ (by rw [hsl]; exact hn) _ 0 (by omega)]
    simp only [List.length_map, List.length_range]
    rw [List.range_succ_eq_map, List.map_cons, List.map_map, List.map_map]
    congr 3
    · apply List.map_congr_left
      intro j _
      simp only [Function.comp]
      congr 2
      ring
    · refine congrArg₂ List.cons rfl ?_
      apply List.map_congr_left
      intro j hj
      have hj2 : j < (boardList.length - 1) / ((boardList.length + 2) / 3) := List.mem_range.1 hj
      simp only [Function.comp, Nat.zero_add, Nat.succ_eq_add_one, Nat.add_sub_cancel]
      rw [if_neg (by omega), Nat.mod_eq_of_lt (by omega)]
      congr 1
      rw [List.getD_eq_getElem?_getD, List.getElem?_map, List.getElem?_range hj2]
      simp only [Option.map_some', Option.getD_some]
      congr 1
      ring

theorem bucketed_sharding_plan_witness :
    (∃ (s : List Int) (m : Nat),
      List.Sorted (fun a b => a ≤ b) s ∧ s.Perm [3, 1, 2, 9, 8, 7, 4, 5, 6] ∧
      m = (([3, 1, 2, 9, 8, 7, 4, 5, 6] : List Int).length + 2) / 3 ∧ 0 < m ∧
      (∀ j, (j + 1) * m < ([3, 1, 2, 9, 8, 7, 4, 5, 6] : List Int).length ↔
        j < (([3, 1, 2, 9, 8, 7, 4, 5, 6] : List Int).length - 1) / m) ∧
      (([3, 1, 2, 9, 8, 7, 4, 5, 6] : List Int).length - 1) / m ≤ 2 ∧
      bucketedSharding 9 [3, 1, 2, 9, 8, 7, 4, 5, 6] = Except.ok (0,
        (List.range ((([3, 1, 2, 9, 8, 7, 4, 5, 6] : List Int).length - 1) / m)).map
            (fun j => AdminCommand.split (s.getD ((j + 1) * m) 0)) ++
          AdminCommand.moveChunk (s.getD 0 0) 0 ::
            (List.range ((([3, 1, 2, 9, 8, 7, 4, 5, 6] : List Int).length - 1) / m)).map
              (fun j => AdminCommand.moveChunk (s.getD ((j + 1) * m) 0) (j + 1)))) ∧
    bucketedSharding 9 [3, 1, 2, 9, 8, 7, 4, 5, 6] = Except.ok (0,
      [AdminCommand.split 4, AdminCommand.split 7, AdminCommand.moveChunk 1 0,
        AdminCommand.moveChunk 4 1, AdminCommand.moveChunk 7 2]) :=
  ⟨bucketed_sharding_plan 9 [3, 1, 2, 9, 8, 7, 4, 5, 6] (by decide) (by decide) (by decide),
    by decide⟩

/-- C17. Run-mode inheritance: for every collection and mode name that is found, whose parent
chain ends within the fuel and has no `parent` field that is not a string, `PullRunMode` returns
0 and hands over a document that holds, for every field other than `parent`, the value of the
nearest document along the chain child, parent, grandparent, ... that has the field; the
document is the child's own when no ancestor was merged, and otherwise its `parent` field is
that of the last ancestor merged, or `"none"` when that ancestor has none.  The chain is the
whole chain: more fuel finds no further ancestor. -/
theorem run_mode_inheritance (fuel : Nat) (coll : List BsonObj) (name : String)
    (hfound : (findOne coll name).length ≠ 0)
    (hfin : (ancestors coll fuel (findOne coll name)).length < fuel)
    (hstr : ∀ x ∈ findOne coll name :: ancestors coll fuel (findOne coll name),
      parentIsString x = true) :
    ∃ out, PullRunMode fuel (some coll) name = Except.ok (some out) ∧
      (∀ f, f ≠ "parent" →
        out.lookup f =
          firstDefined f (findOne coll name :: ancestors coll fuel (findOne coll name))) ∧
      (ancestors coll fuel (findOne coll name) = [] → out = findOne coll name) ∧
      (∀ a, (ancestors coll fuel (findOne coll name)).getLast? = some a →
        out.lookup "parent" = some ((a.lookup "parent").getD (BsonValue.str "none"))) ∧
      ∀ k, ancestors coll (fuel + k) (findOne coll name) =
        ancestors coll fuel (findOne coll name) := by
  obtain ⟨out, ho, hof, hoe, hol⟩ :=
    pullLoop_chain coll fuel (findOne coll name) (findOne coll name) (Or.inl rfl) hfin
      (fun x hx => parentIsString_spec x (hstr x hx))
  have hcoll : coll.length ≠ 0 := by
    intro h
    have : coll = [] := List.length_eq_zero.1 h
    subst this
    exact hfound rfl
  refine ⟨out, ?_, ?_, hoe, hol, ancestors_stable coll fuel _ hfin⟩
  · unfold PullRunMode
    simp only [hcoll, hfound, if_false, ho]
  · intro f hf
    rw [hof f hf, firstDefined_cons]

theorem run_mode_inheritance_witness :
    (∃ out, PullRunMode 2
        (some [[("name", BsonValue.str "child"), ("a", BsonValue.num 1),
                ("parent", BsonValue.str "p")],
               [("name", BsonValue.str "p"), ("a", BsonValue.num 9), ("b", BsonValue.num 2)]])
        "child" = Except.ok (some out) ∧
      out.lookup "a" = some (BsonValue.num 1) ∧ out.lookup "b" = some (BsonValue.num 2) ∧
      out.lookup "parent" = some (BsonValue.str "none")) ∧
    PullRunMode 2
        (some [[("name", BsonValue.str "child"), ("a", BsonValue.num 1),
                ("parent", BsonValue.str "p")],
               [("name", BsonValue.str "p"), ("b", BsonValue.num 2),
                ("parent", BsonValue.str "none")]])
        "child" =
      Except.ok (some [("parent", BsonValue.str "none"), ("name", BsonValue.str "child"),
        ("a", BsonValue.num 1), ("b", BsonValue.num 2)]) := by
  constructor
  · obtain ⟨out, h1, h2, _, h4, _⟩ := run_mode_inheritance 2
      [[("name", BsonValue.str "child"), ("a", BsonValue.num 1),
        ("parent", BsonValue.str "p")],
       [("name", BsonValue.str "p"), ("a", BsonValue.num 9), ("b", BsonValue.num 2)]]
      "child" (by decide) (by decide) (by decide)
    refine ⟨out, h1, ?_, ?_, ?_⟩
    · rw [h2 "a" (by decide)]
      decide
    · rw [h2 "b" (by decide)]
      decide
    · rw [h4 [("name", BsonValue.str "p"), ("a", BsonValue.num 9), ("b", BsonValue.num 2)]
        (by decide)]
      decide
  · decide

/-- C18 (the code departs from the claim). The parent walk of `PullRunMode` comes to an end,
by a return or by the exception of `String()`, whenever the parent chain is finite.  It does
not for every finite collection: on the collection made of the one mode `a` whose `parent` is
`a` itself, the walk for `a` meets none of its three exits, and whatever the fuel, it is used
up. -/
theorem run_mode_cycle_never_ends :
    (∀ (fuel : Nat) (coll : List BsonObj) (name : String),
      (ancestors coll fuel (findOne coll name)).length < fuel →
        PullRunMode fuel (some coll) name ≠ Except.error PullFault.fuel) ∧
    ∀ fuel, PullRunMode fuel
      (some [[("name", BsonValue.str "a"), ("parent", BsonValue.str "a")]]) "a" =
        Except.error PullFault.fuel := by
  constructor
  · intro fuel coll name hfin
    have h := pullLoop_within_fuel coll fuel (findOne coll name) (findOne coll name)
      (Or.inl rfl) hfin
    unfold PullRunMode
    simp only
    split_ifs
    · intro hc
      cases hc
    · intro hc
      cases hc
    · cases hr : pullLoop coll fuel (findOne coll name) with
      | ok out =>
        intro hc
        cases hc
      | error e =>
        intro hc
        simp only at hc
        rw [hr] at h
        injection hc with hc
        exact h (by rw [hc])
  · have step : ∀ fuel, pullLoop [[("name", BsonValue.str "a"), ("parent", BsonValue.str "a")]]
        fuel [("parent", BsonValue.str "a"), ("name", BsonValue.str "a")] =
          Except.error PullFault.fuel := by
      intro fuel
      induction fuel with
      | zero => rfl
      | succ fuel ih =>
        rw [pullLoop]
        exact ih
    intro fuel
    cases fuel with
    | zero => rfl
    | succ fuel =>
      have h := step fuel
      have e1 : pullLoop [[("name", BsonValue.str "a"), ("parent", BsonValue.str "a")]]
          (fuel + 1)
          (findOne [[("name", BsonValue.str "a"), ("parent", BsonValue.str "a")]] "a") =
          Except.error PullFault.fuel := by
        rw [pullLoop]
        exact h
      unfold PullRunMode
      simp only
      rw [if_neg (by decide), if_neg (by decide), e1]

theorem run_mode_cycle_never_ends_witness :
    PullRunMode 2
        (some [[("name", BsonValue.str "child"), ("a", BsonValue.num 1),
                ("parent", BsonValue.str "p")],
               [("name", BsonValue.str "p"), ("b", BsonValue.num 2),
                ("parent", BsonValue.str "none")]])
        "child" ≠ Except.error PullFault.fuel ∧
    PullRunMode 1000
        (some [[("name", BsonValue.str "a"), ("parent", BsonValue.str "a")]]) "a" =
      Except.error PullFault.fuel :=
  ⟨run_mode_cycle_never_ends.1 2 _ "child" (by decide), run_mode_cycle_never_ends.2 1000⟩

/-- C19 (the code departs from the claim). `UpdateEndTime` leaves the map `fLastDocOIDs` as it
was, whatever the detector and the replies of the database: the OID that `init()` renews is the
loop's copy of the entry.  So after a successful `UpdateEndTime("tpc")` on a remembered OID 7 a
second call runs the same two `findandmodify` commands with `_id` 7 again, and `end` is set
twice. -/
theorem stop_idempotence :
    (∀ (db : RunsCommand → Reply) (nowTime : Nat) (detector : String) (s : Master),
      (UpdateEndTime db nowTime detector s).1.fLastDocOIDs = s.fLastDocOIDs) ∧
    UpdateEndTime (fun _ => Reply.done) 100 "tpc"
        { m_collectionThreads := [], fLastDocOIDs := [("tpc", 7)], fRunsDB := true } =
      ({ m_collectionThreads := [], fLastDocOIDs := [("tpc", 7)], fRunsDB := true },
        [RunsCommand.setEnd 7 100, RunsCommand.setTransferred 7], CallEnd.returned 0) ∧
    UpdateEndTime (fun _ => Reply.done) 200 "tpc"
        (UpdateEndTime (fun _ => Reply.done) 100 "tpc"
          { m_collectionThreads := [], fLastDocOIDs := [("tpc", 7)], fRunsDB := true }).1 =
      ({ m_collectionThreads := [], fLastDocOIDs := [("tpc", 7)], fRunsDB := true },
        [RunsCommand.setEnd 7 200, RunsCommand.setTransferred 7], CallEnd.returned 0) := by
  refine ⟨?_, by decide, by decide⟩
  intro db nowTime detector s
  rw [UpdateEndTime_members]
  split_ifs <;> rfl

/-- C20 (the code departs from the claim). `UpdateEndTime(detector)` clears the `run` flag of
the worker registered under the very name `detector`, after which `IsRunning(detector)` is
false; but the workers are registered as `tpc` and `muon_veto`, so `UpdateEndTime("all")` finds
no worker named `all` and leaves both flags set: `IsRunning` stays true for both. -/
theorem stop_signals_workers :
    (∀ (db : RunsCommand → Reply) (nowTime : Nat) (detector : String) (s : Master),
      IsRunning (UpdateEndTime db nowTime detector s).1 detector = false) ∧
    IsRunning (UpdateEndTime (fun _ => Reply.done) 100 "all"
        { m_collectionThreads := [("muon_veto", { isOpen := true, run := true }),
                                  ("tpc", { isOpen := true, run := true })],
          fLastDocOIDs := [("muon_veto", 5), ("tpc", 7)], fRunsDB := true }).1 "tpc" = true ∧
    IsRunning (UpdateEndTime (fun _ => Reply.done) 100 "all"
        { m_collectionThreads := [("muon_veto", { isOpen := true, run := true }),
                                  ("tpc", { isOpen := true, run := true })],
          fLastDocOIDs := [("muon_veto", 5), ("tpc", 7)], fRunsDB := true }).1 "muon_veto" =
      true ∧
    (UpdateEndTime (fun _ => Reply.done) 100 "all"
        { m_collectionThreads := [("muon_veto", { isOpen := true, run := true }),
                                  ("tpc", { isOpen := true, run := true })],
          fLastDocOIDs := [("muon_veto", 5), ("tpc", 7)], fRunsDB := true }).2 =
      ([RunsCommand.setEnd 5 100, RunsCommand.setTransferred 5, RunsCommand.setEnd 7 100,
        RunsCommand.setTransferred 7], CallEnd.returned 0) := by
  refine ⟨?_, by decide, by decide, by decide⟩
  intro db nowTime detector s
  rw [UpdateEndTime_members]
  unfold IsRunning
  cases h : s.m_collectionThreads.lookup detector with
  | none =>
    simp only [Option.isSome_none, Bool.false_eq_true, if_false, h]
  | some t =>
    simp only [Option.isSome_some, if_true, lookup_clearRun detector t _ h]

/-- C21 (the code departs from the claim). A malformed `register`, `link` or `board` line of one
word is skipped and the lines after it are applied as if it were absent. A malformed one of two
words or more ends the loop by `break`: the options are those of the lines before it, and every
line after it is ignored. In the file `write_mode 2`, `register 8000`, `blt_size 5` the member
`blt_size` keeps the -1 of `Reset`, where the file without the second line sets it to the
conversion of `5`. -/
theorem malformed_directive_ends_parsing (StringToInt StringToHex : String → Int)
    (pre post : List String) (bad : String) (o : koOptions)
    (hhash : startsWithHash bad = false) (hbad : malformedDirective bad = true) :
    ((wordsOf bad).length < 2 →
      ReadParameterFile StringToInt StringToHex (some (pre ++ bad :: post)) o =
        ReadParameterFile StringToInt StringToHex (some (pre ++ post)) o) ∧
    (2 ≤ (wordsOf bad).length →
      ReadParameterFile StringToInt StringToHex (some (pre ++ bad :: post)) o =
        ReadParameterFile StringToInt StringToHex (some pre) o) ∧
    (ReadParameterFile StringToInt StringToHex
        (some ["write_mode 2", "register 8000", "blt_size 5", ""]) o).2.blt_size = -1 ∧
    (ReadParameterFile StringToInt StringToHex
        (some ["write_mode 2", "blt_size 5", ""]) o).2.blt_size = StringToInt "5" ∧
    (ReadParameterFile StringToInt StringToHex
        (some ["write_mode 2", "register 8000", "blt_size 5", ""]) o).1 = 0 := by
  refine ⟨?_, ?_, rfl, rfl, rfl⟩
  · intro h
    unfold ReadParameterFile
    simp only
    rw [readLoop_skip StringToInt StringToHex bad post
      (fun o1 => readLine_short StringToInt StringToHex o1 bad h)]
  · intro h
    unfold ReadParameterFile
    simp only
    rw [readLoop_break StringToInt StringToHex bad post
      (fun o1 => readLine_malformed StringToInt StringToHex o1 bad hhash hbad h)]

/-- C21, on the file `write_mode 2`, `register 8000`, `blt_size 5`: parsing it gives what
parsing its first line alone gives. -/
theorem malformed_directive_ends_parsing_witness :
    startsWithHash "register 8000" = false ∧ malformedDirective "register 8000" = true ∧
    2 ≤ (wordsOf "register 8000").length ∧
    ReadParameterFile (fun _ => 7) (fun _ => 7)
        (some (["write_mode 2"] ++ "register 8000" :: ["blt_size 5", ""])) (Reset
          { m_links := [], m_boards := [], m_registers := [], name := "", creator := "",
            creation_date := "", write_mode := 0, baseline_mode := 0, run_start := 0,
            run_start_module := 0, blt_size := 0, compression := 0, dynamic_run_names := true,
            mongo_address := "", mongo_database := "", mongo_collection := "",
            mongo_write_concern := 0, mongo_min_insert_size := 0, processing_mode := 0,
            processing_num_threads := 0, processing_readout_threshold := 0, file_path := "",
            file_events_per_file := 0 }) =
      ReadParameterFile (fun _ => 7) (fun _ => 7) (some ["write_mode 2"]) (Reset
          { m_links := [], m_boards := [], m_registers := [], name := "", creator := "",
            creation_date := "", write_mode := 0, baseline_mode := 0, run_start := 0,
            run_start_module := 0, blt_size := 0, compression := 0, dynamic_run_names := true,
            mongo_address := "", mongo_database := "", mongo_collection := "",
            mongo_write_concern := 0, mongo_min_insert_size := 0, processing_mode := 0,
            processing_num_threads := 0, processing_readout_threshold := 0, file_path := "",
            file_events_per_file := 0 }) :=
  ⟨by decide, by decide, by decide,
   (malformed_directive_ends_parsing (fun _ => 7) (fun _ => 7) ["write_mode 2"]
      ["blt_size 5", ""] "register 8000" _ (by decide) (by decide)).2.1 (by decide)⟩

/-- C22. `ReadParameterFile` starts with `Reset`, which assigns every member that the parse can
set: for every file (also one that cannot be opened) and every two prior states, the value
returned and the options afterwards are the same, and parsing the file again on the outcome of a
first parse gives that outcome again, so the lists of registers, links and boards have the same
entries after the second parse as after the first. -/
theorem read_parameter_file_state_independent (StringToInt StringToHex : String → Int)
    (file : Option (List String)) (o1 o2 : koOptions) :
    ReadParameterFile StringToInt StringToHex file o1 =
      ReadParameterFile StringToInt StringToHex file o2 ∧
    ReadParameterFile StringToInt StringToHex file
        (ReadParameterFile StringToInt StringToHex file o1).2 =
      ReadParameterFile StringToInt StringToHex file o1 ∧
    (ReadParameterFile StringToInt StringToHex file
        (ReadParameterFile StringToInt StringToHex file o1).2).2.m_registers =
      (ReadParameterFile StringToInt StringToHex file o1).2.m_registers ∧
    (ReadParameterFile StringToInt StringToHex file
        (ReadParameterFile StringToInt StringToHex file o1).2).2.m_links =
      (ReadParameterFile StringToInt StringToHex file o1).2.m_links ∧
    (ReadParameterFile StringToInt StringToHex file
        (ReadParameterFile StringToInt StringToHex file o1).2).2.m_boards =
      (ReadParameterFile StringToInt StringToHex file o1).2.m_boards := by
  have h : ∀ a b : koOptions, ReadParameterFile StringToInt StringToHex file a =
      ReadParameterFile StringToInt StringToHex file b := by
    intro a b
    unfold ReadParameterFile
    rw [Reset_const a b]
  refine ⟨h o1 o2, h _ o1, ?_, ?_, ?_⟩
  · rw [h _ o1]
  · rw [h _ o1]
  · rw [h _ o1]

/-- C23 (counterexample). For the detector `muon_veto`, with one existing run document of that
detector whose `number` is 5, the run document composed gets the `number` 0, not 6. -/
theorem run_number_counterexample :
    findLatest "muon_veto" [{ detector := "muon_veto", number := 5 }] =
      some { detector := "muon_veto", number := 5 } ∧
    run_number "muon_veto" (some [{ detector := "muon_veto", number := 5 }]) = Except.ok 0 := by
  decide

/-- C23 (amended). The run number is looked up for the detector `tpc` only. For every other
detector the `number` of the run document is 0, whatever the runs collection holds. For `tpc` it
is 0 when there is no run document of `tpc`, and else one plus the largest `number` among the
existing run documents of `tpc`, computed as an `int`: the sum itself when the largest number is
an `int` below `2^31 - 1`, and `-2^31` when it is `2^31 - 1`. The function returns -1 when the
query throws. -/
theorem run_number_tpc_only (detector : String) (docs : List RunDoc) :
    (detector ≠ "tpc" → ∀ runs, run_number detector runs = Except.ok 0) ∧
    ((∀ d ∈ docs, d.detector ≠ "tpc") → run_number "tpc" (some docs) = Except.ok 0) ∧
    ((∃ d ∈ docs, d.detector = "tpc") →
      ∃ obj ∈ docs, obj.detector = "tpc" ∧
        (∀ d ∈ docs, d.detector = "tpc" → d.number ≤ obj.number) ∧
        run_number "tpc" (some docs) = Except.ok (int32 (int32 obj.number + 1)) ∧
        (-2147483648 ≤ obj.number → obj.number < 2147483647 →
          run_number "tpc" (some docs) = Except.ok (obj.number + 1)) ∧
        (obj.number = 2147483647 →
          run_number "tpc" (some docs) = Except.ok (-2147483648))) ∧
    run_number "tpc" none = Except.error (-1) := by
  refine ⟨?_, ?_, ?_, rfl⟩
  · intro h runs
    unfold run_number
    rw [if_neg h]
  · intro h
    unfold run_number
    rw [if_pos rfl]
    simp only
    rw [(findLatest_none "tpc" docs).mpr h]
  · rintro ⟨d, hd, hdt⟩
    cases hf : findLatest "tpc" docs with
    | none => exact absurd hdt ((findLatest_none "tpc" docs).mp hf d hd)
    | some obj =>
      obtain ⟨hm, hdet, hmax⟩ := findLatest_some "tpc" docs obj hf
      have hrun : run_number "tpc" (some docs) = Except.ok (int32 (int32 obj.number + 1)) := by
        unfold run_number
        rw [if_pos rfl]
        simp only
        rw [hf]
      refine ⟨obj, hm, hdet, hmax, hrun, ?_, ?_⟩
      · intro h1 h2
        rw [hrun, int32_of_range obj.number h1 (by omega),
          int32_of_range (obj.number + 1) (by omega) (by omega)]
      · intro h
        rw [hrun, h]
        rfl

/-- C23, on a runs collection with two `tpc` documents and one of another detector. -/
theorem run_number_tpc_only_witness :
    (∃ d ∈ [({ detector := "tpc", number := 7 } : RunDoc),
            { detector := "muon_veto", number := 9 }, { detector := "tpc", number := 3 }],
        d.detector = "tpc") ∧
    ∃ obj ∈ [({ detector := "tpc", number := 7 } : RunDoc),
             { detector := "muon_veto", number := 9 }, { detector := "tpc", number := 3 }],
      obj.detector = "tpc" ∧
      (∀ d ∈ [({ detector := "tpc", number := 7 } : RunDoc),
              { detector := "muon_veto", number := 9 }, { detector := "tpc", number := 3 }],
          d.detector = "tpc" → d.number ≤ obj.number) ∧
      run_number "tpc"
          (some [{ detector := "tpc", number := 7 }, { detector := "muon_veto", number := 9 },
                 { detector := "tpc", number := 3 }]) =
        Except.ok (int32 (int32 obj.number + 1)) ∧
      (-2147483648 ≤ obj.number → obj.number < 2147483647 →
        run_number "tpc"
            (some [{ detector := "tpc", number := 7 }, { detector := "muon_veto", number := 9 },
                   { detector := "tpc", number := 3 }]) = Except.ok (obj.number + 1)) ∧
      (obj.number = 2147483647 →
        run_number "tpc"
            (some [{ detector := "tpc", number := 7 }, { detector := "muon_veto", number := 9 },
                   { detector := "tpc", number := 3 }]) = Except.ok (-2147483648)) :=
  ⟨⟨{ detector := "tpc", number := 7 }, List.mem_cons_self _ _, rfl⟩,
   (run_number_tpc_only "muon_veto"
      [{ detector := "tpc", number := 7 }, { detector := "muon_veto", number := 9 },
       { detector := "tpc", number := 3 }]).2.2.1
     ⟨{ detector := "tpc", number := 7 }, List.mem_cons_self _ _, rfl⟩⟩

/-- C24 (the code departs from the claim). The test that guards the alert ends in `&& false`, so
no alert is composed: for every priority, every state of the monitor connection and every answer
of the alerts collection, the only call of `InsertOnline` that `SendLogMessage` makes is the one
for the document of the `log` collection with the fields `message`, `priority`, `time` and
`sender`. With priority `ERROR`, a connected monitor database and an alerts collection whose
largest `idnum` is 4, the calls are that one call and none for the `alerts` collection. -/
theorem send_log_message_log_only (fMonitorDB : Bool) (fMonitorDBName fLogDBName : String)
    (alerts : AlertsReply) (currentTime : Nat) (message : String) (priority : Int) :
    SendLogMessage fMonitorDB fMonitorDBName fLogDBName alerts currentTime message priority =
      [{ DB := "log", collection := fLogDBName ++ ".log",
         bson := [("message", OnlineValue.text message), ("priority", OnlineValue.int priority),
                  ("time", OnlineValue.time currentTime),
                  ("sender", OnlineValue.text "dispatcher")] }] ∧
    (SendLogMessage true "run" "run" (AlertsReply.doc 4) 100 "crate 2 is down"
        KOMESS_ERROR).map (fun c => (c.DB, c.collection)) = [("log", "run.log")] := by
  constructor
  · unfold SendLogMessage
    simp
  · decide

/-- C25 (the code departs from the claim). A failed `InsertThreaded` sets `bExitCondition`, logs
the error and leaves the loop over the occurrences, but the loop over the digitizers of the same
pass goes on. With two digitizers that both hold one occurrence and an insert that always fails
(rotation off, threshold 0), the failed insert of digitizer 0 is the one call of
`InsertThreaded`; after it `ReadoutBuffer` is called on digitizer 1, and the worker then ends in
the `push_back` through the NULL vector. With rotation on and only the first insert failing, the
occurrence of digitizer 1 is appended and inserted after the failure. With the one digitizer
alone, the worker leaves the loop after the failed insert without another call. -/
theorem insert_error_keeps_reading :
    (Process { rotating_collections := none, min_insert_size := 0 } (fun _ => false)
        [[DigiPoll.data 1 0 0
            { retbuff := [[1]], retsize := [4], timeStamps := [10], channels := [0],
              eventIndices := [], bErrorSet := false },
          DigiPoll.data 2 0 0
            { retbuff := [[2]], retsize := [4], timeStamps := [20], channels := [0],
              eventIndices := [], bErrorSet := false }]]).2 = ProcessEnd.nullVector ∧
    (Process { rotating_collections := none, min_insert_size := 0 } (fun _ => false)
        [[DigiPoll.data 1 0 0
            { retbuff := [[1]], retsize := [4], timeStamps := [10], channels := [0],
              eventIndices := [], bErrorSet := false },
          DigiPoll.data 2 0 0
            { retbuff := [[2]], retsize := [4], timeStamps := [20], channels := [0],
              eventIndices := [], bErrorSet := false }]]).1.readouts = [(0, 0), (1, 1)] ∧
    (Process { rotating_collections := none, min_insert_size := 0 } (fun _ => false)
        [[DigiPoll.data 1 0 0
            { retbuff := [[1]], retsize := [4], timeStamps := [10], channels := [0],
              eventIndices := [], bErrorSet := false },
          DigiPoll.data 2 0 0
            { retbuff := [[2]], retsize := [4], timeStamps := [20], channels := [0],
              eventIndices := [], bErrorSet := false }]]).1.m_bErrorSet = true ∧
    (Process { rotating_collections := some 1, min_insert_size := 0 } (fun n => decide (n ≠ 0))
        [[DigiPoll.data 1 0 0
            { retbuff := [[1]], retsize := [4], timeStamps := [10], channels := [0],
              eventIndices := [], bErrorSet := false },
          DigiPoll.data 2 1 0
            { retbuff := [[2]], retsize := [4], timeStamps := [20], channels := [0],
              eventIndices := [], bErrorSet := false }],
         [DigiPoll.inactive, DigiPoll.inactive]]).1.batching.calls.map
          (fun c => (c.batch.map (fun b => b.map (fun d => d.record.module)), c.tag)) =
        [(some [1], 0), (none, 0), (some [2], 1)] ∧
    (Process { rotating_collections := some 1, min_insert_size := 0 } (fun n => decide (n ≠ 0))
        [[DigiPoll.data 1 0 0
            { retbuff := [[1]], retsize := [4], timeStamps := [10], channels := [0],
              eventIndices := [], bErrorSet := false },
          DigiPoll.data 2 1 0
            { retbuff := [[2]], retsize := [4], timeStamps := [20], channels := [0],
              eventIndices := [], bErrorSet := false }],
         [DigiPoll.inactive, DigiPoll.inactive]]).1.readouts = [(0, 0), (1, 1)] ∧
    Process { rotating_collections := none, min_insert_size := 0 } (fun _ => false)
        [[DigiPoll.data 1 0 0
            { retbuff := [[1]], retsize := [4], timeStamps := [10], channels := [0],
              eventIndices := [], bErrorSet := false }],
         [DigiPoll.data 1 0 0
            { retbuff := [[1]], retsize := [4], timeStamps := [10], channels := [0],
              eventIndices := [], bErrorSet := false }]] =
      ({ batching :=
           { vMongoInsertVec := none, LAST_RESET_COUNT := -1,
             calls := [{ batch := some [{ record := { module := 1, channel := 0, time := 10,
                                                      endtime := 14, data := [1] },
                                          resetCounter := 0 }],
                         tag := -1 }] },
         bExitCondition := true, m_bErrorSet := true, readouts := [(0, 0)] },
       ProcessEnd.left) := by
  refine ⟨?_, ?_, ?_, ?_, ?_, ?_⟩ <;> decide

/-- C26 (counterexample). At the end of the first iteration, made with 0 seconds elapsed, the
worker has provisioned cycle 2 only: the next cycle is 3, the test of the loop body still holds
for it, and 3 is below `0 * 1.1 / 21 + 10`. -/
theorem rolling_catch_up_counterexample :
    (CollectionThreadWrapper "localhost" [] [0]).counter = 3 ∧
    (CollectionThreadWrapper "localhost" [] [0]).made = [{ address := "localhost", cycle := 2 }] ∧
    readAhead 0 (CollectionThreadWrapper "localhost" [] [0]).counter = true ∧
    ¬ (((0 : Nat) : ℚ) * 1.1 / 21 + 10 ≤ ((CollectionThreadWrapper "localhost" [] [0]).counter : ℚ)) := by
  have h2 : readAhead 0 2 = true := readAhead_of_gt 0 2 (by decide) (by decide)
  have h : CollectionThreadWrapper "localhost" [] [0] =
      { counter := 3, made := [{ address := "localhost", cycle := 2 }] } := by
    unfold CollectionThreadWrapper
    rw [List.foldl_cons, List.foldl_nil]
    unfold rollingIteration
    rw [show Rolling.start.counter = 2 from rfl, if_pos h2]
    rfl
  rw [h]
  refine ⟨rfl, rfl, readAhead_of_gt 0 3 (by decide) (by decide), ?_⟩
  rw [behind_iff]; decide

/-- C26 (amended). The worker provisions at most one cycle per iteration. For every sequence of
clock readings the cycles provisioned are `2, 3, ..., counter - 1` in this order, each one once
on every distinct host address (once with the options as received when there are no hosts), and
their number is at most the number of iterations. An iteration made at `t` seconds elapsed
(`t < 2^32`) provisions the next cycle and increments the counter when `t * 1.1 / 21 + 10` is
above the counter, and does nothing when it is below; when the two are equal the test, made in
`double`, goes either way: at 840 seconds and counter 54 the cycle is provisioned, at 210
seconds and counter 21 it is not. With iterations one second apart, starting at 0 seconds
elapsed, the next cycle after `n` iterations is `n + 2` for `n ≤ 8`, which is below
`elapsed * 1.1 / 21 + 10`, and from the ninth iteration on it is at least that bound and at most
one above it. -/
theorem rolling_catch_up (address : String) (hosts : List (String × String))
    (clock : List Nat) (n : Nat) (s : Rolling) (t : Nat) :
    (∃ k : Nat, k ≤ clock.length ∧
      (CollectionThreadWrapper address hosts clock).counter = 2 + (k : Int) ∧
      (CollectionThreadWrapper address hosts clock).made =
        (List.range k).flatMap (fun i => provision address hosts (2 + (i : Int)))) ∧
    (distinctHosts [] hosts).Nodup ∧
    (∀ a, a ∈ distinctHosts [] hosts ↔ a ∈ hosts.map Prod.snd) ∧
    (t < 4294967296 → (t : ℚ) * 1.1 / 21 + 10 > (s.counter : ℚ) →
      rollingIteration address hosts s t =
        { counter := s.counter + 1, made := s.made ++ provision address hosts s.counter }) ∧
    (t < 4294967296 → (t : ℚ) * 1.1 / 21 + 10 < (s.counter : ℚ) →
      rollingIteration address hosts s t = s) ∧
    rollingIteration address hosts { counter := 54, made := s.made } 840 =
      { counter := 55, made := s.made ++ provision address hosts 54 } ∧
    rollingIteration address hosts { counter := 21, made := s.made } 210 =
      { counter := 21, made := s.made } ∧
    (1 ≤ n → n ≤ 8 →
      (CollectionThreadWrapper address hosts (List.range n)).counter = 2 + (n : Int) ∧
      ¬ (((n - 1 : Nat) : ℚ) * 1.1 / 21 + 10 ≤
          ((CollectionThreadWrapper address hosts (List.range n)).counter : ℚ))) ∧
    (9 ≤ n → n ≤ 4294967296 →
      ((n - 1 : Nat) : ℚ) * 1.1 / 21 + 10 ≤
        ((CollectionThreadWrapper address hosts (List.range n)).counter : ℚ) ∧
      ((CollectionThreadWrapper address hosts (List.range n)).counter : ℚ) - 1 ≤
        ((n - 1 : Nat) : ℚ) * 1.1 / 21 + 10) := by
  refine ⟨?_, distinctHosts_nodup hosts [] List.nodup_nil, ?_, ?_, ?_, ?_, ?_, ?_, ?_⟩
  · obtain ⟨j, hj, h1, h2⟩ := rolling_run address hosts clock Rolling.start 0 rfl rfl
    rw [Nat.zero_add] at h1 h2
    exact ⟨j, hj, h1, h2⟩
  · intro a
    rw [distinctHosts_mem]
    simp
  · intro ht h
    unfold rollingIteration
    rw [if_pos (readAhead_of_gt t s.counter ht ((exact_gt_iff t s.counter).mp h))]
  · intro ht h
    unfold rollingIteration
    have hn : ¬ readAhead t s.counter = true := by
      intro hr
      have h1 := readAhead_only_ge t s.counter ht hr
      have h2 := (exact_lt_iff t s.counter).mp h
      omega
    rw [if_neg hn]
  · unfold rollingIteration
    simp only
    rw [if_pos readAhead_tie_fires]
    rfl
  · unfold rollingIteration
    simp only
    rw [if_neg (by rw [readAhead_tie_silent]; decide)]
  · intro h1 h8
    have hc := rolling_first address hosts n (by omega)
    refine ⟨hc, ?_⟩
    rw [behind_iff, hc]
    omega
  · intro h9 hb
    have h := rolling_ahead address hosts n h9 hb
    have h2 := rolling_not_beyond address hosts n (by omega) hb
    constructor
    · rw [behind_iff]
      omega
    · have e : ((CollectionThreadWrapper address hosts (List.range n)).counter : ℚ) - 1 =
          (((CollectionThreadWrapper address hosts (List.range n)).counter - 1 : Int) : ℚ) := by
        push_cast; ring
      rw [e]
      by_contra hcon
      have h3 := (exact_lt_iff (n - 1)
        ((CollectionThreadWrapper address hosts (List.range n)).counter - 1)).mp
        (not_le.mp hcon)
      omega

/-- C26, at thirty iterations one second apart with two hosts on one address, and at an
iteration made at 100 seconds elapsed with the counter at 12. -/
theorem rolling_catch_up_witness :
    (9 ≤ 30 ∧ 30 ≤ 4294967296 ∧
      ((30 - 1 : Nat) : ℚ) * 1.1 / 21 + 10 ≤
        ((CollectionThreadWrapper "a" [("x", "h1"), ("y", "h1"), ("z", "h2")]
            (List.range 30)).counter : ℚ) ∧
      ((CollectionThreadWrapper "a" [("x", "h1"), ("y", "h1"), ("z", "h2")]
            (List.range 30)).counter : ℚ) - 1 ≤ ((30 - 1 : Nat) : ℚ) * 1.1 / 21 + 10) ∧
    (100 < 4294967296 ∧
      ((100 : Nat) : ℚ) * 1.1 / 21 + 10 > (({ counter := 12, made := [] } : Rolling).counter : ℚ) ∧
      rollingIteration "a" [("x", "h1"), ("y", "h1"), ("z", "h2")]
          { counter := 12, made := [] } 100 =
        { counter := 13,
          made := [{ address := "h1", cycle := 12 }, { address := "h2", cycle := 12 }] }) :=
  ⟨⟨by decide, by decide,
    (rolling_catch_up "a" [("x", "h1"), ("y", "h1"), ("z", "h2")] [] 30
      { counter := 12, made := [] } 100).2.2.2.2.2.2.2.2 (by decide) (by decide)⟩,
   ⟨by decide, by norm_num,
    (rolling_catch_up "a" [("x", "h1"), ("y", "h1"), ("z", "h2")] [] 30
      { counter := 12, made := [] } 100).2.2.2.1 (by decide) (by norm_num)⟩⟩

/-- C27 (the code departs from the claim). On the one-word buffer whose word is the header
`0xA0000000` (size field zero) the scan loop of `SplitBlocks` takes the size 0 from the header,
copies nothing, records an empty block and leaves the index where it was: whatever the fuel, it
is used up, and the function does not return.  The same happens on the header `0xA0000001`,
whose low 16 bits are 1, because `word & 0xFFFF*4` is `word & 0x3FFFC`. -/
theorem splitBlocks_zero_size_never_ends :
    blockSize 2684354560 = 0 ∧ blockSize 2684354561 = 0 ∧
    (∀ fuel out, splitBlocksScan [2684354560] 4 fuel 0 out = Except.error Fault.fuel) ∧
    (∀ fuel, SplitBlocks fuel [([2684354560], 4)] = Except.error Fault.fuel) ∧
    (∀ fuel, SplitBlocks fuel [([2684354561], 4)] = Except.error Fault.fuel) := by
  have scan : ∀ (w : Nat), w ≠ 4294967295 → w >>> 20 = 2560 → blockSize w = 0 →
      ∀ fuel out, splitBlocksScan [w] 4 fuel 0 out = Except.error Fault.fuel := by
    intro w h1 h2 h3 fuel
    induction fuel with
    | zero => intro out; rfl
    | succ fuel ih =>
      intro out
      rw [splitBlocksScan]
      have hrd : rd [w] 0 = Except.ok w := rfl
      have hu : u32 (0 + blockSize w) = 0 := by rw [h3]; rfl
      have hcp : copyWords [w] 0 0 = Except.ok [] := rfl
      rw [if_pos (by decide), hrd]
      simp only
      rw [if_pos h1, if_pos h2, hu, hcp]
      exact ih _
  have hfor : ∀ (w : Nat), w ≠ 4294967295 → w >>> 20 = 2560 → blockSize w = 0 →
      ∀ fuel, SplitBlocks fuel [([w], 4)] = Except.error Fault.fuel := by
    intro w h1 h2 h3 fuel
    unfold SplitBlocks
    rw [splitBlocksFor, if_neg (by decide), scan w h1 h2 h3]
  exact ⟨by decide, by decide, scan 2684354560 (by decide) (by decide) (by decide),
    hfor 2684354560 (by decide) (by decide) (by decide),
    hfor 2684354561 (by decide) (by decide) (by decide)⟩

/-- C28. Channels are independent in the timeline: for two parser outputs whose occurrences of
channel `c` carry the same raw times in the same order (the occurrences of the other channels
being arbitrary), processed with the same seed and header time, `Process` gives the records of
channel `c` the same 64-bit times and builds them with the same reset counters; both are the
values computed from the seed, the header time and the raw times of channel `c` alone.  And an
occurrence of channel `c` leaves the three entries of every other channel as they were. -/
theorem channels_independent (iModule : Int) (r headerTime c : Nat) (p1 p2 : Parsed)
    (hc : c < 8) (ha1 : p1.Aligned) (ha2 : p2.Aligned) (hsame : p1.timesOn c = p2.timesOn c) :
    (∃ tl1 recs1 tl2 recs2,
      processRound iModule r headerTime p1 = Except.ok (tl1, recs1) ∧
      processRound iModule r headerTime p2 = Except.ok (tl2, recs2) ∧
      timesOf recs1 c = chanTimes headerTime { saw := false, ctr := r, prev := 0 } (p1.timesOn c) ∧
      timesOf recs1 c = timesOf recs2 c) ∧
    countersOf (docsRun iModule headerTime (Timeline.start r) p1.quads) c =
      chanCounters headerTime { saw := false, ctr := r, prev := 0 } (p1.timesOn c) ∧
    countersOf (docsRun iModule headerTime (Timeline.start r) p1.quads) c =
      countersOf (docsRun iModule headerTime (Timeline.start r) p2.quads) c ∧
    ∀ (tl : Timeline) (t d : Nat), d ≠ c →
      (timelineStep headerTime tl t c).SawThisChannelOnce.getD d false =
        tl.SawThisChannelOnce.getD d false ∧
      (timelineStep headerTime tl t c).ChannelResetCounters.getD d 0 =
        tl.ChannelResetCounters.getD d 0 ∧
      (timelineStep headerTime tl t c).PrevTime.getD d 0 = tl.PrevTime.getD d 0 := by
  obtain ⟨a4, a1, a2, ach⟩ := ha1
  obtain ⟨b4, b1, b2, bch⟩ := ha2
  have hT1 := timesOf_recordsRun iModule headerTime c hc p1.quads (Timeline.start r)
    (Timeline.WF_start r) (quads_channel_lt p1 ach)
  have hT2 := timesOf_recordsRun iModule headerTime c hc p2.quads (Timeline.start r)
    (Timeline.WF_start r) (quads_channel_lt p2 bch)
  have hC1 := countersOf_docsRun iModule headerTime c hc p1.quads (Timeline.start r)
    (Timeline.WF_start r) (quads_channel_lt p1 ach)
  have hC2 := countersOf_docsRun iModule headerTime c hc p2.quads (Timeline.start r)
    (Timeline.WF_start r) (quads_channel_lt p2 bch)
  rw [start_chan r c hc] at hT1 hT2 hC1 hC2
  have hs : (p1.quads.filter (fun q => q.2.1 = c)).map (fun q => q.1) =
      (p2.quads.filter (fun q => q.2.1 = c)).map (fun q => q.1) := hsame
  refine ⟨⟨_, _, _, _, processRound_run iModule r headerTime p1 a1 a2 a4 ach,
    processRound_run iModule r headerTime p2 b1 b2 b4 bch, hT1, ?_⟩, hC1, ?_, ?_⟩
  · rw [hT1, hT2, hs]
  · rw [hC1, hC2, hs]
  · intro tl t d hd
    have h := chan_step_other headerTime tl t c d (fun e => hd e.symm)
    unfold Timeline.chan at h
    injection h with h1 h2 h3
    exact ⟨h1, h2, h3⟩

theorem channels_independent_witness :
    ∃ tl1 recs1 tl2 recs2,
      processRound 0 5 100
        { retbuff := [[], [], []], retsize := [0, 0, 0], timeStamps := [100, 200, 50],
          channels := [0, 0, 0], eventIndices := [], bErrorSet := false } =
        Except.ok (tl1, recs1) ∧
      processRound 0 5 100
        { retbuff := [[1], [], [2], [], [3], []], retsize := [4, 0, 4, 0, 4, 0],
          timeStamps := [7, 100, 2000000000, 200, 3, 50],
          channels := [1, 0, 2, 0, 1, 0], eventIndices := [], bErrorSet := false } =
        Except.ok (tl2, recs2) ∧
      timesOf recs1 0 = [10737418340, 10737418440, 12884901938] ∧
      timesOf recs1 0 = timesOf recs2 0 := by
  obtain ⟨⟨tl1, recs1, tl2, recs2, e1, e2, e3, e4⟩, _⟩ := channels_independent 0 5 100 0
    { retbuff := [[], [], []], retsize := [0, 0, 0], timeStamps := [100, 200, 50],
      channels := [0, 0, 0], eventIndices := [], bErrorSet := false }
    { retbuff := [[1], [], [2], [], [3], []], retsize := [4, 0, 4, 0, 4, 0],
      timeStamps := [7, 100, 2000000000, 200, 3, 50],
      channels := [1, 0, 2, 0, 1, 0], eventIndices := [], bErrorSet := false }
    (by decide) ⟨rfl, rfl, rfl, by decide⟩ ⟨rfl, rfl, rfl, by decide⟩ (by decide)
  refine ⟨tl1, recs1, tl2, recs2, e1, e2, ?_, e4⟩
  rw [e3]
  decide

/-- C29. Exactly-once batching: for every threshold and with rotation on or off, if every call of
`InsertThreaded` succeeds, a round of `Process` entered with the empty vector runs to its end,
every call hands over a vector that is not NULL, the documents handed over, taken in the order
of the calls, are exactly the documents built for the occurrences of the round in parse order
(their records are the records of `processFor`), and the vector is empty when the round
ends. -/
theorem exactly_once_batching (o : BatchOptions) (ins : Nat → Bool) (iModule : Int)
    (resetCounterStart headerTime : Nat) (p : Parsed) (L : Int)
    (hins : ∀ n, ins n = true) (hp : p.Aligned) :
    (mongoRound o ins iModule resetCounterStart headerTime p
        { vMongoInsertVec := some [], LAST_RESET_COUNT := L, calls := [] }).2 =
      LoopEnd.completed ∧
    (∀ c ∈ (mongoRound o ins iModule resetCounterStart headerTime p
        { vMongoInsertVec := some [], LAST_RESET_COUNT := L, calls := [] }).1.calls,
      c.batch.isSome = true) ∧
    handedOver (mongoRound o ins iModule resetCounterStart headerTime p
        { vMongoInsertVec := some [], LAST_RESET_COUNT := L, calls := [] }).1.calls =
      docsRun iModule headerTime (Timeline.start resetCounterStart) p.quads ∧
    (handedOver (mongoRound o ins iModule resetCounterStart headerTime p
        { vMongoInsertVec := some [], LAST_RESET_COUNT := L, calls := [] }).1.calls).map
        Doc.record =
      recordsRun iModule headerTime (Timeline.start resetCounterStart) p.quads ∧
    (handedOver (mongoRound o ins iModule resetCounterStart headerTime p
        { vMongoInsertVec := some [], LAST_RESET_COUNT := L, calls := [] }).1.calls).length =
      p.retbuff.length ∧
    (mongoRound o ins iModule resetCounterStart headerTime p
        { vMongoInsertVec := some [], LAST_RESET_COUNT := L, calls := [] }).1.vMongoInsertVec =
      some [] := by
  obtain ⟨h4, h1, h2, hch⟩ := hp
  have hq := p.quads_length p.retbuff.length h1 h2 rfl h4
  have hrun : mongoRound o ins iModule resetCounterStart headerTime p
      { vMongoInsertVec := some [], LAST_RESET_COUNT := L, calls := [] } =
      batchRun o ins (docsRun iModule headerTime (Timeline.start resetCounterStart) p.quads)
        { vMongoInsertVec := some [], LAST_RESET_COUNT := L, calls := [] } := by
    unfold mongoRound
    rw [mongoFor_run o ins iModule headerTime p h1 h2 h4 hch p.retbuff.length 0 _ _ (by omega),
      List.drop_zero]
  obtain ⟨b1, ⟨v1, hv1, hsum, hlast⟩, b3⟩ := batchRun_exactly_once o ins hins
    (docsRun iModule headerTime (Timeline.start resetCounterStart) p.quads)
    { vMongoInsertVec := some [], LAST_RESET_COUNT := L, calls := [] } [] rfl
    (fun c hc => by cases hc)
  have hv : v1 = [] := by
    by_cases hd : docsRun iModule headerTime (Timeline.start resetCounterStart) p.quads = []
    · rw [hd, batchRun] at hv1
      injection hv1 with hv1
      exact hv1.symm
    · exact hlast hd
  rw [hv, List.append_nil] at hsum
  have hdocs : handedOver (batchRun o ins
      (docsRun iModule headerTime (Timeline.start resetCounterStart) p.quads)
      { vMongoInsertVec := some [], LAST_RESET_COUNT := L, calls := [] }).1.calls =
      docsRun iModule headerTime (Timeline.start resetCounterStart) p.quads := by
    rw [hsum]
    simp [handedOver]
  rw [hrun]
  refine ⟨b1, b3, hdocs, ?_, ?_, ?_⟩
  · rw [hdocs, docsRun_record]
  · rw [hdocs, docsRun_length, hq]
  · rw [hv1, hv]

theorem exactly_once_batching_witness :
    (handedOver (mongoRound { rotating_collections := some 1, min_insert_size := 1 }
        (fun _ => true) 7 5 8
        { retbuff := [[1], [2], [3], [4], [5]], retsize := [4, 4, 4, 4, 4],
          timeStamps := [10, 20, 30, 5, 6], channels := [0, 0, 1, 0, 1],
          eventIndices := [], bErrorSet := false }
        { vMongoInsertVec := some [], LAST_RESET_COUNT := 0, calls := [] }).1.calls).map
        (fun d => d.record.data) = [[1], [2], [3], [4], [5]] ∧
    (mongoRound { rotating_collections := some 1, min_insert_size := 1 }
        (fun _ => true) 7 5 8
        { retbuff := [[1], [2], [3], [4], [5]], retsize := [4, 4, 4, 4, 4],
          timeStamps := [10, 20, 30, 5, 6], channels := [0, 0, 1, 0, 1],
          eventIndices := [], bErrorSet := false }
        { vMongoInsertVec := some [], LAST_RESET_COUNT := 0, calls := [] }).1.calls.map
        (fun c => c.batch.map List.length) = [some 0, some 2, some 1, some 2] := by
  obtain ⟨_, _, h3, _⟩ := exactly_once_batching
    { rotating_collections := some 1, min_insert_size := 1 } (fun _ => true) 7 5 8
    { retbuff := [[1], [2], [3], [4], [5]], retsize := [4, 4, 4, 4, 4],
      timeStamps := [10, 20, 30, 5, 6], channels := [0, 0, 1, 0, 1],
      eventIndices := [], bErrorSet := false } 0 (fun _ => rfl) ⟨rfl, rfl, rfl, by decide⟩
  refine ⟨?_, by decide⟩
  rw [h3]
  decide

/-- C30. Shard plan stays in range: for every non-empty board list (fewer than `2^31` ids) the
bucketed plan returns 0 without a read outside `sortedList` or `splitList`; it holds at most two
split commands, the largest index read in the sorted list, `k * ceil(n/3)` for `k` split points,
is below `n`, and its `moveChunk` commands go to the shards `0, 1, ..., k` in that order, so the
index `(x+1) % 3` does not wrap and no two of them name the same shard.  For the empty board
list the plan returns `-1` with no command and no read. -/
theorem shard_plan_in_range (fuel : Nat) (boardList : List Int) (hne : boardList ≠ [])
    (hlen : boardList.length < 2147483648) (hfuel : boardList.length ≤ fuel) :
    (∃ cmds, bucketedSharding fuel boardList = Except.ok (0, cmds) ∧
      (splitPoints cmds).length ≤ 2 ∧
      (splitPoints cmds).length * ((boardList.length + 2) / 3) < boardList.length ∧
      moveShards cmds = List.range ((splitPoints cmds).length + 1) ∧
      (moveShards cmds).Nodup ∧ ∀ k ∈ moveShards cmds, k < 3) ∧
    ∀ f, bucketedSharding f [] = Except.ok (-1, []) := by
  obtain ⟨sp, vals, h1, h2, h3⟩ := bucketedSharding_shape fuel boardList hne hlen hfuel
  have hn : 0 < boardList.length := List.length_pos.2 hne
  have hsp := splitPoints_plan sp ((List.range (sp.length + 1)).map (fun t => (vals t, t)))
  have hmv := moveShards_plan sp ((List.range (sp.length + 1)).map (fun t => (vals t, t)))
  have hmv2 : moveShards (sp.map AdminCommand.split ++
      ((List.range (sp.length + 1)).map (fun t => (vals t, t))).map
        (fun x => AdminCommand.moveChunk x.1 x.2)) = List.range (sp.length + 1) := by
    rw [hmv, List.map_map]
    exact List.map_id _
  refine ⟨⟨_, h3, ?_, ?_, ?_, ?_, ?_⟩, fun f => rfl⟩
  · rw [hsp]
    exact h2
  · rw [hsp, h1]
    have := Nat.div_mul_le_self (boardList.length - 1) ((boardList.length + 2) / 3)
    omega
  · rw [hsp, hmv2]
  · rw [hmv2]
    exact List.nodup_range _
  · intro k hk
    rw [hmv2] at hk
    have := List.mem_range.1 hk
    omega

theorem shard_plan_in_range_witness :
    (∃ cmds, bucketedSharding 7 [7, 3, 5, 1, 2, 6, 4] = Except.ok (0, cmds) ∧
      (splitPoints cmds).length ≤ 2 ∧
      (splitPoints cmds).length * ((([7, 3, 5, 1, 2, 6, 4] : List Int).length + 2) / 3) <
        ([7, 3, 5, 1, 2, 6, 4] : List Int).length ∧
      moveShards cmds = List.range ((splitPoints cmds).length + 1) ∧
      (moveShards cmds).Nodup ∧ ∀ k ∈ moveShards cmds, k < 3) ∧
    bucketedSharding 7 [7, 3, 5, 1, 2, 6, 4] = Except.ok (0,
      [AdminCommand.split 4, AdminCommand.split 7, AdminCommand.moveChunk 1 0,
        AdminCommand.moveChunk 4 1, AdminCommand.moveChunk 7 2]) :=
  ⟨(shard_plan_in_range 7 [7, 3, 5, 1, 2, 6, 4] (by decide) (by decide) (by decide)).1,
    by decide⟩

end Kodiaq
